import Mathlib

/-!
Flow table of `rte_table_netflow.c`.

A shallow embedding of the flow cache (creation, per-packet ingest, aggregate
statistics, CSV export) and theorems about it.

Modelling conventions.

* Unsigned C integers are natural numbers, reduced with `%` where the C
  arithmetic can wrap (`uint32_t idx`, the `uint64_t` byte and packet counters).
* A collision chain (`hashBucket_t` records linked through `next`, ending in
  `NULL`) is the list of its records in link order; the `next` link of a record
  is the tail of the list behind it, and the last record has a `NULL` link.
* `t->array` is a function from slot index to chain; the code only reads and
  writes indices below `n_entries`.
* Answers of the environment (allocator, clock, file system calls) are inputs.
* Operations that the C standard leaves undefined (a store through a `NULL`
  pointer, a division by zero, a write past the end of a buffer, signed
  overflow) end the run: the model returns no value there.
* `rte_table_netflow.h` is not part of the sources: its constants are fields of
  `Config`, and the widths of its integer fields are taken as 32 bits for
  addresses, 16 bits for ports, 8 bits for the protocol, ToS and TCP flags,
  and 64 bits for the counters.
-/

set_option autoImplicit false

namespace Netflow

/-! ## Constants and external primitives -/

/-- Constants of the header and of the platform that the C file uses. -/
structure Config where
  /-- Ceiling of the entry count, `MAX_ENTRY`. -/
  MAX_ENTRY : Nat
  /-- Initial size of the export buffer, `EXPORT_BUF_INITAL_SIZE`. -/
  EXPORT_BUF_INITAL_SIZE : Nat
  /-- Value of `sizeof(struct rte_table_netflow)`. -/
  sizeof_table : Nat
  /-- Value of `sizeof(hashBucket_t*)`. -/
  sizeof_ptr : Nat
  /-- Value of `RTE_CACHE_LINE_SIZE`. -/
  RTE_CACHE_LINE_SIZE : Nat
  /-- Whether the CPU is little endian. -/
  little_endian : Bool
  /-- The DPDK hash primitive `rte_hash_crc_4byte(data, init_val)`. -/
  rte_hash_crc_4byte : Nat → Nat → Nat

/-- Protocol number of TCP, `IPPROTO_TCP`. -/
def IPPROTO_TCP : Nat := 6

/-- Largest value of a C `int`, `INT_MAX`. -/
def INT_MAX : Nat := 2 ^ 31 - 1

/-- DPDK `rte_is_power_of_2(n)`: `n && !(n & (n - 1))`. -/
def rte_is_power_of_2 (n : Nat) : Bool :=
  n != 0 && (n &&& (n - 1)) == 0

/-- DPDK `rte_cpu_to_be_16(x)`: a byte swap on a little endian CPU, nothing on a
big endian one. -/
def rte_cpu_to_be_16 (little_endian : Bool) (x : Nat) : Nat :=
  if little_endian then (x % 256) * 256 + (x / 256) % 256 else x % 65536

/-- The two bytes that a 16-bit value occupies in memory, lowest address first. -/
def memory_bytes_16 (little_endian : Bool) (x : Nat) : Nat × Nat :=
  if little_endian then (x % 256, (x / 256) % 256) else ((x / 256) % 256, x % 256)

/-- Value of a 16-bit header field as the wire carries it (network order: the
first byte is the high one). -/
def wire_value_16 (little_endian : Bool) (x : Nat) : Nat :=
  (memory_bytes_16 little_endian x).1 * 256 + (memory_bytes_16 little_endian x).2

/-! ## Data model -/

/-- Wall clock value, `struct timeval`. -/
structure timeval where
  tv_sec : Int
  tv_usec : Int
  deriving DecidableEq, Repr

/-- Flow key, `union rte_table_netflow_key`. -/
structure rte_table_netflow_key where
  ip_src : Nat
  ip_dst : Nat
  port_src : Nat
  port_dst : Nat
  proto : Nat
  vlanId : Nat
  deriving DecidableEq, Repr

/-- The fields of `struct ipv4_hdr` that the table reads, as the CPU loads them. -/
structure ipv4_hdr where
  type_of_service : Nat
  total_length : Nat
  deriving DecidableEq, Repr

/-- The field of `struct tcp_hdr` that the table reads. -/
structure tcp_hdr where
  tcp_flags : Nat
  deriving DecidableEq, Repr

/-- Flow record, `hashBucket_t`, without its `next` link (see the conventions). -/
structure hashBucket_t where
  magic : Nat
  vlanId : Nat
  proto : Nat
  ip_src : Nat
  ip_dst : Nat
  port_src : Nat
  port_dst : Nat
  src2dstTos : Nat
  src2dstTcpFlags : Nat
  bytesSent : Nat
  pktSent : Nat
  bytesRcvd : Nat
  pktRcvd : Nat
  firstSeenSent : timeval
  lastSeenSent : timeval
  deriving DecidableEq, Repr

/-- A record as `rte_zmalloc` returns it: every byte zero. -/
def zeroed_bucket : hashBucket_t :=
  { magic := 0, vlanId := 0, proto := 0, ip_src := 0, ip_dst := 0, port_src := 0,
    port_dst := 0, src2dstTos := 0, src2dstTcpFlags := 0, bytesSent := 0, pktSent := 0,
    bytesRcvd := 0, pktRcvd := 0, firstSeenSent := ⟨0, 0⟩, lastSeenSent := ⟨0, 0⟩ }

/-- Creation parameters, `struct rte_table_netflow_params`. The hash function
reference is kept as an uninterpreted number. -/
structure rte_table_netflow_params where
  n_entries : Nat
  f_hash : Nat
  seed : Nat
  deriving DecidableEq, Repr

/-- The table, `struct rte_table_netflow`. -/
structure rte_table_netflow where
  entry_size : Nat
  n_entries : Nat
  f_hash : Nat
  seed : Nat
  array : Nat → List hashBucket_t

/-- Calls to the environment that a run performs, in order. -/
inductive Event where
  | zmalloc (size : Nat)
  | spinlock_init (i : Nat)
  | spinlock_lock (i : Nat)
  | spinlock_unlock (i : Nat)
  | malloc (size : Nat)
  | realloc (size : Nat)
  | open_file (path : String)
  | write_file (data : List Char)
  | close_file
  | rename_file (src dst : String)
  | exit_process (code : Nat)
  deriving DecidableEq, Repr

/-! ## Creation -/

/-- What `rte_table_netflow_create` leaves behind. -/
structure CreateResult where
  /-- The returned pointer; `none` is `NULL`. -/
  table : Option rte_table_netflow
  /-- The parameter block after the call (the clamp writes into it). -/
  params : rte_table_netflow_params
  /-- The process-wide counter after the call. -/
  global_packet_count : Nat
  /-- Allocator and lock calls made. -/
  events : List Event

/-- The size requested from the allocator, lines 77-81, in `uint32_t` arithmetic. -/
def create_total_size (cfg : Config) (n_entries : Nat) : Nat :=
  let total_cl_size :=
    ((cfg.sizeof_table + cfg.RTE_CACHE_LINE_SIZE) / cfg.RTE_CACHE_LINE_SIZE) % 2 ^ 32
  let total_cl_size :=
    (total_cl_size +
      (n_entries * cfg.sizeof_ptr + cfg.RTE_CACHE_LINE_SIZE) / cfg.RTE_CACHE_LINE_SIZE) % 2 ^ 32
  (total_cl_size * cfg.RTE_CACHE_LINE_SIZE) % 2 ^ 32

/-- The function `rte_table_netflow_create`. `zmalloc_ok` tells whether
`rte_zmalloc_socket` returns a block, `gpc` is `global_packet_count` before the
call. The parameter block is taken to be present (the code reads it before its
`NULL` test). -/
def rte_table_netflow_create (cfg : Config) (zmalloc_ok : Bool) (gpc : Nat)
    (params : rte_table_netflow_params) (socket_id : Int) (entry_size : Nat) : CreateResult :=
  let _ := socket_id
  let p : rte_table_netflow_params :=
    if params.n_entries > cfg.MAX_ENTRY then { params with n_entries := cfg.MAX_ENTRY }
    else params
  if p.n_entries = 0 ∨ rte_is_power_of_2 p.n_entries = false then
    { table := none, params := p, global_packet_count := gpc, events := [] }
  else
    let total_size := create_total_size cfg p.n_entries
    if zmalloc_ok = false then
      { table := none, params := p, global_packet_count := gpc,
        events := [Event.zmalloc total_size] }
    else
      { table := some
          { entry_size := entry_size, n_entries := p.n_entries, f_hash := p.f_hash,
            seed := p.seed, array := fun _ => [] },
        params := p,
        global_packet_count := 0,
        events := Event.zmalloc total_size ::
          (List.range p.n_entries).map Event.spinlock_init }

/-! ## Ingest -/

/-- One call of `rte_table_netflow_entry_add`: its arguments and the answers
of the environment during the call. -/
structure AddCall where
  key : rte_table_netflow_key
  ip : ipv4_hdr
  /-- The bytes behind the IPv4 header, read as a TCP header. -/
  tcp : tcp_hdr
  /-- What `gettimeofday` stores. -/
  curr : timeval
  /-- Whether `rte_zmalloc` returns a block, if it is called. -/
  zmalloc_ok : Bool
  deriving DecidableEq, Repr

/-- The match test of line 151. -/
def bucket_matches (k : rte_table_netflow_key) (b : hashBucket_t) : Bool :=
  b.ip_src == k.ip_src && b.ip_dst == k.ip_dst

/-- The update of a matching record, lines 152-170. -/
def update_bucket (cfg : Config) (c : AddCall) (b : hashBucket_t) : hashBucket_t :=
  { b with
    src2dstTos := b.src2dstTos ||| c.ip.type_of_service,
    src2dstTcpFlags :=
      if c.key.proto = IPPROTO_TCP then b.src2dstTcpFlags ||| c.tcp.tcp_flags
      else b.src2dstTcpFlags,
    bytesSent := (b.bytesSent + rte_cpu_to_be_16 cfg.little_endian c.ip.total_length) % 2 ^ 64,
    pktSent := (b.pktSent + 1) % 2 ^ 64,
    lastSeenSent := c.curr }

/-- The record built for a new flow, lines 185-214, from a zeroed block. -/
def new_bucket (cfg : Config) (c : AddCall) : hashBucket_t :=
  { zeroed_bucket with
    magic := 1,
    vlanId := c.key.vlanId,
    proto := c.key.proto,
    ip_src := c.key.ip_src,
    ip_dst := c.key.ip_dst,
    port_src := c.key.port_src,
    port_dst := c.key.port_dst,
    src2dstTos := c.ip.type_of_service,
    src2dstTcpFlags :=
      if c.key.proto = IPPROTO_TCP then c.tcp.tcp_flags else zeroed_bucket.src2dstTcpFlags,
    bytesSent := rte_cpu_to_be_16 cfg.little_endian c.ip.total_length,
    pktSent := (zeroed_bucket.pktSent + 1) % 2 ^ 64,
    firstSeenSent := c.curr,
    lastSeenSent := c.curr }

/-- State of the chain walk when the `while` loop of lines 149-179 is left. -/
structure WalkResult where
  /-- Records the loop stepped over, in chain order (the last one is
  `previous_pointer` once `notfound` is set). -/
  visited : List hashBucket_t
  /-- Records from `bucket` on; empty when `bucket` is `NULL`. -/
  rest : List hashBucket_t
  updated : Bool
  notfound : Bool

/-- The `while` loop of lines 149-179. -/
def chain_walk (cfg : Config) (c : AddCall) :
    List hashBucket_t → Bool → List hashBucket_t → WalkResult
  | visited, notfound, [] =>
      { visited := visited, rest := [], updated := false, notfound := notfound }
  | visited, notfound, b :: rest =>
      if bucket_matches c.key b then
        { visited := visited, rest := update_bucket cfg c b :: rest, updated := true,
          notfound := notfound }
      else
        chain_walk cfg c (visited ++ [b]) true rest

/-- The slot index of lines 132-137 before the reduction modulo `n_entries`. -/
def key_hash (cfg : Config) (k : rte_table_netflow_key) : Nat :=
  let idx := 0
  let idx := cfg.rte_hash_crc_4byte k.proto idx % 2 ^ 32
  let idx := cfg.rte_hash_crc_4byte k.ip_src idx % 2 ^ 32
  let idx := cfg.rte_hash_crc_4byte k.ip_dst idx % 2 ^ 32
  let idx := cfg.rte_hash_crc_4byte k.port_src idx % 2 ^ 32
  let idx := cfg.rte_hash_crc_4byte k.port_dst idx % 2 ^ 32
  idx

/-- Store of a chain into one slot of `t->array`. -/
def set_slot (t : rte_table_netflow) (idx : Nat) (chain : List hashBucket_t) :
    rte_table_netflow :=
  { t with array := fun i => if i = idx then chain else t.array i }

/-- What `rte_table_netflow_entry_add` leaves behind. -/
structure AddResult where
  /-- The returned value; `none` when the call does not return (undefined
  behaviour was reached). -/
  ret : Option Int
  table : rte_table_netflow
  global_packet_count : Nat
  events : List Event

/-- The function `rte_table_netflow_entry_add`; `gpc` is `global_packet_count`
before the call. -/
def rte_table_netflow_entry_add (cfg : Config) (t : rte_table_netflow) (gpc : Nat)
    (c : AddCall) : AddResult :=
  if t.n_entries = 0 then
    -- `idx % t->n_entries` divides by zero
    { ret := none, table := t, global_packet_count := gpc, events := [] }
  else
    let idx := key_hash cfg c.key % t.n_entries
    let w := chain_walk cfg c [] false (t.array idx)
    if w.updated then
      { ret := some 1,
        table := set_slot t idx (w.visited ++ w.rest),
        global_packet_count := (gpc + 1) % 2 ^ 64,
        events := [Event.spinlock_lock idx, Event.spinlock_unlock idx] }
    else if c.zmalloc_ok = false then
      -- `bkt->magic = 1` stores through `NULL`, with the slot lock held
      { ret := none, table := t, global_packet_count := gpc,
        events := [Event.spinlock_lock idx] }
    else
      let bkt := new_bucket cfg c
      { ret := some 1,
        table :=
          if w.notfound then set_slot t idx (w.visited ++ [bkt])
          else set_slot t idx [bkt],
        global_packet_count := (gpc + 1) % 2 ^ 64,
        events := [Event.spinlock_lock idx, Event.spinlock_unlock idx] }

/-- A table together with the process-wide counter. -/
structure State where
  table : rte_table_netflow
  global_packet_count : Nat

/-- Sequential calls of `rte_table_netflow_entry_add`, one per element; `none`
when one of the calls does not return. -/
def ingest (cfg : Config) : State → List AddCall → Option State
  | s, [] => some s
  | s, c :: cs =>
      let r := rte_table_netflow_entry_add cfg s.table s.global_packet_count c
      match r.ret with
      | none => none
      | some _ => ingest cfg ⟨r.table, r.global_packet_count⟩ cs

/-- Effect of one successful call on the chain of its slot, written as a list
function: update the first matching record, or append a new record at the
end. It is compared with the loop of the code in `entry_add_eq`. -/
def chain_add (cfg : Config) (c : AddCall) : List hashBucket_t → List hashBucket_t
  | [] => [new_bucket cfg c]
  | b :: rest =>
      if bucket_matches c.key b then update_bucket cfg c b :: rest
      else b :: chain_add cfg c rest

/-- The slot index of a key in a table of `n_entries` slots. -/
def slot_index (cfg : Config) (n_entries : Nat) (k : rte_table_netflow_key) : Nat :=
  key_hash cfg k % n_entries

/-- The address pair of a key, the part of it that the match test reads. -/
def key_addr (k : rte_table_netflow_key) : Nat × Nat := (k.ip_src, k.ip_dst)

/-- The address pair of a record. -/
def bucket_addr (b : hashBucket_t) : Nat × Nat := (b.ip_src, b.ip_dst)

/-- Bitwise OR of a list of bytes. -/
def or_all (l : List Nat) : Nat := l.foldl (fun a b => a ||| b) 0

/-- Network-order value of the total-length field of a call's IPv4 header. -/
def AddCall.length_on_wire (cfg : Config) (c : AddCall) : Nat :=
  wire_value_16 cfg.little_endian c.ip.total_length

/-- All records of a table, slot by slot in index order, each chain in link
order. -/
def all_records (t : rte_table_netflow) : List hashBucket_t :=
  (List.range t.n_entries).flatMap t.array

/-! ## Aggregate statistics -/

/-- The three accumulators of `rte_table_print_stats` and its lock calls. -/
structure StatsAcc where
  total_bytes : Nat
  total_pkts : Nat
  total_flows : Nat
  events : List Event

/-- Body of the inner `while` loop, lines 304-307. -/
def stats_record (acc : StatsAcc) (bkt : hashBucket_t) : StatsAcc :=
  { acc with
    total_bytes := (acc.total_bytes + bkt.bytesSent) % 2 ^ 64,
    total_pkts := (acc.total_pkts + bkt.pktSent) % 2 ^ 64,
    total_flows := (acc.total_flows + 1) % 2 ^ 64 }

/-- Body of the `for` loop, lines 301-309. -/
def stats_slot (t : rte_table_netflow) (acc : StatsAcc) (i : Nat) : StatsAcc :=
  let acc := { acc with events := acc.events ++ [Event.spinlock_lock i] }
  let acc := (t.array i).foldl stats_record acc
  { acc with events := acc.events ++ [Event.spinlock_unlock i] }

/-- What `rte_table_print_stats` reports and returns. -/
structure StatsResult where
  ret : Int
  total_flows : Nat
  total_bytes : Nat
  total_pkts : Nat
  events : List Event

/-- The function `rte_table_print_stats`; the three printed totals are fields
of the result. -/
def rte_table_print_stats (t : rte_table_netflow) : StatsResult :=
  let acc := (List.range t.n_entries).foldl (stats_slot t)
    { total_bytes := 0, total_pkts := 0, total_flows := 0, events := [] }
  { ret := 0, total_flows := acc.total_flows, total_bytes := acc.total_bytes,
    total_pkts := acc.total_pkts, events := acc.events }

/-! ## CSV export -/

/-- Conversion `%d` / `%lu` of `printf` for a non-negative value. -/
def decimal (n : Nat) : List Char := Nat.toDigits 10 n

/-- The libc function `inet_ntoa`: the four bytes of the address, in memory
order, in dotted decimal. The argument is stored into the 32-bit `s_addr`. -/
def inet_ntoa (little_endian : Bool) (addr : Nat) : List Char :=
  let x := addr % 2 ^ 32
  let b0 := if little_endian then x % 256 else x / 2 ^ 24 % 256
  let b1 := if little_endian then x / 2 ^ 8 % 256 else x / 2 ^ 16 % 256
  let b2 := if little_endian then x / 2 ^ 16 % 256 else x / 2 ^ 8 % 256
  let b3 := if little_endian then x / 2 ^ 24 % 256 else x % 256
  decimal b0 ++ '.' :: decimal b1 ++ '.' :: decimal b2 ++ '.' :: decimal b3

/-- The text that the format `"%s,%s,%d,%d,%d,%lu,%lu\n"` of line 362 produces
for a record. -/
def csv_line (cfg : Config) (b : hashBucket_t) : List Char :=
  inet_ntoa cfg.little_endian b.ip_src ++ ',' ::
  inet_ntoa cfg.little_endian b.ip_dst ++ ',' ::
  decimal b.port_src ++ ',' ::
  decimal b.port_dst ++ ',' ::
  decimal b.proto ++ ',' ::
  decimal b.bytesSent ++ ',' ::
  decimal b.pktSent ++ ['\n']

/-- A record whose fields fit their C types. -/
def bucket_wf (b : hashBucket_t) : Prop :=
  b.ip_src < 2 ^ 32 ∧ b.ip_dst < 2 ^ 32 ∧ b.port_src < 2 ^ 16 ∧ b.port_dst < 2 ^ 16 ∧
  b.proto < 2 ^ 8 ∧ b.src2dstTos < 2 ^ 8 ∧ b.src2dstTcpFlags < 2 ^ 8 ∧
  b.bytesSent < 2 ^ 64 ∧ b.pktSent < 2 ^ 64

instance instDecidableBucketWf (b : hashBucket_t) : Decidable (bucket_wf b) := by
  unfold bucket_wf; infer_instance

/-- Answers of the environment during one run of `rte_table_export_to_file`. -/
structure ExportEnv where
  /-- Whether `malloc` returns a block. -/
  malloc_ok : Bool
  /-- Whether the call number `n` of `realloc` (counted from 0) returns a block. -/
  realloc_ok : Nat → Bool
  /-- Return value of `open`. -/
  open_ret : Int
  /-- Return value of `write`. -/
  write_ret : Int
  /-- Return value of `close`. -/
  close_ret : Int
  /-- Content of buffer bytes that the program has not stored. -/
  uninit : Nat → Char

/-- How far a run of the export has come. -/
inductive RunStatus where
  | running
  | exited (code : Nat)
  | undefined_behaviour
  | returned
  deriving DecidableEq, Repr

/-- Local variables of `rte_table_export_to_file` and the calls made so far. -/
structure ExportState where
  status : RunStatus
  /-- The `int buf_size`. -/
  buf_size : Nat
  /-- The `size_t buf_end_offset`. -/
  buf_end_offset : Nat
  /-- The bytes of `buf` below `buf_end_offset`. -/
  data : List Char
  /-- Number of `realloc` calls made. -/
  n_realloc : Nat
  events : List Event

/-- Path of the temporary file, line 328. -/
def tmpfile : String := "/tmp/netflow-export-tmp.csv"

/-- The grow test of lines 346-353, in `size_t` arithmetic, and the `realloc`. -/
def export_grow (env : ExportEnv) (s : ExportState) : ExportState :=
  if (s.buf_size + 2 ^ 64 - s.buf_end_offset % 2 ^ 64) % 2 ^ 64 ≤ 91 then
    if INT_MAX < s.buf_size * 2 then
      -- `buf_size * 2` overflows `int`
      { s with status := RunStatus.undefined_behaviour }
    else if env.realloc_ok s.n_realloc = false then
      { s with
        status := RunStatus.exited 1,
        n_realloc := s.n_realloc + 1,
        events := s.events ++ [Event.realloc (s.buf_size * 2), Event.exit_process 1] }
    else
      { s with
        buf_size := s.buf_size * 2,
        n_realloc := s.n_realloc + 1,
        events := s.events ++ [Event.realloc (s.buf_size * 2)] }
  else s

/-- The `snprintf` of lines 357-375: at most 90 characters of the line and a
terminating NUL are stored at `buf + buf_end_offset`, and the offset moves on
by the full length of the line. -/
def export_render (cfg : Config) (env : ExportEnv) (s : ExportState) (bucket : hashBucket_t) :
    ExportState :=
  let line := csv_line cfg bucket
  let stored := line.take 90
  if s.buf_size < s.buf_end_offset + stored.length + 1 then
    -- the store runs past the end of the buffer
    { s with status := RunStatus.undefined_behaviour }
  else
    let snp_res := line.length
    let skipped :=
      if snp_res ≤ 90 then []
      else Char.ofNat 0 ::
        (List.range (snp_res - 91)).map (fun j => env.uninit (s.buf_end_offset + 91 + j))
    { s with
      buf_end_offset := (s.buf_end_offset + snp_res) % 2 ^ 64,
      data := s.data ++ stored ++ skipped }

/-- Body of the inner `while` loop, lines 344-375, for one record. -/
def export_record (cfg : Config) (env : ExportEnv) (s : ExportState) (bucket : hashBucket_t) :
    ExportState :=
  if s.status ≠ RunStatus.running then s
  else
    let s1 := export_grow env s
    if s1.status ≠ RunStatus.running then s1
    else export_render cfg env s1 bucket

/-- Body of the `for` loop, lines 341-377, for slot `i`. -/
def export_slot (cfg : Config) (env : ExportEnv) (table : rte_table_netflow)
    (s : ExportState) (i : Nat) : ExportState :=
  if s.status ≠ RunStatus.running then s
  else
    let s1 := { s with events := s.events ++ [Event.spinlock_lock i] }
    let s2 := (table.array i).foldl (export_record cfg env) s1
    if s2.status ≠ RunStatus.running then s2
    else { s2 with events := s2.events ++ [Event.spinlock_unlock i] }

/-- Lines 323-378: the allocation of the buffer and the traversal of the table. -/
def export_buffer (cfg : Config) (env : ExportEnv) (table : rte_table_netflow) : ExportState :=
  let s0 : ExportState :=
    { status := RunStatus.running, buf_size := cfg.EXPORT_BUF_INITAL_SIZE,
      buf_end_offset := 0, data := [], n_realloc := 0,
      events := [Event.malloc cfg.EXPORT_BUF_INITAL_SIZE] }
  if env.malloc_ok = false then
    { s0 with status := RunStatus.exited 1, events := s0.events ++ [Event.exit_process 1] }
  else
    (List.range table.n_entries).foldl (export_slot cfg env table) s0

/-- The conversion `(int)buf_end_offset`. -/
def int_of_size_t (x : Nat) : Int :=
  ((x + 2 ^ 31) % 2 ^ 32 : Nat) - (2 ^ 31 : Int)

/-- The function `rte_table_export_to_file`. The table is the global `table`
of the file, not an argument. The result keeps the final local variables and
the calls made, in order. -/
def rte_table_export_to_file (cfg : Config) (env : ExportEnv) (table : rte_table_netflow)
    (filename : String) : ExportState :=
  let s := export_buffer cfg env table
  if s.status ≠ RunStatus.running then s
  else
    let s1 := { s with events := s.events ++ [Event.open_file tmpfile] }
    if env.open_ret < 0 then
      { s1 with status := RunStatus.exited 1, events := s1.events ++ [Event.exit_process 1] }
    else if s1.buf_size < s1.buf_end_offset then
      -- `write` reads past the end of the buffer
      { s1 with status := RunStatus.undefined_behaviour }
    else
      let s2 := { s1 with events := s1.events ++ [Event.write_file s1.data] }
      if int_of_size_t s2.buf_end_offset ≠ env.write_ret then
        { s2 with status := RunStatus.exited 1, events := s2.events ++ [Event.exit_process 1] }
      else
        let s3 := { s2 with events := s2.events ++ [Event.close_file] }
        if env.close_ret ≠ 0 then
          { s3 with status := RunStatus.exited 1, events := s3.events ++ [Event.exit_process 1] }
        else
          { s3 with
            status := RunStatus.returned,
            events := s3.events ++ [Event.rename_file tmpfile filename] }

/-! ## Notions used in the statements -/

/-- Sequential successful calls seen from one chain. -/
def chain_ingest (cfg : Config) (cs : List AddCall) (chain : List hashBucket_t) :
    List hashBucket_t :=
  cs.foldl (fun ch c => chain_add cfg c ch) chain

/-- One more call of a flow, seen from the record of the flow: `none` is the
flow without a record yet. -/
def flow_step (cfg : Config) (o : Option hashBucket_t) (c : AddCall) : Option hashBucket_t :=
  match o with
  | none => some (new_bucket cfg c)
  | some b => some (update_bucket cfg c b)

/-- Sum of the network-order total lengths of a list of calls. -/
def bytes_on_wire (cfg : Config) (cs : List AddCall) : Nat :=
  (cs.map (AddCall.length_on_wire cfg)).sum

/-- Value of a string of decimal digits. -/
def parse_decimal (l : List Char) : Nat :=
  l.foldl (fun acc c => 10 * acc + (c.toNat - 48)) 0

/-- The seven fields of the CSV line of a record. -/
def csv_fields (cfg : Config) (b : hashBucket_t) : List (List Char) :=
  [inet_ntoa cfg.little_endian b.ip_src, inet_ntoa cfg.little_endian b.ip_dst,
   decimal b.port_src, decimal b.port_dst, decimal b.proto, decimal b.bytesSent,
   decimal b.pktSent]

/-- The state of the export after the text `txt` has been rendered: the loop is
still running, the buffer holds `txt`, and there is room behind it. -/
def export_inv (s : ExportState) (txt : List Char) : Prop :=
  s.status = RunStatus.running ∧ s.data = txt ∧ s.buf_end_offset = txt.length ∧
  s.buf_end_offset < s.buf_size ∧ 91 ≤ s.buf_size ∧ s.buf_size ≤ INT_MAX

/-- The text of the export of a table: the lines of its records. -/
def export_text (cfg : Config) (table : rte_table_netflow) : List Char :=
  (all_records table).flatMap (csv_line cfg)

/-- The lines of a buffer: the pieces that a newline ends. -/
def buffer_lines (data : List Char) : List (List Char) :=
  (data.splitOn '\n').dropLast

/-- The column number `i` (from 0) of a line, as a number. -/
def column_value (i : Nat) (line : List Char) : Nat :=
  parse_decimal ((line.splitOn ',').getD i [])

/-- Whether an event is a call on the file system. -/
def is_file_event : Event → Bool
  | Event.open_file _ => true
  | Event.write_file _ => true
  | Event.close_file => true
  | Event.rename_file _ _ => true
  | _ => false

/-- What holds of every state of the export loop, whatever the records are: no
file has been touched, `buf_size` is a valid `int`, the run has not returned,
and while it runs every `realloc` made so far has succeeded. -/
def export_sound (env : ExportEnv) (s : ExportState) : Prop :=
  (∀ e ∈ s.events, is_file_event e = false) ∧ s.buf_size ≤ INT_MAX ∧
  s.status ≠ RunStatus.returned ∧
  (s.status = RunStatus.running → ∀ n, n < s.n_realloc → env.realloc_ok n = true)

/-! ## Concrete inputs -/

/-- A little endian platform with a ceiling of 1024 entries and a toy hash
primitive. -/
def cfg_example : Config :=
  { MAX_ENTRY := 1024, EXPORT_BUF_INITAL_SIZE := 1024, sizeof_table := 4096, sizeof_ptr := 8,
    RTE_CACHE_LINE_SIZE := 64, little_endian := true,
    rte_hash_crc_4byte := fun data init_val => (data + 31 * init_val) % 2 ^ 32 }

/-- A table of 16 empty slots, as `rte_table_netflow_create` returns it. -/
def empty_table_16 : rte_table_netflow :=
  { entry_size := 64, n_entries := 16, f_hash := 0, seed := 0, array := fun _ => [] }

/-- The key (10.0.0.1, 10.0.0.2, TCP, 1234, 80), its fields in network byte
order as a little endian CPU loads them. -/
def key_example : rte_table_netflow_key :=
  { ip_src := 0x0100000A, ip_dst := 0x0200000A, port_src := 0xD204, port_dst := 0x5000,
    proto := 6, vlanId := 0 }

/-- A packet of `key_example` with total length 60 and the flag SYN. -/
def call_syn : AddCall :=
  { key := key_example, ip := { type_of_service := 0, total_length := 0x3C00 },
    tcp := { tcp_flags := 0x02 }, curr := ⟨1000, 0⟩, zmalloc_ok := true }

/-- A packet of `key_example` with total length 60 and the flag ACK. -/
def call_ack : AddCall :=
  { key := key_example, ip := { type_of_service := 0, total_length := 0x3C00 },
    tcp := { tcp_flags := 0x10 }, curr := ⟨1000, 500⟩, zmalloc_ok := true }

/-- A packet of `key_example` with total length 1500 and the flag FIN. -/
def call_fin : AddCall :=
  { key := key_example, ip := { type_of_service := 0, total_length := 0xDC05 },
    tcp := { tcp_flags := 0x01 }, curr := ⟨1001, 0⟩, zmalloc_ok := true }

/-- A table of one slot. -/
def empty_table_1 : rte_table_netflow :=
  { entry_size := 64, n_entries := 1, f_hash := 0, seed := 0, array := fun _ => [] }

/-- The key (10.0.0.1, 10.0.0.2, TCP, 1235, 80): `key_example` with another source port. -/
def key_other_port : rte_table_netflow_key := { key_example with port_src := 0xD304 }

/-- The key (10.0.0.3, 10.0.0.2, TCP, 1234, 80): `key_example` with another source
address. -/
def key_other_addr : rte_table_netflow_key := { key_example with ip_src := 0x0300000A }

/-- A packet of `key_other_port` with total length 1500. -/
def call_other_port : AddCall :=
  { key := key_other_port, ip := { type_of_service := 0, total_length := 0xDC05 },
    tcp := { tcp_flags := 0x10 }, curr := ⟨1002, 0⟩, zmalloc_ok := true }

/-- A packet of `key_other_addr` with total length 1500. -/
def call_other_addr : AddCall :=
  { key := key_other_addr, ip := { type_of_service := 0, total_length := 0xDC05 },
    tcp := { tcp_flags := 0x10 }, curr := ⟨1002, 0⟩, zmalloc_ok := true }

/-- A TCP flow record. -/
def record_tcp : hashBucket_t :=
  { zeroed_bucket with
    magic := 1, proto := 6, ip_src := 0x0100000A, ip_dst := 0x0200000A, port_src := 1234,
    port_dst := 80, bytesSent := 1620, pktSent := 3 }

/-- A UDP flow record. -/
def record_udp : hashBucket_t :=
  { zeroed_bucket with
    magic := 1, proto := 17, ip_src := 0x0300000A, ip_dst := 0x0200000A, port_src := 5353,
    port_dst := 53, bytesSent := 400, pktSent := 2 }

/-- An ICMP flow record. -/
def record_icmp : hashBucket_t :=
  { zeroed_bucket with
    magic := 1, proto := 1, ip_src := 0x0101A8C0, ip_dst := 0x08080808, bytesSent := 84,
    pktSent := 1 }

/-- A table of two slots with three records. -/
def table_example : rte_table_netflow :=
  { entry_size := 64, n_entries := 2, f_hash := 0, seed := 0,
    array := fun i =>
      if i = 0 then [record_tcp, record_udp] else if i = 1 then [record_icmp] else [] }

/-- An environment in which every call succeeds and `write` writes `n` bytes. -/
def env_ok (n : Int) : ExportEnv :=
  { malloc_ok := true, realloc_ok := fun _ => true, open_ret := 3, write_ret := n,
    close_ret := 0, uninit := fun _ => 'x' }

/-! ## Teardown and dump -/

/-- The error number `EINVAL`. -/
def EINVAL : Int := 22

/-- What `rte_table_netflow_free` does. -/
structure FreeResult where
  ret : Int
  /-- Whether `rte_free` has been called on the table block. -/
  freed : Bool
  deriving DecidableEq, Repr

/-- The function `rte_table_netflow_free`; `none` is the `NULL` handle. Only the
table block is released, not the records of the chains. -/
def rte_table_netflow_free (table : Option rte_table_netflow) : FreeResult :=
  match table with
  | none => { ret := -EINVAL, freed := false }
  | some _ => { ret := 0, freed := true }

/-- The values that one round of `rte_table_print` prints, lines 269-272. -/
structure PrintEntry where
  src_ip : Nat
  dst_ip : Nat
  src_port : Nat
  dst_port : Nat
  proto : Nat
  bytes_sent : Nat
  bytes_recv : Nat
  packets_sent : Nat
  packets_recv : Nat
  deriving DecidableEq, Repr

/-- The entry printed for a record. -/
def print_entry (bkt : hashBucket_t) : PrintEntry :=
  { src_ip := bkt.ip_src, dst_ip := bkt.ip_dst, src_port := bkt.port_src,
    dst_port := bkt.port_dst, proto := bkt.proto, bytes_sent := bkt.bytesSent,
    bytes_recv := bkt.bytesRcvd, packets_sent := bkt.pktSent, packets_recv := bkt.pktRcvd }

/-- What `rte_table_print` has printed and called so far. -/
structure PrintAcc where
  entries : List PrintEntry
  events : List Event

/-- Body of the `for` loop of `rte_table_print`, lines 266-274: `bkt` is the
head of the chain, and it is printed when it is not `NULL`. -/
def print_slot (t : rte_table_netflow) (acc : PrintAcc) (i : Nat) : PrintAcc :=
  let acc := { acc with events := acc.events ++ [Event.spinlock_lock i] }
  let acc :=
    match t.array i with
    | [] => acc
    | bkt :: _ => { acc with entries := acc.entries ++ [print_entry bkt] }
  { acc with events := acc.events ++ [Event.spinlock_unlock i] }

/-- What `rte_table_print` prints and returns. -/
structure PrintResult where
  ret : Int
  /-- The printed `t->n_entries`. -/
  n_entries : Nat
  /-- The per-flow dump. -/
  entries : List PrintEntry
  events : List Event

/-- The function `rte_table_print`. -/
def rte_table_print (t : rte_table_netflow) : PrintResult :=
  let acc := (List.range t.n_entries).foldl (print_slot t) { entries := [], events := [] }
  { ret := 0, n_entries := t.n_entries, entries := acc.entries, events := acc.events }

/-! ## The process -/

/-- The public operations, with the answers of the environment. -/
inductive Op where
  | create (zmalloc_ok : Bool) (params : rte_table_netflow_params) (socket_id : Int)
      (entry_size : Nat)
  | entry_add (c : AddCall)
  | free
  | print
  | print_stats
  | export_to_file (env : ExportEnv) (filename : String)

/-- The table handle of the process (`none` is `NULL`; it is also the global
`table` that the export reads) and the process-wide counter. -/
structure Process where
  table : Option rte_table_netflow
  global_packet_count : Nat

/-- One public operation on the process; `none` when the operation does not
return (undefined behaviour, as any use of a `NULL` table but by
`rte_table_netflow_free`, or `exit`). A handle is given up after
`rte_table_netflow_free`, and replaced by the table of a successful
`rte_table_netflow_create`. -/
def step (cfg : Config) (p : Process) : Op → Option Process
  | Op.create zmalloc_ok params socket_id entry_size =>
      let r := rte_table_netflow_create cfg zmalloc_ok p.global_packet_count params socket_id
        entry_size
      match r.table with
      | none => some { table := p.table, global_packet_count := r.global_packet_count }
      | some t => some { table := some t, global_packet_count := r.global_packet_count }
  | Op.entry_add c =>
      match p.table with
      | none => none
      | some t =>
          let r := rte_table_netflow_entry_add cfg t p.global_packet_count c
          match r.ret with
          | none => none
          | some _ => some { table := some r.table, global_packet_count := r.global_packet_count }
  | Op.free =>
      let _ := rte_table_netflow_free p.table
      some { table := none, global_packet_count := p.global_packet_count }
  | Op.print =>
      match p.table with
      | none => none
      | some t =>
          let _ := rte_table_print t
          some p
  | Op.print_stats =>
      match p.table with
      | none => none
      | some t =>
          let _ := rte_table_print_stats t
          some p
  | Op.export_to_file env filename =>
      match p.table with
      | none => none
      | some t =>
          if (rte_table_export_to_file cfg env t filename).status = RunStatus.returned then some p
          else none

/-- A sequence of public operations. -/
def run (cfg : Config) : Process → List Op → Option Process
  | p, [] => some p
  | p, op :: ops =>
      match step cfg p op with
      | none => none
      | some p' => run cfg p' ops

/-- Whether an operation is a call of `rte_table_netflow_create`. -/
def Op.is_create : Op → Bool
  | Op.create _ _ _ _ => true
  | _ => false

/-- Whether an operation is a call of `rte_table_netflow_entry_add`. -/
def Op.is_entry_add : Op → Bool
  | Op.entry_add _ => true
  | _ => false

/-! ## Lock discipline -/

/-- State of the monitor of a traversal: the index of the next slot to lock,
and the lock that is held. -/
structure LockMonitor where
  next : Nat
  held : Option Nat
  deriving DecidableEq, Repr

/-- One event under the monitor: a lock may be taken when none is held and it
is the next in index order, a lock may be released when it is the one held;
`none` is a violation. Other events do not count. -/
def lock_monitor_step (m : LockMonitor) : Event → Option LockMonitor
  | Event.spinlock_lock i =>
      if m.held = none ∧ i = m.next then some { next := m.next + 1, held := some i } else none
  | Event.spinlock_unlock i =>
      if m.held = some i then some { next := m.next, held := none } else none
  | _ => some m

/-- A trace under the monitor. -/
def lock_monitor : LockMonitor → List Event → Option LockMonitor
  | m, [] => some m
  | m, e :: es =>
      match lock_monitor_step m e with
      | none => none
      | some m' => lock_monitor m' es

/-- Whether an event is a lock or unlock call. -/
def is_lock_event : Event → Bool
  | Event.spinlock_lock _ => true
  | Event.spinlock_unlock _ => true
  | _ => false

/-- The lock calls of a traversal of the first `n` slots: lock and unlock of
each slot in index order. -/
def lock_pattern (n : Nat) : List Event :=
  (List.range n).flatMap (fun i => [Event.spinlock_lock i, Event.spinlock_unlock i])

/-! ## More notions used in the statements -/

/-- The fields of a record that an update leaves alone. -/
def frame_fields (b : hashBucket_t) :
    Nat × Nat × Nat × Nat × Nat × Nat × Nat × Nat × Nat × timeval :=
  (b.magic, b.vlanId, b.proto, b.ip_src, b.ip_dst, b.port_src, b.port_dst, b.bytesRcvd,
    b.pktRcvd, b.firstSeenSent)

/-- The local variables of the export after the `malloc` of line 335. -/
def export_start (cfg : Config) : ExportState :=
  { status := RunStatus.running, buf_size := cfg.EXPORT_BUF_INITAL_SIZE,
    buf_end_offset := 0, data := [], n_realloc := 0,
    events := [Event.malloc cfg.EXPORT_BUF_INITAL_SIZE] }

/-- The state of the export when the traversal, with the lock of slot `i`
taken, reaches record number `j` of the chain of slot `i`. -/
def export_reach (cfg : Config) (env : ExportEnv) (table : rte_table_netflow) (i j : Nat) :
    ExportState :=
  let s := (List.range i).foldl (export_slot cfg env table) (export_start cfg)
  let s1 := { s with events := s.events ++ [Event.spinlock_lock i] }
  ((table.array i).take j).foldl (export_record cfg env) s1

/-- Safety of a state of the export loop: no undefined behaviour so far, and
while the run is going the offset is strictly below the size of the buffer,
which is a valid `int` of 91 or more. -/
def export_safe (s : ExportState) : Prop :=
  s.status ≠ RunStatus.undefined_behaviour ∧
  (s.status = RunStatus.running →
    s.buf_end_offset < s.buf_size ∧ 91 ≤ s.buf_size ∧ s.buf_size ≤ INT_MAX)

/-! ## More concrete inputs -/

/-- The key (10.0.0.1, 10.0.0.2, UDP, 1234, 80): `key_example` with another protocol. -/
def key_udp : rte_table_netflow_key := { key_example with proto := 17 }

/-- A packet of `key_udp` with total length 60. -/
def call_udp : AddCall :=
  { key := key_udp, ip := { type_of_service := 0, total_length := 0x3C00 },
    tcp := { tcp_flags := 0 }, curr := ⟨1003, 0⟩, zmalloc_ok := true }

/-- The state after `call_syn`, `call_udp` and `call_ack` on a table of 16 empty slots. -/
def state_example : State :=
  (ingest cfg_example ⟨empty_table_16, 0⟩ [call_syn, call_udp, call_ack]).getD
    ⟨empty_table_16, 0⟩

/-- An ingest, a dump, a totals report and a free on the table of sixteen
entries. -/
def ops_example : List Op :=
  [Op.entry_add call_syn, Op.print, Op.entry_add call_ack, Op.print_stats, Op.free]

/-- The process after `ops_example`, started with the counter at 5. -/
def process_example : Process :=
  (run cfg_example ⟨some empty_table_16, 5⟩ ops_example).getD ⟨none, 0⟩

/-- The state after a packet of `key_example` and a packet of `key_other_addr`
on a table of one slot: one chain of two records. -/
def state_two_records : State :=
  (ingest cfg_example ⟨empty_table_1, 0⟩ [call_syn, call_other_addr]).getD ⟨empty_table_1, 0⟩

/-- The platform of `cfg_example` with an initial export buffer of 91 bytes. -/
def cfg_small : Config := { cfg_example with EXPORT_BUF_INITAL_SIZE := 91 }

/-! # Theorems -/

/-! ## Creation -/

/-- A power of two shares no bit with its predecessor. -/
theorem pow2_land_pred (k : Nat) : (2 ^ k) &&& (2 ^ k - 1) = 0 := by
  apply Nat.eq_of_testBit_eq
  intro i
  simp [Nat.testBit_and, Nat.testBit_two_pow, Nat.testBit_two_pow_sub_one]

/-- A positive number that shares no bit with its predecessor is a power of two. -/
theorem land_pred_zero (n : Nat) : 0 < n → n &&& (n - 1) = 0 → ∃ k, n = 2 ^ k := by
  induction n using Nat.strong_induction_on with
  | _ n ih =>
    intro hn h
    rcases Nat.even_or_odd' n with ⟨m, rfl | rfl⟩
    · have hm : 0 < m := by omega
      have : m &&& (m - 1) = 0 := by
        apply Nat.eq_of_testBit_eq
        intro i
        have h2 : Nat.testBit (2 * m &&& (2 * m - 1)) (i + 1) = Nat.testBit 0 (i + 1) := by rw [h]
        have e1 : (2 * m) / 2 = m := by omega
        have e2 : (2 * m - 1) / 2 = m - 1 := by omega
        rw [Nat.testBit_and, Nat.testBit_succ, Nat.testBit_succ, e1, e2] at h2
        simpa [Nat.testBit_and] using h2
      obtain ⟨k, hk⟩ := ih m (by omega) hm this
      exact ⟨k + 1, by rw [hk]; ring⟩
    · refine ⟨0, ?_⟩
      have : m = 0 := by
        apply Nat.eq_of_testBit_eq
        intro i
        have h2 : Nat.testBit (2 * m + 1 &&& (2 * m + 1 - 1)) (i + 1) = Nat.testBit 0 (i + 1) := by
          rw [h]
        have e1 : (2 * m + 1) / 2 = m := by omega
        have e2 : (2 * m + 1 - 1) / 2 = m := by omega
        rw [Nat.testBit_and, Nat.testBit_succ, Nat.testBit_succ, e1, e2] at h2
        simpa using h2
      subst this; rfl

/-- The DPDK test `rte_is_power_of_2` holds exactly for the powers of two. -/
theorem rte_is_power_of_2_iff (n : Nat) : rte_is_power_of_2 n = true ↔ ∃ k, n = 2 ^ k := by
  unfold rte_is_power_of_2
  constructor
  · intro h
    simp at h
    exact land_pred_zero n (Nat.pos_of_ne_zero h.1) h.2
  · rintro ⟨k, rfl⟩
    simp [pow2_land_pred]

/-- The DPDK test `rte_is_power_of_2` fails exactly off the powers of two. -/
theorem rte_is_power_of_2_false_iff (n : Nat) :
    rte_is_power_of_2 n = false ↔ ¬ ∃ k, n = 2 ^ k := by
  rw [← rte_is_power_of_2_iff]; simp

/-- Zero is no power of two. -/
theorem not_pow2_zero : ¬ ∃ k, (0 : Nat) = 2 ^ k := by
  rintro ⟨k, hk⟩
  have := Nat.pos_pow_of_pos k (show 0 < 2 by decide)
  omega

/-- The validation of `rte_table_netflow_create` rejects exactly the clamped
counts that are not a power of two. -/
theorem create_rejects_iff (cfg : Config) (ok : Bool) (gpc : Nat)
    (params : rte_table_netflow_params) (socket_id : Int) (entry_size : Nat) :
    ((rte_table_netflow_create cfg ok gpc params socket_id entry_size).table = none ∧
      (rte_table_netflow_create cfg ok gpc params socket_id entry_size).events = []) ↔
    ¬ ∃ k, (if params.n_entries > cfg.MAX_ENTRY then cfg.MAX_ENTRY else params.n_entries) = 2 ^ k := by
  unfold rte_table_netflow_create
  by_cases hc : params.n_entries > cfg.MAX_ENTRY
  · simp only [hc, if_true]
    by_cases hp : ∃ k, cfg.MAX_ENTRY = 2 ^ k
    · have h1 : rte_is_power_of_2 cfg.MAX_ENTRY = true := (rte_is_power_of_2_iff _).2 hp
      have h0 : cfg.MAX_ENTRY ≠ 0 := by
        intro h0; rw [h0] at hp; exact not_pow2_zero hp
      cases ok <;> simp [h1, h0, hp]
    · have h1 : rte_is_power_of_2 cfg.MAX_ENTRY = false := (rte_is_power_of_2_false_iff _).2 hp
      simp [h1, hp]
  · simp only [hc, if_false]
    by_cases hp : ∃ k, params.n_entries = 2 ^ k
    · have h1 : rte_is_power_of_2 params.n_entries = true := (rte_is_power_of_2_iff _).2 hp
      have h0 : params.n_entries ≠ 0 := by
        intro h0; rw [h0] at hp; exact not_pow2_zero hp
      cases ok <;> simp [h1, h0, hp]
    · have h1 : rte_is_power_of_2 params.n_entries = false := (rte_is_power_of_2_false_iff _).2 hp
      simp [h1, hp]

/-- C4 (as amended). A requested entry count that is not a power of two and
does not exceed `MAX_ENTRY` (zero included) makes `rte_table_netflow_create`
return `NULL` without calling the allocator. A count above `MAX_ENTRY` is
replaced by `MAX_ENTRY` before the test, so for it the call returns `NULL`
without allocating exactly when `MAX_ENTRY` is not a power of two. -/
theorem create_rejects_non_power_of_two (cfg : Config) (ok : Bool) (gpc : Nat)
    (params : rte_table_netflow_params) (socket_id : Int) (entry_size : Nat) :
    (params.n_entries ≤ cfg.MAX_ENTRY → (¬ ∃ k, params.n_entries = 2 ^ k) →
      (rte_table_netflow_create cfg ok gpc params socket_id entry_size).table = none ∧
      (rte_table_netflow_create cfg ok gpc params socket_id entry_size).events = []) ∧
    (cfg.MAX_ENTRY < params.n_entries →
      (((rte_table_netflow_create cfg ok gpc params socket_id entry_size).table = none ∧
        (rte_table_netflow_create cfg ok gpc params socket_id entry_size).events = []) ↔
       ¬ ∃ k, cfg.MAX_ENTRY = 2 ^ k)) := by
  constructor
  · intro hle hp
    rw [create_rejects_iff]
    have : ¬ params.n_entries > cfg.MAX_ENTRY := by omega
    simpa [this] using hp
  · intro hlt
    rw [create_rejects_iff]
    simp [hlt]

/-- C4, counterexample: with `MAX_ENTRY = 1024`, the request for 1025 entries (not a power
of two) succeeds with a table of 1024 entries after one allocation. -/
theorem create_non_power_of_two_above_ceiling :
    (¬ ∃ k, (1025 : Nat) = 2 ^ k) ∧
    ((rte_table_netflow_create cfg_example true 0 ⟨1025, 0, 0⟩ 0 64).table.map
        (fun t => t.n_entries) = some 1024) ∧
    (rte_table_netflow_create cfg_example true 0 ⟨1025, 0, 0⟩ 0 64).events.head? =
      some (Event.zmalloc 12416) := by
  refine ⟨?_, by decide, by decide⟩
  rw [← rte_is_power_of_2_iff]
  decide


/-- C4 (as amended) at a request for 12 entries under a ceiling of 1024. -/
theorem create_rejects_non_power_of_two_witness :
    (rte_table_netflow_create cfg_example true 7 ⟨12, 0, 0⟩ 0 64).table = none ∧
    (rte_table_netflow_create cfg_example true 7 ⟨12, 0, 0⟩ 0 64).events = [] :=
  (create_rejects_non_power_of_two cfg_example true 7 ⟨12, 0, 0⟩ 0 64).1 (by decide)
    (by rw [← rte_is_power_of_2_iff]; decide)

/-- Without wrap of the `uint32_t` arithmetic the size asked from the allocator
covers the table header and one chain head a slot. -/
theorem create_total_size_covers (cfg : Config) (n : Nat) (hcl : 0 < cfg.RTE_CACHE_LINE_SIZE)
    (h : cfg.sizeof_table + n * cfg.sizeof_ptr + 2 * cfg.RTE_CACHE_LINE_SIZE < 2 ^ 32) :
    cfg.sizeof_table + n * cfg.sizeof_ptr ≤ create_total_size cfg n := by
  unfold create_total_size
  generalize cfg.sizeof_table = a at h ⊢
  generalize n * cfg.sizeof_ptr = b at h ⊢
  generalize cfg.RTE_CACHE_LINE_SIZE = c at h hcl ⊢
  have e1 := Nat.div_add_mod (a + c) c
  have e2 := Nat.div_add_mod (b + c) c
  have r1 := Nat.mod_lt (a + c) hcl
  have r2 := Nat.mod_lt (b + c) hcl
  have q1 : (a + c) / c ≤ c * ((a + c) / c) := Nat.le_mul_of_pos_left _ hcl
  have q2 : (b + c) / c ≤ c * ((b + c) / c) := Nat.le_mul_of_pos_left _ hcl
  have m1 : (a + c) / c % 2 ^ 32 = (a + c) / c := Nat.mod_eq_of_lt (by omega)
  have m2 : ((a + c) / c + (b + c) / c) % 2 ^ 32 = (a + c) / c + (b + c) / c :=
    Nat.mod_eq_of_lt (by omega)
  have e3 : ((a + c) / c + (b + c) / c) * c = c * ((a + c) / c) + c * ((b + c) / c) := by ring
  have m3 : ((a + c) / c + (b + c) / c) * c % 2 ^ 32 = ((a + c) / c + (b + c) / c) * c :=
    Nat.mod_eq_of_lt (by omega)
  simp only [m1, m2, m3]
  omega

/-- C5. For a requested entry count that is a power of two (hence non-zero) and
does not exceed `MAX_ENTRY`, with an allocator that returns a zeroed block,
`rte_table_netflow_create` returns a table whose `n_entries` is the requested
count, whose `entry_size`, `f_hash` and `seed` are the supplied values, and
whose `n_entries` slots all have an empty chain. The call allocates once and
initialises the lock of every slot; as long as the `uint32_t` size computation
does not wrap, the block asked for covers the header and the `n_entries` chain
heads. -/
theorem create_succeeds_on_power_of_two (cfg : Config) (gpc : Nat)
    (params : rte_table_netflow_params) (socket_id : Int) (entry_size : Nat)
    (hpow : ∃ k, params.n_entries = 2 ^ k) (hle : params.n_entries ≤ cfg.MAX_ENTRY) :
    ∃ t, (rte_table_netflow_create cfg true gpc params socket_id entry_size).table = some t ∧
      t.n_entries = params.n_entries ∧ t.entry_size = entry_size ∧
      t.f_hash = params.f_hash ∧ t.seed = params.seed ∧
      (∀ i, i < t.n_entries → t.array i = []) ∧
      (rte_table_netflow_create cfg true gpc params socket_id entry_size).events =
        Event.zmalloc (create_total_size cfg params.n_entries) ::
          (List.range params.n_entries).map Event.spinlock_init ∧
      (0 < cfg.RTE_CACHE_LINE_SIZE →
        cfg.sizeof_table + params.n_entries * cfg.sizeof_ptr + 2 * cfg.RTE_CACHE_LINE_SIZE
          < 2 ^ 32 →
        cfg.sizeof_table + params.n_entries * cfg.sizeof_ptr ≤
          create_total_size cfg params.n_entries) := by
  have h1 : rte_is_power_of_2 params.n_entries = true := (rte_is_power_of_2_iff _).2 hpow
  have h0 : params.n_entries ≠ 0 := by
    obtain ⟨k, hk⟩ := hpow
    have := Nat.pos_pow_of_pos k (show 0 < 2 by decide)
    omega
  have hc : ¬ params.n_entries > cfg.MAX_ENTRY := by omega
  refine ⟨{ entry_size := entry_size, n_entries := params.n_entries, f_hash := params.f_hash,
            seed := params.seed, array := fun _ => [] }, ?_, rfl, rfl, rfl, rfl, fun _ _ => rfl,
            ?_, create_total_size_covers cfg params.n_entries⟩
  · simp [rte_table_netflow_create, hc, h0, h1]
  · simp [rte_table_netflow_create, hc, h0, h1]

/-- C5 at 16 entries under a ceiling of 1024. -/
theorem create_succeeds_on_power_of_two_witness :
    ∃ t, (rte_table_netflow_create cfg_example true 7 ⟨16, 3, 5⟩ 0 64).table = some t ∧
      t.n_entries = 16 ∧ t.entry_size = 64 ∧ t.f_hash = 3 ∧ t.seed = 5 ∧
      (∀ i, i < t.n_entries → t.array i = []) ∧
      (rte_table_netflow_create cfg_example true 7 ⟨16, 3, 5⟩ 0 64).events =
        Event.zmalloc 4352 :: (List.range 16).map Event.spinlock_init ∧
      (0 < cfg_example.RTE_CACHE_LINE_SIZE →
        cfg_example.sizeof_table + 16 * cfg_example.sizeof_ptr +
          2 * cfg_example.RTE_CACHE_LINE_SIZE < 2 ^ 32 →
        cfg_example.sizeof_table + 16 * cfg_example.sizeof_ptr ≤ 4352) :=
  create_succeeds_on_power_of_two cfg_example 7 ⟨16, 3, 5⟩ 0 64 ⟨4, by decide⟩ (by decide)

/-! ## Ingest -/

/-- What `rte_cpu_to_be_16` makes of a loaded 16-bit field is the value the wire carries. -/
theorem rte_cpu_to_be_16_eq_wire (le : Bool) (x : Nat) :
    rte_cpu_to_be_16 le x = wire_value_16 le x := by
  unfold rte_cpu_to_be_16 wire_value_16 memory_bytes_16
  cases le
  · simp only [Bool.false_eq_true, if_false]; omega
  · simp only [if_true]

/-! ### The chain walk -/

/-- The loop on a chain without a match: it steps over every record and leaves
`bucket` at `NULL`; `notfound` is set as soon as the chain is not empty. -/
theorem chain_walk_no_match (cfg : Config) (c : AddCall) (chain : List hashBucket_t) :
    ∀ (visited : List hashBucket_t) (notfound : Bool),
      (∀ b ∈ chain, bucket_matches c.key b = false) →
      chain_walk cfg c visited notfound chain =
        { visited := visited ++ chain, rest := [], updated := false,
          notfound := notfound || !chain.isEmpty } := by
  induction chain with
  | nil => intro visited notfound _; simp [chain_walk]
  | cons b rest ih =>
    intro visited notfound h
    have hb : bucket_matches c.key b = false := h b (List.mem_cons_self _ _)
    have hr : ∀ x ∈ rest, bucket_matches c.key x = false :=
      fun x hx => h x (List.mem_cons_of_mem _ hx)
    simp [chain_walk, hb, ih _ _ hr]

/-- The loop on a chain with a first match `b`: it steps over the records before
`b`, updates `b` in place and stops. -/
theorem chain_walk_match (cfg : Config) (c : AddCall) (pre : List hashBucket_t)
    (b : hashBucket_t) (post : List hashBucket_t) :
    ∀ (visited : List hashBucket_t) (notfound : Bool),
      (∀ x ∈ pre, bucket_matches c.key x = false) → bucket_matches c.key b = true →
      chain_walk cfg c visited notfound (pre ++ b :: post) =
        { visited := visited ++ pre, rest := update_bucket cfg c b :: post, updated := true,
          notfound := notfound || !pre.isEmpty } := by
  induction pre with
  | nil => intro visited notfound _ hb; simp [chain_walk, hb]
  | cons x rest ih =>
    intro visited notfound h hb
    have hx : bucket_matches c.key x = false := h x (List.mem_cons_self _ _)
    have hr : ∀ y ∈ rest, bucket_matches c.key y = false :=
      fun y hy => h y (List.mem_cons_of_mem _ hy)
    simp [chain_walk, hx, ih _ _ hr hb]

/-- Without a match the list function appends the new record. -/
theorem chain_add_no_match (cfg : Config) (c : AddCall) (chain : List hashBucket_t)
    (h : ∀ b ∈ chain, bucket_matches c.key b = false) :
    chain_add cfg c chain = chain ++ [new_bucket cfg c] := by
  induction chain with
  | nil => rfl
  | cons b rest ih =>
    have hb : bucket_matches c.key b = false := h b (List.mem_cons_self _ _)
    have hr : ∀ x ∈ rest, bucket_matches c.key x = false :=
      fun x hx => h x (List.mem_cons_of_mem _ hx)
    simp [chain_add, hb, ih hr]

/-- With a first match `b` the list function updates `b` in place. -/
theorem chain_add_match (cfg : Config) (c : AddCall) (pre : List hashBucket_t)
    (b : hashBucket_t) (post : List hashBucket_t)
    (h : ∀ x ∈ pre, bucket_matches c.key x = false) (hb : bucket_matches c.key b = true) :
    chain_add cfg c (pre ++ b :: post) = pre ++ update_bucket cfg c b :: post := by
  induction pre with
  | nil => simp [chain_add, hb]
  | cons x rest ih =>
    have hx : bucket_matches c.key x = false := h x (List.mem_cons_self _ _)
    have hr : ∀ y ∈ rest, bucket_matches c.key y = false :=
      fun y hy => h y (List.mem_cons_of_mem _ hy)
    simp [chain_add, hx, ih hr]

/-- A chain either has no record matching the key, or splits at its first match. -/
theorem chain_split (k : rte_table_netflow_key) (chain : List hashBucket_t) :
    (∀ b ∈ chain, bucket_matches k b = false) ∨
    ∃ pre b post, chain = pre ++ b :: post ∧ (∀ x ∈ pre, bucket_matches k x = false) ∧
      bucket_matches k b = true := by
  induction chain with
  | nil => left; simp
  | cons a rest ih =>
    by_cases ha : bucket_matches k a = true
    · right; exact ⟨[], a, rest, rfl, by simp, ha⟩
    · have ha' : bucket_matches k a = false := by simpa using ha
      rcases ih with h | ⟨pre, b, post, e, hpre, hb⟩
      · left
        intro x hx
        rcases List.mem_cons.1 hx with rfl | hx
        · exact ha'
        · exact h x hx
      · right
        refine ⟨a :: pre, b, post, by simp [e], ?_, hb⟩
        intro x hx
        rcases List.mem_cons.1 hx with rfl | hx
        · exact ha'
        · exact hpre x hx

/-- The call does not return exactly when the table has no slot, or a new
record is needed and the allocator gives none. -/
theorem entry_add_ret_none_iff (cfg : Config) (t : rte_table_netflow) (gpc : Nat) (c : AddCall) :
    (rte_table_netflow_entry_add cfg t gpc c).ret = none ↔
      t.n_entries = 0 ∨
      ((∀ b ∈ t.array (slot_index cfg t.n_entries c.key), bucket_matches c.key b = false) ∧
        c.zmalloc_ok = false) := by
  unfold rte_table_netflow_entry_add slot_index
  by_cases hn : t.n_entries = 0
  · simp [hn]
  · simp only [hn, if_false, false_or]
    rcases chain_split c.key (t.array (key_hash cfg c.key % t.n_entries)) with h | ⟨pre, b, post, e, hpre, hb⟩
    · rw [chain_walk_no_match cfg c _ [] false h]
      cases hz : c.zmalloc_ok <;> simp [h]
      intro x hx; exact h x hx
    · rw [e, chain_walk_match cfg c pre b post [] false hpre hb]
      simp
      intro h
      have := h b (by simp)
      simp [hb] at this

/-- A call that returns gives 1, stores `chain_add` of the old chain into the
slot of the key, leaves the other slots alone, takes and releases the lock of
that slot, and counts the packet. -/
theorem entry_add_eq (cfg : Config) (t : rte_table_netflow) (gpc : Nat) (c : AddCall)
    (hn : t.n_entries ≠ 0)
    (h : c.zmalloc_ok = true ∨
      ∃ b ∈ t.array (slot_index cfg t.n_entries c.key), bucket_matches c.key b = true) :
    (rte_table_netflow_entry_add cfg t gpc c).ret = some 1 ∧
    (rte_table_netflow_entry_add cfg t gpc c).table =
      set_slot t (slot_index cfg t.n_entries c.key)
        (chain_add cfg c (t.array (slot_index cfg t.n_entries c.key))) ∧
    (rte_table_netflow_entry_add cfg t gpc c).global_packet_count = (gpc + 1) % 2 ^ 64 ∧
    (rte_table_netflow_entry_add cfg t gpc c).events =
      [Event.spinlock_lock (slot_index cfg t.n_entries c.key),
       Event.spinlock_unlock (slot_index cfg t.n_entries c.key)] := by
  unfold rte_table_netflow_entry_add slot_index
  simp only [hn, if_false]
  rcases chain_split c.key (t.array (key_hash cfg c.key % t.n_entries)) with h1 | ⟨pre, b, post, e, hpre, hb⟩
  · have hz : c.zmalloc_ok = true := by
      rcases h with h | ⟨b, hb, hm⟩
      · exact h
      · have := h1 b hb
        unfold slot_index at hb
        simp [hm] at this
    rw [chain_walk_no_match cfg c _ [] false h1, chain_add_no_match cfg c _ h1]
    cases hch : t.array (key_hash cfg c.key % t.n_entries) <;> simp [hz]
  · rw [e, chain_walk_match cfg c pre b post [] false hpre hb, chain_add_match cfg c pre b post hpre hb]
    simp

/-- The match test reads the two addresses only. -/
theorem bucket_matches_iff (k : rte_table_netflow_key) (b : hashBucket_t) :
    bucket_matches k b = true ↔ (b.ip_src = k.ip_src ∧ b.ip_dst = k.ip_dst) := by
  simp [bucket_matches]

/-- The match test fails when one of the two addresses differs. -/
theorem bucket_matches_false_iff (k : rte_table_netflow_key) (b : hashBucket_t) :
    bucket_matches k b = false ↔ ¬ (b.ip_src = k.ip_src ∧ b.ip_dst = k.ip_dst) := by
  rw [← bucket_matches_iff]; simp

/-- C6. For a table with at least one slot and a packet whose key's
`{ip_src, ip_dst}` matches no record of the chain at its slot index, with the
record allocation succeeding, `rte_table_netflow_entry_add` returns and leaves
that chain equal to the old chain followed by exactly one new record (the
head when the chain was empty, the last record with a `NULL` link otherwise).
The new record carries the key's `vlanId`, `proto`, `ip_src`, `ip_dst`,
`port_src`, `port_dst`, `magic = 1`, `pktSent = 1`, `bytesSent` = the
network-order total length of this packet, `src2dstTos` = its ToS,
`src2dstTcpFlags` = its TCP flags when the protocol is TCP and 0 otherwise, and
`firstSeenSent = lastSeenSent` = the current time. -/
theorem entry_add_appends_new_record (cfg : Config) (t : rte_table_netflow) (gpc : Nat)
    (c : AddCall) (hn : t.n_entries ≠ 0) (hz : c.zmalloc_ok = true)
    (hno : ∀ b ∈ t.array (slot_index cfg t.n_entries c.key),
      ¬ (b.ip_src = c.key.ip_src ∧ b.ip_dst = c.key.ip_dst)) :
    ∃ r : hashBucket_t,
      (rte_table_netflow_entry_add cfg t gpc c).ret = some 1 ∧
      (rte_table_netflow_entry_add cfg t gpc c).table.array (slot_index cfg t.n_entries c.key) =
        t.array (slot_index cfg t.n_entries c.key) ++ [r] ∧
      (t.array (slot_index cfg t.n_entries c.key) = [] →
        (rte_table_netflow_entry_add cfg t gpc c).table.array
          (slot_index cfg t.n_entries c.key) = [r]) ∧
      r.vlanId = c.key.vlanId ∧ r.proto = c.key.proto ∧
      r.ip_src = c.key.ip_src ∧ r.ip_dst = c.key.ip_dst ∧
      r.port_src = c.key.port_src ∧ r.port_dst = c.key.port_dst ∧
      r.magic = 1 ∧ r.pktSent = 1 ∧
      r.bytesSent = wire_value_16 cfg.little_endian c.ip.total_length ∧
      r.src2dstTos = c.ip.type_of_service ∧
      r.src2dstTcpFlags = (if c.key.proto = IPPROTO_TCP then c.tcp.tcp_flags else 0) ∧
      r.firstSeenSent = c.curr ∧ r.lastSeenSent = c.curr := by
  have hno' : ∀ b ∈ t.array (slot_index cfg t.n_entries c.key), bucket_matches c.key b = false :=
    fun b hb => (bucket_matches_false_iff _ _).2 (hno b hb)
  obtain ⟨h1, h2, -, -⟩ := entry_add_eq cfg t gpc c hn (Or.inl hz)
  have hch : (rte_table_netflow_entry_add cfg t gpc c).table.array
      (slot_index cfg t.n_entries c.key) =
      t.array (slot_index cfg t.n_entries c.key) ++ [new_bucket cfg c] := by
    rw [h2, chain_add_no_match cfg c _ hno']
    simp [set_slot]
  refine ⟨new_bucket cfg c, h1, hch, ?_, rfl, rfl, rfl, rfl, rfl, rfl, rfl, rfl, ?_, rfl, rfl,
    rfl, rfl⟩
  · intro he
    rw [hch, he]; rfl
  · simp [new_bucket, rte_cpu_to_be_16_eq_wire]

/-- C6 at the first packet of a flow in a table of 16 empty slots. -/
theorem entry_add_appends_new_record_witness :
    ∃ r : hashBucket_t,
      (rte_table_netflow_entry_add cfg_example empty_table_16 0 call_syn).ret = some 1 ∧
      (rte_table_netflow_entry_add cfg_example empty_table_16 0 call_syn).table.array
          (slot_index cfg_example 16 call_syn.key) =
        empty_table_16.array (slot_index cfg_example 16 call_syn.key) ++ [r] ∧
      (empty_table_16.array (slot_index cfg_example 16 call_syn.key) = [] →
        (rte_table_netflow_entry_add cfg_example empty_table_16 0 call_syn).table.array
          (slot_index cfg_example 16 call_syn.key) = [r]) ∧
      r.vlanId = 0 ∧ r.proto = 6 ∧ r.ip_src = 0x0100000A ∧ r.ip_dst = 0x0200000A ∧
      r.port_src = 0xD204 ∧ r.port_dst = 0x5000 ∧ r.magic = 1 ∧ r.pktSent = 1 ∧
      r.bytesSent = wire_value_16 true 0x3C00 ∧ r.src2dstTos = 0 ∧
      r.src2dstTcpFlags = (if (6 : Nat) = IPPROTO_TCP then 0x02 else 0) ∧
      r.firstSeenSent = ⟨1000, 0⟩ ∧ r.lastSeenSent = ⟨1000, 0⟩ :=
  entry_add_appends_new_record cfg_example empty_table_16 0 call_syn (by decide) rfl
    (by intro b hb; simp [empty_table_16] at hb)

/-- C9, the code at the failing input: in a table of 16 empty slots a
packet needs a new record; when `rte_zmalloc` returns `NULL` the call stores
through the `NULL` pointer and does not return (no error value), and the lock of
the slot has been taken and not released. -/
theorem entry_add_allocation_failure_no_return :
    (rte_table_netflow_entry_add cfg_example empty_table_16 0
        { call_syn with zmalloc_ok := false }).ret = none ∧
    (rte_table_netflow_entry_add cfg_example empty_table_16 0
        { call_syn with zmalloc_ok := false }).events =
      [Event.spinlock_lock (slot_index cfg_example 16 call_syn.key)] := by
  constructor <;> decide

/-- A table that `rte_table_netflow_create` returns has a power of two of
slots, all empty, and the fields asked for. -/
theorem create_some (cfg : Config) (ok : Bool) (gpc : Nat) (params : rte_table_netflow_params)
    (socket_id : Int) (entry_size : Nat) (t : rte_table_netflow)
    (h : (rte_table_netflow_create cfg ok gpc params socket_id entry_size).table = some t) :
    t.n_entries ≠ 0 ∧ (∃ k, t.n_entries = 2 ^ k) ∧ t.array = (fun _ => []) ∧
    t.entry_size = entry_size ∧ t.f_hash = params.f_hash ∧ t.seed = params.seed ∧
    t.n_entries = (if params.n_entries > cfg.MAX_ENTRY then cfg.MAX_ENTRY else params.n_entries) := by
  unfold rte_table_netflow_create at h
  by_cases hc : params.n_entries > cfg.MAX_ENTRY
  · simp only [hc, if_true] at h
    by_cases hv : cfg.MAX_ENTRY = 0 ∨ rte_is_power_of_2 cfg.MAX_ENTRY = false
    · simp [hv] at h
    · rw [if_neg hv] at h
      cases ok
      · simp at h
      · simp at h
        subst h
        simp at hv
        exact ⟨hv.1, (rte_is_power_of_2_iff _).1 hv.2, rfl, rfl, rfl, rfl, by simp [hc]⟩
  · simp only [hc, if_false] at h
    by_cases hv : params.n_entries = 0 ∨ rte_is_power_of_2 params.n_entries = false
    · simp [hv] at h
    · rw [if_neg hv] at h
      cases ok
      · simp at h
      · simp at h
        subst h
        simp at hv
        exact ⟨hv.1, (rte_is_power_of_2_iff _).1 hv.2, rfl, rfl, rfl, rfl, by simp [hc]⟩

/-- Sequential calls whose allocations succeed all return; each slot's chain is
the old chain after the calls that select the slot, and every call is counted. -/
theorem ingest_eq (cfg : Config) (cs : List AddCall) :
    ∀ (s : State), s.table.n_entries ≠ 0 → (∀ c ∈ cs, c.zmalloc_ok = true) →
    ∃ s', ingest cfg s cs = some s' ∧
      s'.table.n_entries = s.table.n_entries ∧ s'.table.entry_size = s.table.entry_size ∧
      s'.table.f_hash = s.table.f_hash ∧ s'.table.seed = s.table.seed ∧
      (∀ i, s'.table.array i =
        chain_ingest cfg (cs.filter (fun c => slot_index cfg s.table.n_entries c.key = i))
          (s.table.array i)) ∧
      (s.global_packet_count < 2 ^ 64 →
        s'.global_packet_count = (s.global_packet_count + cs.length) % 2 ^ 64) := by
  induction cs with
  | nil =>
    intro s _ _
    exact ⟨s, rfl, rfl, rfl, rfl, rfl, fun _ => rfl, fun h => by
      simp only [List.length_nil, Nat.add_zero]; exact (Nat.mod_eq_of_lt h).symm⟩
  | cons c cs ih =>
    intro s hn hz
    obtain ⟨h1, h2, h3, -⟩ := entry_add_eq cfg s.table s.global_packet_count c hn
      (Or.inl (hz c (List.mem_cons_self _ _)))
    have hn' : (rte_table_netflow_entry_add cfg s.table s.global_packet_count c).table.n_entries
        = s.table.n_entries := by rw [h2]; rfl
    obtain ⟨s', e, a1, a2, a3, a4, a5, a6⟩ :=
      ih ⟨(rte_table_netflow_entry_add cfg s.table s.global_packet_count c).table,
          (rte_table_netflow_entry_add cfg s.table s.global_packet_count c).global_packet_count⟩
        (by simpa [hn'] using hn) (fun x hx => hz x (List.mem_cons_of_mem _ hx))
    refine ⟨s', ?_, ?_, ?_, ?_, ?_, ?_, ?_⟩
    · simp only [ingest, h1]; exact e
    · rw [a1, hn']
    · rw [a2, h2]; rfl
    · rw [a3, h2]; rfl
    · rw [a4, h2]; rfl
    · intro i
      rw [a5 i]
      simp only [hn']
      rw [h2]
      by_cases hi : slot_index cfg s.table.n_entries c.key = i
      · subst hi
        simp [List.filter_cons, chain_ingest, set_slot]
      · have hi' : ¬ i = slot_index cfg s.table.n_entries c.key := fun h => hi h.symm
        simp [List.filter_cons, hi, hi', set_slot]
    · intro hg
      have hlt : (s.global_packet_count + 1) % 2 ^ 64 < 2 ^ 64 := Nat.mod_lt _ (by norm_num)
      rw [a6 (by rw [h3]; exact hlt), h3]
      simp only [List.length_cons]
      omega

/-- The match test is the equality of the address pairs. -/
theorem bucket_matches_eq (k : rte_table_netflow_key) (b : hashBucket_t) :
    bucket_matches k b = decide (bucket_addr b = key_addr k) := by
  rw [Bool.eq_iff_iff]
  simp [bucket_matches, bucket_addr, key_addr]

/-- An update keeps the address pair of the record. -/
theorem update_bucket_addr (cfg : Config) (c : AddCall) (b : hashBucket_t) :
    bucket_addr (update_bucket cfg c b) = bucket_addr b := rfl

/-- A new record has the address pair of the key. -/
theorem new_bucket_addr (cfg : Config) (c : AddCall) :
    bucket_addr (new_bucket cfg c) = key_addr c.key := rfl

/-- The address pairs of a chain after one call: unchanged when the pair of the
key is there, else extended at the end by the pair of the key. -/
theorem chain_add_map_addr (cfg : Config) (c : AddCall) (chain : List hashBucket_t) :
    (chain_add cfg c chain).map bucket_addr =
      if key_addr c.key ∈ chain.map bucket_addr then chain.map bucket_addr
      else chain.map bucket_addr ++ [key_addr c.key] := by
  induction chain with
  | nil => simp [chain_add, new_bucket_addr]
  | cons b rest ih =>
    by_cases hb : bucket_addr b = key_addr c.key
    · simp [chain_add, bucket_matches_eq, hb, update_bucket_addr]
    · have hb' : ¬ key_addr c.key = bucket_addr b := fun h => hb h.symm
      simp only [chain_add, bucket_matches_eq, hb, decide_False, Bool.false_eq_true, if_false,
        List.map_cons, ih, List.mem_cons, hb', false_or]
      split <;> simp

/-- Lookup of a key in a chain after one call. -/
theorem chain_add_find (cfg : Config) (c : AddCall) (k : rte_table_netflow_key)
    (chain : List hashBucket_t) :
    (chain_add cfg c chain).find? (bucket_matches k) =
      if key_addr c.key = key_addr k then flow_step cfg (chain.find? (bucket_matches k)) c
      else chain.find? (bucket_matches k) := by
  induction chain with
  | nil =>
    by_cases h : key_addr c.key = key_addr k
    · simp [chain_add, flow_step, bucket_matches_eq, new_bucket_addr, h]
    · simp [chain_add, flow_step, bucket_matches_eq, new_bucket_addr, h]
  | cons b rest ih =>
    by_cases hb : bucket_addr b = key_addr c.key
    · by_cases h : key_addr c.key = key_addr k
      · simp [chain_add, bucket_matches_eq, hb, update_bucket_addr, h, flow_step]
      · simp [chain_add, bucket_matches_eq, hb, update_bucket_addr, h, flow_step]
    · by_cases hk : bucket_addr b = key_addr k
      · have h : ¬ key_addr c.key = key_addr k := fun h => hb (hk.trans h.symm)
        have h' : ¬ key_addr k = key_addr c.key := fun e => h e.symm
        simp [chain_add, bucket_matches_eq, hk, h, h']
      · simp only [chain_add, bucket_matches_eq, hb, decide_False, Bool.false_eq_true, if_false,
          List.find?_cons, hk]
        simpa [bucket_matches_eq] using ih

/-- No call, no change. -/
theorem chain_ingest_nil (cfg : Config) (chain : List hashBucket_t) :
    chain_ingest cfg [] chain = chain := rfl

/-- The first call first. -/
theorem chain_ingest_cons (cfg : Config) (c : AddCall) (cs : List AddCall)
    (chain : List hashBucket_t) :
    chain_ingest cfg (c :: cs) chain = chain_ingest cfg cs (chain_add cfg c chain) := rfl

/-- Lookup of a key after a sequence of calls: only the calls with the address
pair of the key count. -/
theorem chain_ingest_find (cfg : Config) (k : rte_table_netflow_key) (cs : List AddCall) :
    ∀ chain : List hashBucket_t,
      (chain_ingest cfg cs chain).find? (bucket_matches k) =
        (cs.filter (fun c => key_addr c.key = key_addr k)).foldl (flow_step cfg)
          (chain.find? (bucket_matches k)) := by
  induction cs with
  | nil => intro chain; rfl
  | cons c cs ih =>
    intro chain
    rw [chain_ingest_cons, ih, chain_add_find]
    by_cases h : key_addr c.key = key_addr k
    · simp [List.filter_cons, h]
    · simp [List.filter_cons, h]

/-- The address pairs of a chain stay pairwise different, and are those of
the old chain and of the calls. -/
theorem chain_ingest_addrs (cfg : Config) (cs : List AddCall) :
    ∀ chain : List hashBucket_t, (chain.map bucket_addr).Nodup →
      ((chain_ingest cfg cs chain).map bucket_addr).Nodup ∧
      ∀ a, a ∈ (chain_ingest cfg cs chain).map bucket_addr ↔
        (a ∈ chain.map bucket_addr ∨ ∃ c ∈ cs, key_addr c.key = a) := by
  induction cs with
  | nil => intro chain h; exact ⟨h, fun a => by simp [chain_ingest_nil]⟩
  | cons c cs ih =>
    intro chain h
    have hn : ((chain_add cfg c chain).map bucket_addr).Nodup := by
      rw [chain_add_map_addr]
      split
      · exact h
      · rename_i hc
        exact List.Nodup.append h (by simp) (by simpa using hc)
    obtain ⟨h1, h2⟩ := ih (chain_add cfg c chain) hn
    refine ⟨h1, fun a => ?_⟩
    rw [chain_ingest_cons, h2, chain_add_map_addr]
    split
    · rename_i hc
      constructor
      · rintro (h | ⟨x, hx, e⟩)
        · exact Or.inl h
        · exact Or.inr ⟨x, List.mem_cons_of_mem _ hx, e⟩
      · rintro (h | ⟨x, hx, e⟩)
        · exact Or.inl h
        · rcases List.mem_cons.1 hx with rfl | hx
          · left; rw [← e]; exact hc
          · exact Or.inr ⟨x, hx, e⟩
    · constructor
      · rintro (h | ⟨x, hx, e⟩)
        · rcases List.mem_append.1 h with h | h
          · exact Or.inl h
          · right; exact ⟨c, List.mem_cons_self _ _, (List.mem_singleton.1 h).symm⟩
        · exact Or.inr ⟨x, List.mem_cons_of_mem _ hx, e⟩
      · rintro (h | ⟨x, hx, e⟩)
        · exact Or.inl (List.mem_append_left _ h)
        · rcases List.mem_cons.1 hx with rfl | hx
          · left; simp [e]
          · exact Or.inr ⟨x, hx, e⟩

/-! ### The record of one flow -/

/-- Further calls of a flow that has a record update the record. -/
theorem foldl_flow_step_some (cfg : Config) (cs : List AddCall) :
    ∀ b : hashBucket_t, cs.foldl (flow_step cfg) (some b) =
      some (cs.foldl (fun b c => update_bucket cfg c b) b) := by
  induction cs with
  | nil => intro b; rfl
  | cons c cs ih => intro b; simp [List.foldl_cons, flow_step, ih]

/-- The OR of a list is the OR of its head and of its tail. -/
theorem or_all_cons (x : Nat) (l : List Nat) : or_all (x :: l) = x ||| or_all l := by
  unfold or_all
  have h : ∀ (l : List Nat) (a b : Nat),
      l.foldl (fun a b => a ||| b) (a ||| b) = a ||| l.foldl (fun a b => a ||| b) b := by
    intro l
    induction l with
    | nil => intro a b; rfl
    | cons y l ih => intro a b; simp only [List.foldl_cons]; rw [Nat.lor_assoc, ih]
  simp only [List.foldl_cons]
  rw [Nat.lor_comm 0 x, h]

/-- The OR of no byte is 0. -/
theorem or_all_nil : or_all [] = 0 := rfl

/-- The fields of a record after further calls of its flow. -/
theorem foldl_update_fields (cfg : Config) (cs : List AddCall) :
    ∀ b : hashBucket_t,
      let r := cs.foldl (fun b c => update_bucket cfg c b) b
      r.ip_src = b.ip_src ∧ r.ip_dst = b.ip_dst ∧ r.port_src = b.port_src ∧
      r.port_dst = b.port_dst ∧ r.proto = b.proto ∧ r.vlanId = b.vlanId ∧ r.magic = b.magic ∧
      r.firstSeenSent = b.firstSeenSent ∧ r.bytesRcvd = b.bytesRcvd ∧ r.pktRcvd = b.pktRcvd ∧
      r.pktSent % 2 ^ 64 = (b.pktSent + cs.length) % 2 ^ 64 ∧
      r.bytesSent % 2 ^ 64 = (b.bytesSent + bytes_on_wire cfg cs) % 2 ^ 64 ∧
      (cs ≠ [] → r.pktSent < 2 ^ 64 ∧ r.bytesSent < 2 ^ 64) ∧
      r.src2dstTos = b.src2dstTos ||| or_all (cs.map (fun c => c.ip.type_of_service)) ∧
      ((∀ c ∈ cs, c.key.proto = IPPROTO_TCP) →
        r.src2dstTcpFlags = b.src2dstTcpFlags ||| or_all (cs.map (fun c => c.tcp.tcp_flags))) ∧
      ((∀ c ∈ cs, c.key.proto ≠ IPPROTO_TCP) → r.src2dstTcpFlags = b.src2dstTcpFlags) := by
  induction cs with
  | nil => intro b; simp [or_all_nil, bytes_on_wire]
  | cons c cs ih =>
    intro b
    obtain ⟨h1, h2, h3, h4, h5, h6, h7, h8, h9, h10, h11, h12, h13, h14, h15, h16⟩ :=
      ih (update_bucket cfg c b)
    simp only [List.foldl_cons]
    refine ⟨h1, h2, h3, h4, h5, h6, h7, h8, h9, h10, ?_, ?_, ?_, ?_, ?_, ?_⟩
    · rw [h11]
      simp only [update_bucket, List.length_cons]
      omega
    · rw [h12]
      simp only [update_bucket, bytes_on_wire, List.map_cons, List.sum_cons,
        AddCall.length_on_wire, rte_cpu_to_be_16_eq_wire]
      omega
    · intro _
      by_cases hcs : cs = []
      · subst hcs
        simp only [List.foldl_nil, update_bucket]
        exact ⟨Nat.mod_lt _ (by norm_num), Nat.mod_lt _ (by norm_num)⟩
      · exact h13 hcs
    · rw [h14]
      simp only [update_bucket, List.map_cons, or_all_cons, Nat.lor_assoc]
    · intro hall
      rw [h15 (fun x hx => hall x (List.mem_cons_of_mem _ hx))]
      have hc : c.key.proto = IPPROTO_TCP := hall c (List.mem_cons_self _ _)
      simp only [update_bucket, hc, if_true, List.map_cons, or_all_cons, Nat.lor_assoc]
    · intro hall
      rw [h16 (fun x hx => hall x (List.mem_cons_of_mem _ hx))]
      have hc : c.key.proto ≠ IPPROTO_TCP := hall c (List.mem_cons_self _ _)
      simp only [update_bucket, hc, if_false]

/-! ## Flows -/

/-- Calls of one address pair keep a one-record chain of that pair a one-record
chain. -/
theorem chain_ingest_single (cfg : Config) (cs : List AddCall) :
    ∀ b : hashBucket_t, (∀ c ∈ cs, key_addr c.key = bucket_addr b) →
      chain_ingest cfg cs [b] = [cs.foldl (fun b c => update_bucket cfg c b) b] := by
  induction cs with
  | nil => intro b _; rfl
  | cons c cs ih =>
    intro b h
    have hc : bucket_addr b = key_addr c.key := (h c (List.mem_cons_self _ _)).symm
    rw [chain_ingest_cons]
    have : chain_add cfg c [b] = [update_bucket cfg c b] := by
      simp [chain_add, bucket_matches_eq, hc]
    rw [this, ih (update_bucket cfg c b)
      (fun x hx => by rw [update_bucket_addr]; exact h x (List.mem_cons_of_mem _ hx))]
    rfl

/-- The table after a non-empty sequence of calls of one key into a fresh
table: one record, in the slot of the key. -/
theorem ingest_single_flow (cfg : Config) (ok : Bool) (gpc : Nat)
    (params : rte_table_netflow_params) (socket_id : Int) (entry_size : Nat)
    (t : rte_table_netflow) (k : rte_table_netflow_key) (c0 : AddCall) (cs : List AddCall)
    (hcreate : (rte_table_netflow_create cfg ok gpc params socket_id entry_size).table = some t)
    (hkey : ∀ c ∈ c0 :: cs, c.key = k)
    (halloc : ∀ c ∈ c0 :: cs, c.zmalloc_ok = true) :
    ∃ s, ingest cfg ⟨t, 0⟩ (c0 :: cs) = some s ∧
      s.table.array (slot_index cfg t.n_entries k) =
        [cs.foldl (fun b c => update_bucket cfg c b) (new_bucket cfg c0)] ∧
      (∀ i, i ≠ slot_index cfg t.n_entries k → s.table.array i = []) := by
  obtain ⟨hn, -, harr, -⟩ := create_some cfg ok gpc params socket_id entry_size t hcreate
  obtain ⟨s, hs, -, -, -, -, hchain, -⟩ := ingest_eq cfg (c0 :: cs) ⟨t, 0⟩ hn halloc
  refine ⟨s, hs, ?_, ?_⟩
  · rw [hchain]
    have hf : (c0 :: cs).filter (fun c => slot_index cfg t.n_entries c.key =
        slot_index cfg t.n_entries k) = c0 :: cs := by
      apply List.filter_eq_self.2
      intro c hc
      simp [hkey c hc]
    simp only [hf, harr, chain_ingest_cons]
    have h0 : chain_add cfg c0 [] = [new_bucket cfg c0] := rfl
    rw [h0]
    apply chain_ingest_single
    intro c hc
    rw [new_bucket_addr, hkey c (List.mem_cons_of_mem _ hc), hkey c0 (List.mem_cons_self _ _)]
  · intro i hi
    rw [hchain]
    have hf : (c0 :: cs).filter (fun c => slot_index cfg t.n_entries c.key = i) = [] := by
      apply List.filter_eq_nil_iff.2
      intro c hc
      simp only [hkey c hc, decide_eq_true_eq]
      exact fun h => hi h.symm
    simp only [hf, harr]
    rfl

/-- The record of a flow after a non-empty list of its calls. -/
theorem foldl_flow_step_none (cfg : Config) (c : AddCall) (cs : List AddCall) :
    (c :: cs).foldl (flow_step cfg) none =
      some (cs.foldl (fun b c => update_bucket cfg c b) (new_bucket cfg c)) := by
  simp [List.foldl_cons, flow_step, foldl_flow_step_some]

/-- The fields of the record of a flow after a non-empty list of calls of one key. -/
theorem flow_record_fields (cfg : Config) (k : rte_table_netflow_key) (cs : List AddCall)
    (hne : cs ≠ []) (hkey : ∀ c ∈ cs, c.key = k) :
    ∃ r, cs.foldl (flow_step cfg) none = some r ∧
      r.ip_src = k.ip_src ∧ r.ip_dst = k.ip_dst ∧ r.port_src = k.port_src ∧
      r.port_dst = k.port_dst ∧ r.proto = k.proto ∧ r.vlanId = k.vlanId ∧
      r.pktSent = cs.length % 2 ^ 64 ∧
      r.bytesSent =
        (cs.map (fun c => wire_value_16 cfg.little_endian c.ip.total_length)).sum % 2 ^ 64 ∧
      r.src2dstTos = or_all (cs.map (fun c => c.ip.type_of_service)) ∧
      (k.proto = IPPROTO_TCP →
        r.src2dstTcpFlags = or_all (cs.map (fun c => c.tcp.tcp_flags))) ∧
      r.magic = 1 ∧ r.bytesRcvd = 0 ∧ r.pktRcvd = 0 := by
  cases cs with
  | nil => exact absurd rfl hne
  | cons c0 cs =>
    obtain ⟨h1, h2, h3, h4, h5, h6, h7, -, h9, h10, h11, h12, h13, h14, h15, -⟩ :=
      foldl_update_fields cfg cs (new_bucket cfg c0)
    have hk0 : c0.key = k := hkey c0 (List.mem_cons_self _ _)
    have hp : (cs.foldl (fun b c => update_bucket cfg c b) (new_bucket cfg c0)).pktSent =
        (c0 :: cs).length % 2 ^ 64 := by
      by_cases hcs : cs = []
      · subst hcs; simp [new_bucket, zeroed_bucket]
      · rw [← Nat.mod_eq_of_lt (h13 hcs).1, h11]
        simp only [new_bucket, zeroed_bucket, List.length_cons]
        omega
    have hsum : (List.map (fun c => wire_value_16 cfg.little_endian c.ip.total_length)
        (c0 :: cs)).sum = wire_value_16 cfg.little_endian c0.ip.total_length +
          bytes_on_wire cfg cs := by
      simp [bytes_on_wire, AddCall.length_on_wire]
      rfl
    have hw : wire_value_16 cfg.little_endian c0.ip.total_length < 2 ^ 64 := by
      unfold wire_value_16 memory_bytes_16
      split <;> simp <;> omega
    have hb : (cs.foldl (fun b c => update_bucket cfg c b) (new_bucket cfg c0)).bytesSent =
        (List.map (fun c => wire_value_16 cfg.little_endian c.ip.total_length)
          (c0 :: cs)).sum % 2 ^ 64 := by
      rw [hsum]
      by_cases hcs : cs = []
      · subst hcs
        simp only [List.foldl_nil, new_bucket, rte_cpu_to_be_16_eq_wire, bytes_on_wire,
          List.map_nil, List.sum_nil, Nat.add_zero]
        exact (Nat.mod_eq_of_lt hw).symm
      · rw [← Nat.mod_eq_of_lt (h13 hcs).2, h12]
        simp only [new_bucket, rte_cpu_to_be_16_eq_wire]
    refine ⟨_, foldl_flow_step_none cfg c0 cs, ?_, ?_, ?_, ?_, ?_, ?_, hp, hb, ?_, ?_, ?_, ?_, ?_⟩
    · rw [h1, ← hk0]; rfl
    · rw [h2, ← hk0]; rfl
    · rw [h3, ← hk0]; rfl
    · rw [h4, ← hk0]; rfl
    · rw [h5, ← hk0]; rfl
    · rw [h6, ← hk0]; rfl
    · rw [h14]
      simp [new_bucket, or_all_cons]
    · intro htcp
      have hk0' : c0.key.proto = IPPROTO_TCP := by rw [hk0]; exact htcp
      rw [h15 (fun c hc => by rw [hkey c (List.mem_cons_of_mem _ hc)]; exact htcp)]
      simp [new_bucket, hk0', or_all_cons]
    · rw [h7]; rfl
    · rw [h9]; rfl
    · rw [h10]; rfl

/-- The record of a single flow in a fresh table, field by field. -/
theorem single_flow_record (cfg : Config) (ok : Bool) (gpc : Nat)
    (params : rte_table_netflow_params) (socket_id : Int) (entry_size : Nat)
    (t : rte_table_netflow) (k : rte_table_netflow_key) (cs : List AddCall)
    (hcreate : (rte_table_netflow_create cfg ok gpc params socket_id entry_size).table = some t)
    (hne : cs ≠ [])
    (hkey : ∀ c ∈ cs, c.key = k)
    (halloc : ∀ c ∈ cs, c.zmalloc_ok = true) :
    ∃ s r, ingest cfg ⟨t, 0⟩ cs = some s ∧
      s.table.array (slot_index cfg t.n_entries k) = [r] ∧
      (∀ i, i ≠ slot_index cfg t.n_entries k → s.table.array i = []) ∧
      r.ip_src = k.ip_src ∧ r.ip_dst = k.ip_dst ∧ r.port_src = k.port_src ∧
      r.port_dst = k.port_dst ∧ r.proto = k.proto ∧ r.vlanId = k.vlanId ∧
      r.pktSent = cs.length % 2 ^ 64 ∧
      r.bytesSent =
        (cs.map (fun c => wire_value_16 cfg.little_endian c.ip.total_length)).sum % 2 ^ 64 ∧
      r.src2dstTos = or_all (cs.map (fun c => c.ip.type_of_service)) ∧
      (k.proto = IPPROTO_TCP →
        r.src2dstTcpFlags = or_all (cs.map (fun c => c.tcp.tcp_flags))) := by
  obtain ⟨r, hr, h1, h2, h3, h4, h5, h6, hp, hb, htos, hflags, -⟩ :=
    flow_record_fields cfg k cs hne hkey
  cases cs with
  | nil => exact absurd rfl hne
  | cons c0 cs =>
    obtain ⟨s, hs, hchain, hother⟩ :=
      ingest_single_flow cfg ok gpc params socket_id entry_size t k c0 cs hcreate hkey halloc
    rw [foldl_flow_step_none] at hr
    rw [Option.some.inj hr] at hchain
    exact ⟨s, r, hs, hchain, hother, h1, h2, h3, h4, h5, h6, hp, hb, htos, hflags⟩

/-- The table of 16 empty slots is what the creation returns for 16 entries. -/
theorem create_16 :
    (rte_table_netflow_create cfg_example true 7 ⟨16, 0, 0⟩ 0 64).table = some empty_table_16 := by
  rfl

/-- C1. For a table that `rte_table_netflow_create` has just returned and a
non-empty sequence of packets of one flow key whose record allocation succeeds,
the sequential calls of `rte_table_netflow_entry_add` all return and leave
exactly one record in the table, in the slot of the key; it carries the key,
its `pktSent` is the number of packets and its `bytesSent` the sum of the
network-order total-length fields of their IPv4 headers (both as `uint64_t`,
that is modulo 2^64, and exactly so below 2^64). -/
theorem single_flow_counters (cfg : Config) (ok : Bool) (gpc : Nat)
    (params : rte_table_netflow_params) (socket_id : Int) (entry_size : Nat)
    (t : rte_table_netflow) (k : rte_table_netflow_key) (cs : List AddCall)
    (hcreate : (rte_table_netflow_create cfg ok gpc params socket_id entry_size).table = some t)
    (hne : cs ≠ [])
    (hkey : ∀ c ∈ cs, c.key = k)
    (halloc : ∀ c ∈ cs, c.zmalloc_ok = true) :
    ∃ s r, ingest cfg ⟨t, 0⟩ cs = some s ∧
      s.table.array (slot_index cfg t.n_entries k) = [r] ∧
      (∀ i, i ≠ slot_index cfg t.n_entries k → s.table.array i = []) ∧
      r.ip_src = k.ip_src ∧ r.ip_dst = k.ip_dst ∧ r.port_src = k.port_src ∧
      r.port_dst = k.port_dst ∧ r.proto = k.proto ∧ r.vlanId = k.vlanId ∧
      r.pktSent = cs.length % 2 ^ 64 ∧
      r.bytesSent =
        (cs.map (fun c => wire_value_16 cfg.little_endian c.ip.total_length)).sum % 2 ^ 64 ∧
      (cs.length < 2 ^ 64 → r.pktSent = cs.length) ∧
      ((cs.map (fun c => wire_value_16 cfg.little_endian c.ip.total_length)).sum < 2 ^ 64 →
        r.bytesSent =
          (cs.map (fun c => wire_value_16 cfg.little_endian c.ip.total_length)).sum) := by
  obtain ⟨s, r, hs, hchain, hother, h1, h2, h3, h4, h5, h6, hp, hb, -, -⟩ :=
    single_flow_record cfg ok gpc params socket_id entry_size t k cs hcreate hne hkey halloc
  refine ⟨s, r, hs, hchain, hother, h1, h2, h3, h4, h5, h6, hp, hb, ?_, ?_⟩
  · intro h; rw [hp, Nat.mod_eq_of_lt h]
  · intro h; rw [hb, Nat.mod_eq_of_lt h]

/-- C1 at two packets of one flow: 2 packets, 120 bytes. -/
theorem single_flow_counters_witness :
    ∃ s r, ingest cfg_example ⟨empty_table_16, 0⟩ [call_syn, call_ack] = some s ∧
      s.table.array (slot_index cfg_example 16 key_example) = [r] ∧
      (∀ i, i ≠ slot_index cfg_example 16 key_example → s.table.array i = []) ∧
      r.ip_src = 0x0100000A ∧ r.ip_dst = 0x0200000A ∧ r.port_src = 0xD204 ∧
      r.port_dst = 0x5000 ∧ r.proto = 6 ∧ r.vlanId = 0 ∧
      r.pktSent = 2 ∧ r.bytesSent = 120 ∧
      ([call_syn, call_ack].length < 2 ^ 64 → r.pktSent = 2) ∧
      (([call_syn, call_ack].map
          (fun c => wire_value_16 true c.ip.total_length)).sum < 2 ^ 64 →
        r.bytesSent = 120) :=
  single_flow_counters cfg_example true 7 ⟨16, 0, 0⟩ 0 64 empty_table_16 key_example
    [call_syn, call_ack] create_16 (by simp) (by decide) (by decide)

/-- Existing records keep their TCP flags under a call whose protocol is not TCP;
a record added by it has none. -/
theorem chain_add_flags_not_tcp (cfg : Config) (c : AddCall) (h : c.key.proto ≠ IPPROTO_TCP)
    (chain : List hashBucket_t) :
    (chain_add cfg c chain).map (fun r => r.src2dstTcpFlags) =
        chain.map (fun r => r.src2dstTcpFlags) ∨
    (chain_add cfg c chain).map (fun r => r.src2dstTcpFlags) =
        chain.map (fun r => r.src2dstTcpFlags) ++ [0] := by
  induction chain with
  | nil => right; simp [chain_add, new_bucket, h, zeroed_bucket]
  | cons b rest ih =>
    by_cases hb : bucket_matches c.key b = true
    · left; simp [chain_add, hb, update_bucket, h]
    · rcases ih with ih | ih
      · left; simp [chain_add, hb, ih]
      · right; simp [chain_add, hb, ih]

/-- A call that does not return leaves the table as it was. -/
theorem entry_add_table_of_ret_none (cfg : Config) (t : rte_table_netflow) (gpc : Nat)
    (c : AddCall) (h : (rte_table_netflow_entry_add cfg t gpc c).ret = none) :
    (rte_table_netflow_entry_add cfg t gpc c).table = t ∧
    (rte_table_netflow_entry_add cfg t gpc c).global_packet_count = gpc := by
  unfold rte_table_netflow_entry_add at h ⊢
  by_cases hn : t.n_entries = 0
  · simp [hn]
  · simp only [hn, if_false] at h ⊢
    by_cases hu : (chain_walk cfg c [] false (t.array (key_hash cfg c.key % t.n_entries))).updated
        = true
    · simp [hu] at h
    · simp only [hu, if_false] at h ⊢
      by_cases hz : c.zmalloc_ok = false
      · simp [hz]
      · simp [hz] at h

/-- Reading a slot after a store into the array. -/
theorem set_slot_array (t : rte_table_netflow) (idx : Nat) (chain : List hashBucket_t) (i : Nat) :
    (set_slot t idx chain).array i = if i = idx then chain else t.array i := rfl

/-- A call whose protocol is not TCP leaves the TCP flags of every record that
was in the table as they were; a record that it adds has the flags 0. -/
theorem entry_add_flags_not_tcp (cfg : Config) (t : rte_table_netflow) (gpc : Nat) (c : AddCall)
    (h : c.key.proto ≠ IPPROTO_TCP) (i : Nat) :
    ((rte_table_netflow_entry_add cfg t gpc c).table.array i).map (fun r => r.src2dstTcpFlags) =
        (t.array i).map (fun r => r.src2dstTcpFlags) ∨
    ((rte_table_netflow_entry_add cfg t gpc c).table.array i).map (fun r => r.src2dstTcpFlags) =
        (t.array i).map (fun r => r.src2dstTcpFlags) ++ [0] := by
  cases hr : (rte_table_netflow_entry_add cfg t gpc c).ret with
  | none => left; rw [(entry_add_table_of_ret_none cfg t gpc c hr).1]
  | some v =>
    have hnone : ¬ (rte_table_netflow_entry_add cfg t gpc c).ret = none := by simp [hr]
    rw [entry_add_ret_none_iff] at hnone
    have hn : t.n_entries ≠ 0 := fun h0 => hnone (Or.inl h0)
    have hm : c.zmalloc_ok = true ∨
        ∃ b ∈ t.array (slot_index cfg t.n_entries c.key), bucket_matches c.key b = true := by
      by_cases hz : c.zmalloc_ok = true
      · exact Or.inl hz
      · right
        by_contra hex
        apply hnone
        right
        refine ⟨fun b hb => ?_, by simpa using hz⟩
        by_contra hb'
        exact hex ⟨b, hb, by simpa using hb'⟩
    obtain ⟨-, h2, -, -⟩ := entry_add_eq cfg t gpc c hn hm
    rw [h2, set_slot_array]
    by_cases hi : i = slot_index cfg t.n_entries c.key
    · subst hi
      simpa using chain_add_flags_not_tcp cfg c h _
    · left; simp [hi]

/-- C2. For a non-empty sequence of TCP packets of one flow key ingested into
a table that `rte_table_netflow_create` has just returned (allocations
succeeding), the one record of the flow has as `src2dstTcpFlags` the bitwise OR
of the `tcp_flags` bytes of the packets and as `src2dstTos` the bitwise OR of
their `type_of_service` bytes (with the packet and byte counters of C1). A
packet whose key is not TCP changes the flags of no record of the table; a
record that it creates has the flags 0. -/
theorem tcp_flags_accumulate :
    (∀ (cfg : Config) (ok : Bool) (gpc : Nat) (params : rte_table_netflow_params)
        (socket_id : Int) (entry_size : Nat) (t : rte_table_netflow)
        (k : rte_table_netflow_key) (cs : List AddCall),
      (rte_table_netflow_create cfg ok gpc params socket_id entry_size).table = some t →
      cs ≠ [] → (∀ c ∈ cs, c.key = k) → (∀ c ∈ cs, c.zmalloc_ok = true) →
      k.proto = IPPROTO_TCP →
      ∃ s r, ingest cfg ⟨t, 0⟩ cs = some s ∧
        s.table.array (slot_index cfg t.n_entries k) = [r] ∧
        r.src2dstTcpFlags = or_all (cs.map (fun c => c.tcp.tcp_flags)) ∧
        r.src2dstTos = or_all (cs.map (fun c => c.ip.type_of_service)) ∧
        r.pktSent = cs.length % 2 ^ 64 ∧
        r.bytesSent =
          (cs.map (fun c => wire_value_16 cfg.little_endian c.ip.total_length)).sum % 2 ^ 64) ∧
    (∀ (cfg : Config) (t : rte_table_netflow) (gpc : Nat) (c : AddCall) (i : Nat),
      c.key.proto ≠ IPPROTO_TCP →
      (((rte_table_netflow_entry_add cfg t gpc c).table.array i).map
          (fun r => r.src2dstTcpFlags) = (t.array i).map (fun r => r.src2dstTcpFlags) ∨
       ((rte_table_netflow_entry_add cfg t gpc c).table.array i).map
          (fun r => r.src2dstTcpFlags) = (t.array i).map (fun r => r.src2dstTcpFlags) ++ [0])) := by
  constructor
  · intro cfg ok gpc params socket_id entry_size t k cs hcreate hne hkey halloc htcp
    obtain ⟨s, r, hs, hchain, -, -, -, -, -, -, -, hp, hb, htos, hflags⟩ :=
      single_flow_record cfg ok gpc params socket_id entry_size t k cs hcreate hne hkey halloc
    exact ⟨s, r, hs, hchain, hflags htcp, htos, hp, hb⟩
  · intro cfg t gpc c i h
    exact entry_add_flags_not_tcp cfg t gpc c h i

/-- C2 at the scenario of the specification: 16 entries, three packets of the key
(10.0.0.1, 10.0.0.2, TCP, 1234, 80) with total lengths 60, 60, 1500 and the
flags SYN, ACK, FIN give one record with 1620 bytes, 3 packets and the flags
SYN|ACK|FIN. -/
theorem tcp_flags_accumulate_witness :
    ∃ s r, ingest cfg_example ⟨empty_table_16, 0⟩ [call_syn, call_ack, call_fin] = some s ∧
      s.table.array (slot_index cfg_example 16 key_example) = [r] ∧
      r.src2dstTcpFlags = (0x02 ||| 0x10 ||| 0x01) ∧
      r.src2dstTos = 0 ∧
      r.pktSent = 3 ∧
      r.bytesSent = 1620 :=
  tcp_flags_accumulate.1 cfg_example true 7 ⟨16, 0, 0⟩ 0 64 empty_table_16 key_example
    [call_syn, call_ack, call_fin] create_16 (by simp) (by decide) (by decide) rfl

/-! ## Collisions -/

/-- The table of one empty slot is what the creation returns for one entry. -/
theorem create_1 :
    (rte_table_netflow_create cfg_example true 7 ⟨1, 0, 0⟩ 0 64).table = some empty_table_1 := by
  rfl

/-- C3, counterexample: two distinct keys with the same addresses and different
source ports select the same slot; after three interleaved packets the chain
holds one record, which carries the ports of the first key and counts the
packets and bytes of both. -/
theorem collision_same_addresses_share_a_record :
    key_example ≠ key_other_port ∧
    slot_index cfg_example 1 key_example = slot_index cfg_example 1 key_other_port ∧
    (ingest cfg_example ⟨empty_table_1, 0⟩ [call_syn, call_other_port, call_ack]).map
        (fun s => (s.table.array (slot_index cfg_example 1 key_example)).map
          (fun r => (r.port_src, r.pktSent, r.bytesSent))) =
      some [(0xD204, 3, 1620)] := by
  decide

/-- A list without repetition whose members are exactly `a` and `b`. -/
theorem list_of_two {α : Type} (l : List α) (a b : α) (hab : a ≠ b) (hn : l.Nodup)
    (hm : ∀ x, x ∈ l ↔ (x = a ∨ x = b)) : l = [a, b] ∨ l = [b, a] := by
  match l, hn, hm with
  | [], _, hm => exact absurd ((hm a).2 (Or.inl rfl)) (by simp)
  | [x], _, hm =>
    have h1 : a = x := by simpa using (hm a).2 (Or.inl rfl)
    have h2 : b = x := by simpa using (hm b).2 (Or.inr rfl)
    exact absurd (h1.trans h2.symm) hab
  | [x, y], hn, hm =>
    have hxy : x ≠ y := by simpa using hn
    have hx := (hm x).1 (by simp)
    have hy := (hm y).1 (by simp)
    rcases hx with rfl | rfl <;> rcases hy with rfl | rfl
    · exact absurd rfl hxy
    · exact Or.inl rfl
    · exact Or.inr rfl
    · exact absurd rfl hxy
  | x :: y :: z :: rest, hn, hm =>
    have hx := (hm x).1 (by simp)
    have hy := (hm y).1 (by simp)
    have hz := (hm z).1 (by simp)
    simp only [List.nodup_cons, List.mem_cons, not_or] at hn
    obtain ⟨⟨hxy, hxz, -⟩, ⟨hyz, -⟩, -⟩ := hn
    rcases hx with rfl | rfl <;> rcases hy with rfl | rfl <;> rcases hz with rfl | rfl <;>
      simp_all

/-- Two keys have different address pairs when a source or destination address differs. -/
theorem key_addr_ne_iff (k1 k2 : rte_table_netflow_key) :
    key_addr k1 ≠ key_addr k2 ↔ ¬ (k1.ip_src = k2.ip_src ∧ k1.ip_dst = k2.ip_dst) := by
  simp [key_addr]

/-- A list whose image has two elements has two elements. -/
theorem map_eq_pair {α β : Type} (f : α → β) (l : List α) (a b : β) (h : l.map f = [a, b]) :
    ∃ x y, l = [x, y] ∧ f x = a ∧ f y = b := by
  cases l with
  | nil => simp at h
  | cons x l =>
    cases l with
    | nil => simp at h
    | cons y l =>
      cases l with
      | nil =>
        simp only [List.map_cons, List.map_nil, List.cons.injEq, and_true] at h
        exact ⟨x, y, rfl, h.1, h.2⟩
      | cons z l => simp at h

/-- The chain of two flows with different address pairs that share a slot. -/
theorem chain_of_two_flows (cfg : Config) (k1 k2 : rte_table_netflow_key) (cs : List AddCall)
    (haddr : key_addr k1 ≠ key_addr k2)
    (hkeys : ∀ c ∈ cs, c.key = k1 ∨ c.key = k2)
    (h1 : ∃ c ∈ cs, c.key = k1) (h2 : ∃ c ∈ cs, c.key = k2) :
    ∃ r1 r2,
      (chain_ingest cfg cs [] = [r1, r2] ∨ chain_ingest cfg cs [] = [r2, r1]) ∧
      (cs.filter (fun c => c.key = k1)).foldl (flow_step cfg) none = some r1 ∧
      (cs.filter (fun c => c.key = k2)).foldl (flow_step cfg) none = some r2 := by
  have hk12 : k1 ≠ k2 := fun h => haddr (by rw [h])
  have hf1 : cs.filter (fun c => key_addr c.key = key_addr k1) =
      cs.filter (fun c => c.key = k1) := by
    apply List.filter_congr
    intro c hc
    rcases hkeys c hc with h | h
    · simp [h]
    · simp [h, haddr.symm, hk12.symm]
  have hf2 : cs.filter (fun c => key_addr c.key = key_addr k2) =
      cs.filter (fun c => c.key = k2) := by
    apply List.filter_congr
    intro c hc
    rcases hkeys c hc with h | h
    · simp [h, haddr, hk12]
    · simp [h]
  have hfind1 := chain_ingest_find cfg k1 cs []
  have hfind2 := chain_ingest_find cfg k2 cs []
  rw [hf1] at hfind1
  rw [hf2] at hfind2
  simp only [List.find?_nil] at hfind1 hfind2
  obtain ⟨hnodup, hmem⟩ := chain_ingest_addrs cfg cs [] (by simp)
  have hmem' : ∀ a, a ∈ (chain_ingest cfg cs []).map bucket_addr ↔
      (a = key_addr k1 ∨ a = key_addr k2) := by
    intro a
    rw [hmem a]
    constructor
    · rintro (h | ⟨c, hc, rfl⟩)
      · simp at h
      · rcases hkeys c hc with h | h
        · left; rw [h]
        · right; rw [h]
    · rintro (rfl | rfl)
      · obtain ⟨c, hc, e⟩ := h1; exact Or.inr ⟨c, hc, by rw [e]⟩
      · obtain ⟨c, hc, e⟩ := h2; exact Or.inr ⟨c, hc, by rw [e]⟩
  rcases list_of_two _ _ _ haddr hnodup hmem' with h | h
  · obtain ⟨x, y, hch, h⟩ := map_eq_pair _ _ _ _ h
    · rw [hch] at hfind1 hfind2
      have hx1 : bucket_matches k1 x = true := by rw [bucket_matches_eq]; simp [h.1]
      have hx2 : bucket_matches k2 x = false := by rw [bucket_matches_eq]; simp [h.1, haddr]
      have hy2 : bucket_matches k2 y = true := by rw [bucket_matches_eq]; simp [h.2]
      simp only [List.find?_cons, hx1] at hfind1
      simp only [List.find?_cons, hx2, hy2] at hfind2
      exact ⟨x, y, Or.inl hch, hfind1.symm, hfind2.symm⟩
  · obtain ⟨x, y, hch, h⟩ := map_eq_pair _ _ _ _ h
    · rw [hch] at hfind1 hfind2
      have hx2 : bucket_matches k2 x = true := by rw [bucket_matches_eq]; simp [h.1]
      have hx1 : bucket_matches k1 x = false := by
        rw [bucket_matches_eq]; simp [h.1, haddr.symm]
      have hy1 : bucket_matches k1 y = true := by rw [bucket_matches_eq]; simp [h.2]
      simp only [List.find?_cons, hx1, hy1] at hfind1
      simp only [List.find?_cons, hx2] at hfind2
      exact ⟨y, x, Or.inr hch, hfind1.symm, hfind2.symm⟩

/-- C3 (as amended). For two flow keys that differ in `ip_src` or `ip_dst` and
select the same slot of a table that `rte_table_netflow_create` has just
returned, and every interleaving of packets of the two keys with at least one
packet of each (allocations succeeding), the chain of the slot ends up with
two records, one per key, and the `pktSent` and `bytesSent` of each record
count the packets of its own key only (as `uint64_t`, modulo 2^64). -/
theorem collision_isolation (cfg : Config) (ok : Bool) (gpc : Nat)
    (params : rte_table_netflow_params) (socket_id : Int) (entry_size : Nat)
    (t : rte_table_netflow) (k1 k2 : rte_table_netflow_key) (cs : List AddCall)
    (hcreate : (rte_table_netflow_create cfg ok gpc params socket_id entry_size).table = some t)
    (haddr : ¬ (k1.ip_src = k2.ip_src ∧ k1.ip_dst = k2.ip_dst))
    (hslot : slot_index cfg t.n_entries k1 = slot_index cfg t.n_entries k2)
    (hkeys : ∀ c ∈ cs, c.key = k1 ∨ c.key = k2)
    (h1 : ∃ c ∈ cs, c.key = k1) (h2 : ∃ c ∈ cs, c.key = k2)
    (halloc : ∀ c ∈ cs, c.zmalloc_ok = true) :
    ∃ s r1 r2, ingest cfg ⟨t, 0⟩ cs = some s ∧
      (s.table.array (slot_index cfg t.n_entries k1) = [r1, r2] ∨
       s.table.array (slot_index cfg t.n_entries k1) = [r2, r1]) ∧
      (r1.ip_src = k1.ip_src ∧ r1.ip_dst = k1.ip_dst ∧ r1.port_src = k1.port_src ∧
        r1.port_dst = k1.port_dst ∧ r1.proto = k1.proto ∧ r1.vlanId = k1.vlanId) ∧
      (r2.ip_src = k2.ip_src ∧ r2.ip_dst = k2.ip_dst ∧ r2.port_src = k2.port_src ∧
        r2.port_dst = k2.port_dst ∧ r2.proto = k2.proto ∧ r2.vlanId = k2.vlanId) ∧
      r1.pktSent = (cs.filter (fun c => c.key = k1)).length % 2 ^ 64 ∧
      r1.bytesSent = ((cs.filter (fun c => c.key = k1)).map
        (fun c => wire_value_16 cfg.little_endian c.ip.total_length)).sum % 2 ^ 64 ∧
      r2.pktSent = (cs.filter (fun c => c.key = k2)).length % 2 ^ 64 ∧
      r2.bytesSent = ((cs.filter (fun c => c.key = k2)).map
        (fun c => wire_value_16 cfg.little_endian c.ip.total_length)).sum % 2 ^ 64 := by
  obtain ⟨hn, -, harr, -⟩ := create_some cfg ok gpc params socket_id entry_size t hcreate
  obtain ⟨s, hs, -, -, -, -, hchain, -⟩ := ingest_eq cfg cs ⟨t, 0⟩ hn halloc
  have hf : cs.filter (fun c => slot_index cfg t.n_entries c.key =
      slot_index cfg t.n_entries k1) = cs := by
    apply List.filter_eq_self.2
    intro c hc
    rcases hkeys c hc with h | h
    · simp [h]
    · simp [h, hslot]
  have hch : s.table.array (slot_index cfg t.n_entries k1) = chain_ingest cfg cs [] := by
    rw [hchain]
    simp only [hf, harr]
  obtain ⟨r1, r2, hor, e1, e2⟩ :=
    chain_of_two_flows cfg k1 k2 cs ((key_addr_ne_iff k1 k2).2 haddr) hkeys h1 h2
  have hne1 : cs.filter (fun c => c.key = k1) ≠ [] := by
    obtain ⟨c, hc, e⟩ := h1
    exact List.ne_nil_of_mem (List.mem_filter.2 ⟨hc, by simpa using e⟩)
  have hne2 : cs.filter (fun c => c.key = k2) ≠ [] := by
    obtain ⟨c, hc, e⟩ := h2
    exact List.ne_nil_of_mem (List.mem_filter.2 ⟨hc, by simpa using e⟩)
  obtain ⟨r1', e1', a1, a2, a3, a4, a5, a6, a7, a8, -⟩ :=
    flow_record_fields cfg k1 _ hne1 (fun c hc => by simpa using (List.mem_filter.1 hc).2)
  obtain ⟨r2', e2', b1, b2, b3, b4, b5, b6, b7, b8, -⟩ :=
    flow_record_fields cfg k2 _ hne2 (fun c hc => by simpa using (List.mem_filter.1 hc).2)
  have hr1 : r1' = r1 := Option.some.inj (e1'.symm.trans e1)
  have hr2 : r2' = r2 := Option.some.inj (e2'.symm.trans e2)
  subst hr1 hr2
  exact ⟨s, r1', r2', hs, by rw [hch]; exact hor, ⟨a1, a2, a3, a4, a5, a6⟩,
    ⟨b1, b2, b3, b4, b5, b6⟩, a7, a8, b7, b8⟩

/-- C3 (as amended) at two keys with different source addresses in a table of
one slot. -/
theorem collision_isolation_witness :
    ∃ s r1 r2,
      ingest cfg_example ⟨empty_table_1, 0⟩ [call_syn, call_other_addr, call_ack] = some s ∧
      (s.table.array (slot_index cfg_example 1 key_example) = [r1, r2] ∨
       s.table.array (slot_index cfg_example 1 key_example) = [r2, r1]) ∧
      (r1.ip_src = 0x0100000A ∧ r1.ip_dst = 0x0200000A ∧ r1.port_src = 0xD204 ∧
        r1.port_dst = 0x5000 ∧ r1.proto = 6 ∧ r1.vlanId = 0) ∧
      (r2.ip_src = 0x0300000A ∧ r2.ip_dst = 0x0200000A ∧ r2.port_src = 0xD204 ∧
        r2.port_dst = 0x5000 ∧ r2.proto = 6 ∧ r2.vlanId = 0) ∧
      r1.pktSent = 2 ∧ r1.bytesSent = 120 ∧ r2.pktSent = 1 ∧ r2.bytesSent = 1500 :=
  collision_isolation cfg_example true 7 ⟨1, 0, 0⟩ 0 64 empty_table_1 key_example
    key_other_addr [call_syn, call_other_addr, call_ack] create_1 (by decide) (by decide)
    (by decide) ⟨call_syn, by decide, rfl⟩ ⟨call_other_addr, by decide, rfl⟩ (by decide)

/-! ## Aggregate statistics -/

/-- The inner loop of the statistics adds the counters of a chain to the
accumulators, in `uint64_t` arithmetic, and makes no call. -/
theorem foldl_stats_record (chain : List hashBucket_t) :
    ∀ acc : StatsAcc,
      acc.total_bytes < 2 ^ 64 → acc.total_pkts < 2 ^ 64 → acc.total_flows < 2 ^ 64 →
      (chain.foldl stats_record acc).total_bytes =
        (acc.total_bytes + (chain.map (fun b => b.bytesSent)).sum) % 2 ^ 64 ∧
      (chain.foldl stats_record acc).total_pkts =
        (acc.total_pkts + (chain.map (fun b => b.pktSent)).sum) % 2 ^ 64 ∧
      (chain.foldl stats_record acc).total_flows = (acc.total_flows + chain.length) % 2 ^ 64 ∧
      (chain.foldl stats_record acc).events = acc.events := by
  induction chain with
  | nil =>
    intro acc h1 h2 h3
    simp only [List.foldl_nil, List.map_nil, List.sum_nil, List.length_nil, Nat.add_zero]
    exact ⟨(Nat.mod_eq_of_lt h1).symm, (Nat.mod_eq_of_lt h2).symm, (Nat.mod_eq_of_lt h3).symm,
      trivial⟩
  | cons b rest ih =>
    intro acc h1 h2 h3
    obtain ⟨a1, a2, a3, a4⟩ := ih (stats_record acc b) (Nat.mod_lt _ (by norm_num))
      (Nat.mod_lt _ (by norm_num)) (Nat.mod_lt _ (by norm_num))
    simp only [List.foldl_cons]
    rw [a1, a2, a3, a4]
    simp only [stats_record, List.map_cons, List.sum_cons, List.length_cons]
    refine ⟨?_, ?_, ?_, trivial⟩ <;> omega

/-- One round of the outer loop of the statistics: the lock of the slot is
taken, the chain is added up, the lock is released. -/
theorem stats_slot_spec (t : rte_table_netflow) (acc : StatsAcc) (i : Nat)
    (h1 : acc.total_bytes < 2 ^ 64) (h2 : acc.total_pkts < 2 ^ 64)
    (h3 : acc.total_flows < 2 ^ 64) :
    (stats_slot t acc i).total_bytes =
      (acc.total_bytes + ((t.array i).map (fun b => b.bytesSent)).sum) % 2 ^ 64 ∧
    (stats_slot t acc i).total_pkts =
      (acc.total_pkts + ((t.array i).map (fun b => b.pktSent)).sum) % 2 ^ 64 ∧
    (stats_slot t acc i).total_flows = (acc.total_flows + (t.array i).length) % 2 ^ 64 ∧
    (stats_slot t acc i).events =
      acc.events ++ [Event.spinlock_lock i, Event.spinlock_unlock i] := by
  obtain ⟨a1, a2, a3, a4⟩ := foldl_stats_record (t.array i)
    { acc with events := acc.events ++ [Event.spinlock_lock i] } h1 h2 h3
  refine ⟨a1, a2, a3, ?_⟩
  simp only [stats_slot, a4, List.append_assoc, List.singleton_append]

/-- The outer loop of the statistics over the first `n` slots. -/
theorem foldl_stats_slot (t : rte_table_netflow) (n : Nat) :
    ((List.range n).foldl (stats_slot t)
        { total_bytes := 0, total_pkts := 0, total_flows := 0, events := [] }).total_bytes =
      (((List.range n).flatMap t.array).map (fun b => b.bytesSent)).sum % 2 ^ 64 ∧
    ((List.range n).foldl (stats_slot t)
        { total_bytes := 0, total_pkts := 0, total_flows := 0, events := [] }).total_pkts =
      (((List.range n).flatMap t.array).map (fun b => b.pktSent)).sum % 2 ^ 64 ∧
    ((List.range n).foldl (stats_slot t)
        { total_bytes := 0, total_pkts := 0, total_flows := 0, events := [] }).total_flows =
      ((List.range n).flatMap t.array).length % 2 ^ 64 ∧
    ((List.range n).foldl (stats_slot t)
        { total_bytes := 0, total_pkts := 0, total_flows := 0, events := [] }).events =
      (List.range n).flatMap (fun i => [Event.spinlock_lock i, Event.spinlock_unlock i]) := by
  induction n with
  | zero => simp
  | succ n ih =>
    obtain ⟨h1, h2, h3, h4⟩ := ih
    simp only [List.range_succ, List.foldl_append, List.foldl_cons, List.foldl_nil,
      List.flatMap_append, List.flatMap_singleton, List.map_append, List.sum_append,
      List.length_append]
    generalize (List.range n).foldl (stats_slot t)
        { total_bytes := 0, total_pkts := 0, total_flows := 0, events := [] } = acc at h1 h2 h3 h4
    obtain ⟨a1, a2, a3, a4⟩ := stats_slot_spec t acc n
      (by rw [h1]; exact Nat.mod_lt _ (by norm_num))
      (by rw [h2]; exact Nat.mod_lt _ (by norm_num))
      (by rw [h3]; exact Nat.mod_lt _ (by norm_num))
    rw [a1, a2, a3, a4, h1, h2, h3, h4]
    refine ⟨?_, ?_, ?_, ?_⟩
    · omega
    · omega
    · omega
    · simp

/-- The three totals of the statistics, as sums over all records of the table. -/
theorem stats_totals (t : rte_table_netflow) :
    (rte_table_print_stats t).total_flows = (all_records t).length % 2 ^ 64 ∧
    (rte_table_print_stats t).total_bytes =
      ((all_records t).map (fun b => b.bytesSent)).sum % 2 ^ 64 ∧
    (rte_table_print_stats t).total_pkts =
      ((all_records t).map (fun b => b.pktSent)).sum % 2 ^ 64 := by
  obtain ⟨h1, h2, h3, -⟩ := foldl_stats_slot t t.n_entries
  exact ⟨h3, h1, h2⟩

/-- C7. For every table, `rte_table_print_stats` returns 0 and reports as
`total_flows` the number of records over all chains of all `n_entries` slots, as
`total_bytes` the sum of their `bytesSent` and as `total_pkts` the sum of their
`pktSent`, the sums taken modulo 2^64 (the count too, which is exact when the
table holds fewer than 2^64 records). -/
theorem print_stats_totals (t : rte_table_netflow) :
    (rte_table_print_stats t).ret = 0 ∧
    (rte_table_print_stats t).total_flows = (all_records t).length % 2 ^ 64 ∧
    (rte_table_print_stats t).total_bytes =
      ((all_records t).map (fun b => b.bytesSent)).sum % 2 ^ 64 ∧
    (rte_table_print_stats t).total_pkts =
      ((all_records t).map (fun b => b.pktSent)).sum % 2 ^ 64 ∧
    ((all_records t).length < 2 ^ 64 →
      (rte_table_print_stats t).total_flows = (all_records t).length) := by
  obtain ⟨h3, h1, h2⟩ := stats_totals t
  refine ⟨rfl, h3, h1, h2, fun h => ?_⟩
  rw [h3, Nat.mod_eq_of_lt h]

/-- C7 at a table of two slots and three records. -/
theorem print_stats_totals_witness :
    (rte_table_print_stats table_example).ret = 0 ∧
    (rte_table_print_stats table_example).total_flows = 3 ∧
    (rte_table_print_stats table_example).total_bytes = 2104 ∧
    (rte_table_print_stats table_example).total_pkts = 6 := by
  have h := print_stats_totals table_example
  refine ⟨h.1, ?_, ?_, ?_⟩
  · rw [h.2.1]; decide
  · rw [h.2.2.1]; decide
  · rw [h.2.2.2.1]; decide

/-! ## CSV export -/

/-- The character of a digit below ten is a digit and has the value of the digit. -/
theorem digitChar_isDigit (d : Nat) (h : d < 10) :
    (Nat.digitChar d).isDigit = true ∧ (Nat.digitChar d).toNat - 48 = d := by
  interval_cases d <;> decide

/-- The digits are put in front of the accumulator. -/
theorem toDigitsCore_append (fuel : Nat) :
    ∀ (n : Nat) (ds : List Char),
      Nat.toDigitsCore 10 fuel n ds = Nat.toDigitsCore 10 fuel n [] ++ ds := by
  induction fuel with
  | zero => intro n ds; simp [Nat.toDigitsCore]
  | succ fuel ih =>
    intro n ds
    simp only [Nat.toDigitsCore]
    split
    · simp
    · rw [ih (n / 10) (Nat.digitChar (n % 10) :: ds), ih (n / 10) [Nat.digitChar (n % 10)]]
      simp

/-- Every character that the digit loop produces is a digit. -/
theorem toDigitsCore_isDigit (fuel : Nat) :
    ∀ (n : Nat), ∀ c ∈ Nat.toDigitsCore 10 fuel n [], c.isDigit = true := by
  induction fuel with
  | zero => intro n c hc; simp [Nat.toDigitsCore] at hc
  | succ fuel ih =>
    intro n c hc
    simp only [Nat.toDigitsCore] at hc
    split at hc
    · simp only [List.mem_singleton] at hc
      rw [hc]; exact (digitChar_isDigit _ (Nat.mod_lt _ (by decide))).1
    · rw [toDigitsCore_append] at hc
      rcases List.mem_append.1 hc with h | h
      · exact ih _ c h
      · simp only [List.mem_singleton] at h
        rw [h]; exact (digitChar_isDigit _ (Nat.mod_lt _ (by decide))).1

/-- Reading one more digit. -/
theorem parse_decimal_append (l : List Char) (c : Char) :
    parse_decimal (l ++ [c]) = 10 * parse_decimal l + (c.toNat - 48) := by
  simp [parse_decimal, List.foldl_append]

/-- Reading the digits of a number gives the number, with enough fuel. -/
theorem parse_toDigitsCore (fuel : Nat) :
    ∀ (n : Nat), n < fuel → parse_decimal (Nat.toDigitsCore 10 fuel n []) = n := by
  induction fuel with
  | zero => intro n h; omega
  | succ fuel ih =>
    intro n h
    simp only [Nat.toDigitsCore]
    split
    · rename_i h0
      have hn : n % 10 = n := by omega
      have hd := (digitChar_isDigit _ (Nat.mod_lt n (by decide))).2
      simp only [parse_decimal, List.foldl_cons, List.foldl_nil, hd]
      omega
    · rename_i h0
      rw [toDigitsCore_append, parse_decimal_append, ih (n / 10) (by omega),
        (digitChar_isDigit _ (Nat.mod_lt n (by decide))).2]
      omega

/-- Every character of a decimal rendering is a digit. -/
theorem decimal_isDigit (n : Nat) : ∀ c ∈ decimal n, c.isDigit = true :=
  toDigitsCore_isDigit _ n

/-- Reading a decimal rendering gives the number back. -/
theorem parse_decimal_decimal (n : Nat) : parse_decimal (decimal n) = n :=
  parse_toDigitsCore _ n (Nat.lt_succ_self n)

/-- A number below `10 ^ e` has at most `e` decimal digits. -/
theorem decimal_length_le (n e : Nat) (he : 0 < e) (h : n < 10 ^ e) : (decimal n).length ≤ e :=
  Nat.toDigitsCore_length 10 (by decide) _ n e h he

/-- A dotted decimal address has at most 15 characters. -/
theorem inet_ntoa_length_le (le : Bool) (addr : Nat) : (inet_ntoa le addr).length ≤ 15 := by
  have h : ∀ x : Nat, (decimal (x % 256)).length ≤ 3 := fun x =>
    decimal_length_le _ 3 (by decide) (lt_of_lt_of_le (Nat.mod_lt _ (by decide)) (by norm_num))
  unfold inet_ntoa
  cases le
  · simp only [Bool.false_eq_true, if_false, List.length_append, List.length_cons]
    have h0 := h (addr % 2 ^ 32 / 2 ^ 24)
    have h1 := h (addr % 2 ^ 32 / 2 ^ 16)
    have h2 := h (addr % 2 ^ 32 / 2 ^ 8)
    have h3 := h (addr % 2 ^ 32)
    omega
  · simp only [if_true, List.length_append, List.length_cons]
    have h0 := h (addr % 2 ^ 32 / 2 ^ 24)
    have h1 := h (addr % 2 ^ 32 / 2 ^ 16)
    have h2 := h (addr % 2 ^ 32 / 2 ^ 8)
    have h3 := h (addr % 2 ^ 32)
    omega

/-- The line of a record whose fields fit their C types has at most 90
characters. -/
theorem csv_line_length_le (cfg : Config) (b : hashBucket_t) (h : bucket_wf b) :
    (csv_line cfg b).length ≤ 90 := by
  obtain ⟨-, -, h3, h4, h5, -, -, h8, h9⟩ := h
  have a1 := inet_ntoa_length_le cfg.little_endian b.ip_src
  have a2 := inet_ntoa_length_le cfg.little_endian b.ip_dst
  have a3 := decimal_length_le b.port_src 5 (by decide) (lt_of_lt_of_le h3 (by norm_num))
  have a4 := decimal_length_le b.port_dst 5 (by decide) (lt_of_lt_of_le h4 (by norm_num))
  have a5 := decimal_length_le b.proto 3 (by decide) (lt_of_lt_of_le h5 (by norm_num))
  have a6 := decimal_length_le b.bytesSent 20 (by decide) (lt_of_lt_of_le h8 (by norm_num))
  have a7 := decimal_length_le b.pktSent 20 (by decide) (lt_of_lt_of_le h9 (by norm_num))
  simp only [csv_line, List.length_append, List.length_cons, List.length_nil]
  omega

/-- The line of a record is its seven fields with commas between and a newline behind. -/
theorem csv_line_eq (cfg : Config) (b : hashBucket_t) :
    csv_line cfg b = [','].intercalate (csv_fields cfg b) ++ ['\n'] := by
  simp [csv_line, csv_fields, List.intercalate, List.intersperse]

/-- One record more in the buffer: the invariant of the export loop is kept. -/
theorem export_record_inv (cfg : Config) (env : ExportEnv) (s : ExportState) (b : hashBucket_t)
    (txt : List Char) (hinv : export_inv s txt) (hwf : bucket_wf b)
    (hre : ∀ n, env.realloc_ok n = true) (hb : 2 * (txt.length + 91) ≤ INT_MAX) :
    export_inv (export_record cfg env s b) (txt ++ csv_line cfg b) := by
  obtain ⟨h1, h2, h3, h4, h5, h6⟩ := hinv
  have hL := csv_line_length_le cfg b hwf
  have hI : INT_MAX = 2147483647 := by decide
  have htake : (csv_line cfg b).take 90 = csv_line cfg b := List.take_of_length_le hL
  have hfree : (s.buf_size + 2 ^ 64 - s.buf_end_offset % 2 ^ 64) % 2 ^ 64 =
      s.buf_size - s.buf_end_offset := by
    rw [hI] at h6
    omega
  -- the state after the grow test has 92 free bytes or more
  have hgrow : (export_grow env s).status = RunStatus.running ∧
      (export_grow env s).data = s.data ∧
      (export_grow env s).buf_end_offset = s.buf_end_offset ∧
      92 ≤ (export_grow env s).buf_size - s.buf_end_offset ∧
      (export_grow env s).buf_size ≤ INT_MAX := by
    unfold export_grow
    rw [hfree]
    by_cases hg : s.buf_size - s.buf_end_offset ≤ 91
    · have hov : ¬ INT_MAX < s.buf_size * 2 := by rw [hI] at hb ⊢; omega
      rw [if_pos hg, if_neg hov, if_neg (by simp [hre])]
      refine ⟨h1, rfl, rfl, ?_, ?_⟩
      · simp only []; omega
      · simp only []; rw [hI] at hb ⊢; omega
    · rw [if_neg hg]
      exact ⟨h1, rfl, rfl, by omega, h6⟩
  obtain ⟨g1, g2, g3, g4, g5⟩ := hgrow
  unfold export_record
  rw [if_neg (by simp [h1])]
  dsimp only
  rw [if_neg (by simp [g1])]
  unfold export_render
  dsimp only
  rw [htake, if_neg (by rw [g3]; omega), if_pos hL]
  refine ⟨g1, ?_, ?_, ?_, ?_, g5⟩
  · simp only [g2, h2, List.append_nil]
  · simp only [g3, List.length_append]; rw [hI] at g5; omega
  · simp only [g3]; rw [hI] at g5; omega
  · simp only []; omega

/-- The records of a chain in the buffer. -/
theorem export_chain_inv (cfg : Config) (env : ExportEnv) (hre : ∀ n, env.realloc_ok n = true)
    (chain : List hashBucket_t) :
    ∀ (s : ExportState) (txt : List Char), export_inv s txt → (∀ b ∈ chain, bucket_wf b) →
      2 * ((txt ++ chain.flatMap (csv_line cfg)).length + 91) ≤ INT_MAX →
      export_inv (chain.foldl (export_record cfg env) s) (txt ++ chain.flatMap (csv_line cfg)) := by
  induction chain with
  | nil => intro s txt h _ _; simpa using h
  | cons b rest ih =>
    intro s txt h hwf hb
    simp only [List.flatMap_cons, List.foldl_cons, ← List.append_assoc] at hb ⊢
    apply ih _ _ _ (fun x hx => hwf x (List.mem_cons_of_mem _ hx)) hb
    apply export_record_inv cfg env s b txt h (hwf b (List.mem_cons_self _ _)) hre
    simp only [List.length_append] at hb
    omega

/-- A change of the events alone does not touch the invariant of the export loop. -/
theorem export_inv_events (s : ExportState) (txt : List Char) (evs : List Event)
    (h : export_inv s txt) : export_inv { s with events := evs } txt := h

/-- The chain of one slot in the buffer. -/
theorem export_slot_inv (cfg : Config) (env : ExportEnv) (hre : ∀ n, env.realloc_ok n = true)
    (table : rte_table_netflow) (s : ExportState) (txt : List Char) (i : Nat)
    (h : export_inv s txt) (hwf : ∀ b ∈ table.array i, bucket_wf b)
    (hb : 2 * ((txt ++ (table.array i).flatMap (csv_line cfg)).length + 91) ≤ INT_MAX) :
    export_inv (export_slot cfg env table s i) (txt ++ (table.array i).flatMap (csv_line cfg)) := by
  have h1 := export_chain_inv cfg env hre (table.array i)
    { s with events := s.events ++ [Event.spinlock_lock i] } txt
    (export_inv_events s txt _ h) hwf hb
  have hs : ¬ s.status ≠ RunStatus.running := by simp [h.1]
  have hs1 : ¬ ((table.array i).foldl (export_record cfg env)
      { s with events := s.events ++ [Event.spinlock_lock i] }).status ≠ RunStatus.running := by
    simp [h1.1]
  unfold export_slot
  rw [if_neg hs]
  dsimp only
  rw [if_neg hs1]
  exact export_inv_events _ _ _ h1

/-- The first `n` slots in the buffer. -/
theorem export_slots_inv (cfg : Config) (env : ExportEnv) (hre : ∀ n, env.realloc_ok n = true)
    (table : rte_table_netflow) (s : ExportState) (h : export_inv s []) (n : Nat) :
    (∀ b ∈ (List.range n).flatMap table.array, bucket_wf b) →
    2 * ((((List.range n).flatMap table.array).flatMap (csv_line cfg)).length + 91) ≤ INT_MAX →
    export_inv ((List.range n).foldl (export_slot cfg env table) s)
      (((List.range n).flatMap table.array).flatMap (csv_line cfg)) := by
  induction n with
  | zero => intro _ _; simpa using h
  | succ n ih =>
    intro hwf hb
    simp only [List.range_succ, List.flatMap_append, List.flatMap_singleton, List.foldl_append,
      List.foldl_cons, List.foldl_nil] at hwf hb ⊢
    apply export_slot_inv cfg env hre table _ _ n
    · apply ih
      · intro b hb'; exact hwf b (List.mem_append_left _ hb')
      · simp only [List.length_append] at hb; omega
    · intro b hb'; exact hwf b (List.mem_append_right _ hb')
    · exact hb

/-- The text of a list of well-formed records has at most 90 characters a record. -/
theorem flatMap_csv_line_length_le (cfg : Config) (recs : List hashBucket_t)
    (hwf : ∀ b ∈ recs, bucket_wf b) :
    (recs.flatMap (csv_line cfg)).length ≤ 90 * recs.length := by
  induction recs with
  | nil => simp
  | cons b rest ih =>
    have h1 := csv_line_length_le cfg b (hwf b (List.mem_cons_self _ _))
    have h2 := ih (fun x hx => hwf x (List.mem_cons_of_mem _ hx))
    simp only [List.flatMap_cons, List.length_append, List.length_cons]
    omega

/-- With well-formed records, a buffer of at least 91 bytes, allocations that
succeed and a table small enough for `buf_size` to stay an `int`, the
traversal ends with the text of the table in the buffer. -/
theorem export_buffer_inv (cfg : Config) (env : ExportEnv) (table : rte_table_netflow)
    (hwf : ∀ b ∈ all_records table, bucket_wf b)
    (hmin : 91 ≤ cfg.EXPORT_BUF_INITAL_SIZE) (hmax : cfg.EXPORT_BUF_INITAL_SIZE ≤ INT_MAX)
    (hcount : 180 * (all_records table).length + 182 ≤ INT_MAX)
    (hmalloc : env.malloc_ok = true) (hre : ∀ n, env.realloc_ok n = true) :
    export_inv (export_buffer cfg env table) (export_text cfg table) := by
  unfold export_buffer export_text all_records
  simp only [hmalloc, Bool.true_eq_false, if_false]
  apply export_slots_inv cfg env hre table _ _ table.n_entries hwf
  · have := flatMap_csv_line_length_le cfg (all_records table) hwf
    unfold all_records at this hcount
    omega
  · exact ⟨rfl, rfl, rfl, by simp only []; omega, hmin, hmax⟩

/-- The tail of `rte_table_export_to_file` leaves the buffer as the traversal built it. -/
theorem export_to_file_data (cfg : Config) (env : ExportEnv) (table : rte_table_netflow)
    (filename : String) :
    (rte_table_export_to_file cfg env table filename).data = (export_buffer cfg env table).data ∧
    (rte_table_export_to_file cfg env table filename).buf_end_offset =
      (export_buffer cfg env table).buf_end_offset ∧
    (rte_table_export_to_file cfg env table filename).buf_size =
      (export_buffer cfg env table).buf_size ∧
    (rte_table_export_to_file cfg env table filename).n_realloc =
      (export_buffer cfg env table).n_realloc := by
  unfold rte_table_export_to_file
  simp only []
  split_ifs <;> exact ⟨rfl, rfl, rfl, rfl⟩

/-- A dotted decimal address holds digits and dots only. -/
theorem inet_ntoa_chars (le : Bool) (addr : Nat) :
    ∀ c ∈ inet_ntoa le addr, c.isDigit = true ∨ c = '.' := by
  intro c hc
  unfold inet_ntoa at hc
  simp only [List.mem_append, List.mem_cons, or_assoc] at hc
  rcases hc with h | h | h | h | h | h | h
  · exact Or.inl (decimal_isDigit _ c h)
  · exact Or.inr h
  · exact Or.inl (decimal_isDigit _ c h)
  · exact Or.inr h
  · exact Or.inl (decimal_isDigit _ c h)
  · exact Or.inr h
  · exact Or.inl (decimal_isDigit _ c h)

/-- The fields of a line hold digits and dots only. -/
theorem csv_fields_chars (cfg : Config) (b : hashBucket_t) :
    ∀ f ∈ csv_fields cfg b, ∀ c ∈ f, c.isDigit = true ∨ c = '.' := by
  intro f hf c hc
  simp only [csv_fields, List.mem_cons, List.mem_singleton, List.not_mem_nil, or_false] at hf
  rcases hf with rfl | rfl | rfl | rfl | rfl | rfl | rfl
  · exact inet_ntoa_chars _ _ c hc
  · exact inet_ntoa_chars _ _ c hc
  · exact Or.inl (decimal_isDigit _ c hc)
  · exact Or.inl (decimal_isDigit _ c hc)
  · exact Or.inl (decimal_isDigit _ c hc)
  · exact Or.inl (decimal_isDigit _ c hc)
  · exact Or.inl (decimal_isDigit _ c hc)

/-- No field of a line holds a comma. -/
theorem comma_not_in_fields (cfg : Config) (b : hashBucket_t) :
    ∀ f ∈ csv_fields cfg b, ',' ∉ f := by
  intro f hf hc
  rcases csv_fields_chars cfg b f hf ',' hc with h | h
  · exact absurd h (by decide)
  · exact absurd h (by decide)

/-- The fields of a line with the commas between them hold no newline. -/
theorem newline_not_in_body (cfg : Config) (b : hashBucket_t) :
    ∀ c ∈ [','].intercalate (csv_fields cfg b), ¬ (c == '\n') = true := by
  intro c hc hn
  have hcn : c = '\n' := by simpa using hn
  subst hcn
  have hf := csv_fields_chars cfg b
  simp only [csv_fields, List.intercalate, List.intersperse, List.flatten, List.mem_append,
    List.mem_cons, List.mem_singleton, List.not_mem_nil, or_false, List.append_nil,
    or_assoc] at hc hf
  have hno : ∀ f : List Char, (∀ c ∈ f, c.isDigit = true ∨ c = '.') → '\n' ∉ f := by
    intro f h hm
    rcases h _ hm with h | h
    · exact absurd h (by decide)
    · exact absurd h (by decide)
  rcases hc with h | h | h | h | h | h | h | h | h | h | h | h | h
  · exact hno _ (fun c hc => hf _ (Or.inl rfl) c hc) h
  · exact absurd h (by decide)
  · exact hno _ (fun c hc => hf _ (Or.inr (Or.inl rfl)) c hc) h
  · exact absurd h (by decide)
  · exact hno _ (fun c hc => hf _ (Or.inr (Or.inr (Or.inl rfl))) c hc) h
  · exact absurd h (by decide)
  · exact hno _ (fun c hc => hf _ (Or.inr (Or.inr (Or.inr (Or.inl rfl)))) c hc) h
  · exact absurd h (by decide)
  · exact hno _ (fun c hc => hf _ (Or.inr (Or.inr (Or.inr (Or.inr (Or.inl rfl))))) c hc) h
  · exact absurd h (by decide)
  · exact hno _ (fun c hc => hf _ (Or.inr (Or.inr (Or.inr (Or.inr (Or.inr (Or.inl rfl)))))) c hc) h
  · exact absurd h (by decide)
  · exact hno _ (fun c hc => hf _ (Or.inr (Or.inr (Or.inr (Or.inr (Or.inr (Or.inr rfl)))))) c hc) h

/-- The lines of the text of a list of records: one a record, in order. -/
theorem buffer_lines_flatMap (cfg : Config) (recs : List hashBucket_t) :
    buffer_lines (recs.flatMap (csv_line cfg)) =
      recs.map (fun b => [','].intercalate (csv_fields cfg b)) := by
  have h : ∀ recs : List hashBucket_t, (recs.flatMap (csv_line cfg)).splitOn '\n' =
      recs.map (fun b => [','].intercalate (csv_fields cfg b)) ++ [[]] := by
    intro recs
    induction recs with
    | nil => rfl
    | cons b rest ih =>
      simp only [List.flatMap_cons, csv_line_eq, List.append_assoc, List.singleton_append,
        List.map_cons, List.cons_append]
      rw [← ih]
      exact List.splitOnP_first _ _ (newline_not_in_body cfg b) '\n' (by simp) _
  unfold buffer_lines
  rw [h, List.dropLast_concat]

/-- The columns of the line of a record are its seven fields. -/
theorem splitOn_body (cfg : Config) (b : hashBucket_t) :
    ([','].intercalate (csv_fields cfg b)).splitOn ',' = csv_fields cfg b :=
  List.splitOn_intercalate _ ',' (comma_not_in_fields cfg b) (by simp [csv_fields])

/-- The sixth and seventh column of the line of a record read as its counters. -/
theorem column_value_body (cfg : Config) (b : hashBucket_t) :
    column_value 5 ([','].intercalate (csv_fields cfg b)) = b.bytesSent ∧
    column_value 6 ([','].intercalate (csv_fields cfg b)) = b.pktSent := by
  unfold column_value
  rw [splitOn_body]
  exact ⟨parse_decimal_decimal _, parse_decimal_decimal _⟩

/-- C8. For every table state whose records fit their C types, with a buffer
that starts at 91 bytes or more, allocations that succeed and a table small
enough for `buf_size` to stay an `int`, the buffer that
`rte_table_export_to_file` builds is the text of one newline-terminated line
per record, in slot index order and chain order within a slot; the columns of
each line, split at the commas, are the dotted-decimal source and destination
address, `port_src`, `port_dst`, `proto`, `bytesSent` and `pktSent` of the
record. So the number of lines is the `total_flows`, and the sums of the bytes
and packets columns are, as `uint64_t` sums (modulo 2^64, hence exactly when
they are below 2^64), the `total_bytes` and `total_pkts` that
`rte_table_print_stats` computes on the same table. -/
theorem export_buffer_lines (cfg : Config) (env : ExportEnv) (table : rte_table_netflow)
    (filename : String)
    (hwf : ∀ b ∈ all_records table, bucket_wf b)
    (hmin : 91 ≤ cfg.EXPORT_BUF_INITAL_SIZE) (hmax : cfg.EXPORT_BUF_INITAL_SIZE ≤ INT_MAX)
    (hcount : 180 * (all_records table).length + 182 ≤ INT_MAX)
    (hmalloc : env.malloc_ok = true) (hre : ∀ n, env.realloc_ok n = true) :
    (export_buffer cfg env table).status = RunStatus.running ∧
    (rte_table_export_to_file cfg env table filename).data =
      (all_records table).flatMap (csv_line cfg) ∧
    (buffer_lines (rte_table_export_to_file cfg env table filename).data).map
        (fun l => l.splitOn ',') =
      (all_records table).map (fun b =>
        [inet_ntoa cfg.little_endian b.ip_src, inet_ntoa cfg.little_endian b.ip_dst,
         decimal b.port_src, decimal b.port_dst, decimal b.proto, decimal b.bytesSent,
         decimal b.pktSent]) ∧
    (buffer_lines (rte_table_export_to_file cfg env table filename).data).length =
      (rte_table_print_stats table).total_flows ∧
    ((buffer_lines (rte_table_export_to_file cfg env table filename).data).map
        (column_value 5)).sum % 2 ^ 64 = (rte_table_print_stats table).total_bytes ∧
    ((buffer_lines (rte_table_export_to_file cfg env table filename).data).map
        (column_value 6)).sum % 2 ^ 64 = (rte_table_print_stats table).total_pkts ∧
    (((buffer_lines (rte_table_export_to_file cfg env table filename).data).map
        (column_value 5)).sum < 2 ^ 64 →
      ((buffer_lines (rte_table_export_to_file cfg env table filename).data).map
        (column_value 5)).sum = (rte_table_print_stats table).total_bytes) ∧
    (((buffer_lines (rte_table_export_to_file cfg env table filename).data).map
        (column_value 6)).sum < 2 ^ 64 →
      ((buffer_lines (rte_table_export_to_file cfg env table filename).data).map
        (column_value 6)).sum = (rte_table_print_stats table).total_pkts) := by
  have hinv := export_buffer_inv cfg env table hwf hmin hmax hcount hmalloc hre
  have hdata : (rte_table_export_to_file cfg env table filename).data =
      (all_records table).flatMap (csv_line cfg) := by
    rw [(export_to_file_data cfg env table filename).1, hinv.2.1]; rfl
  obtain ⟨hflows, hbytes, hpkts⟩ := stats_totals table
  have hlines := buffer_lines_flatMap cfg (all_records table)
  have h5 : ((buffer_lines ((all_records table).flatMap (csv_line cfg))).map
      (column_value 5)) = (all_records table).map (fun b => b.bytesSent) := by
    rw [hlines, List.map_map]
    apply List.map_congr_left
    intro b _
    exact (column_value_body cfg b).1
  have h6 : ((buffer_lines ((all_records table).flatMap (csv_line cfg))).map
      (column_value 6)) = (all_records table).map (fun b => b.pktSent) := by
    rw [hlines, List.map_map]
    apply List.map_congr_left
    intro b _
    exact (column_value_body cfg b).2
  have hI : INT_MAX = 2147483647 := by decide
  rw [hdata, h5, h6, hlines]
  refine ⟨hinv.1, rfl, ?_, ?_, hbytes.symm, hpkts.symm, ?_, ?_⟩
  · rw [List.map_map]
    apply List.map_congr_left
    intro b _
    exact splitOn_body cfg b
  · rw [hflows, List.length_map, Nat.mod_eq_of_lt]
    rw [hI] at hcount
    omega
  · intro h; rw [hbytes, Nat.mod_eq_of_lt h]
  · intro h; rw [hpkts, Nat.mod_eq_of_lt h]

/-- C8 at a table of two slots and three records. -/
theorem export_buffer_lines_witness :
    (export_buffer cfg_example (env_ok 0) table_example).status = RunStatus.running ∧
    (rte_table_export_to_file cfg_example (env_ok 0) table_example "flows.csv").data =
      ("10.0.0.1,10.0.0.2,1234,80,6,1620,3\n" ++ "10.0.0.3,10.0.0.2,5353,53,17,400,2\n" ++
        "192.168.1.1,8.8.8.8,0,0,1,84,1\n").toList ∧
    (buffer_lines (rte_table_export_to_file cfg_example (env_ok 0) table_example
        "flows.csv").data).length = 3 ∧
    ((buffer_lines (rte_table_export_to_file cfg_example (env_ok 0) table_example
        "flows.csv").data).map (column_value 5)).sum % 2 ^ 64 = 2104 ∧
    ((buffer_lines (rte_table_export_to_file cfg_example (env_ok 0) table_example
        "flows.csv").data).map (column_value 6)).sum % 2 ^ 64 = 6 := by
  have h := export_buffer_lines cfg_example (env_ok 0) table_example "flows.csv"
    (by decide) (by decide) (by decide) (by decide) rfl (fun _ => rfl)
  obtain ⟨h1, h2, -, h4, h5, h6, -, -⟩ := h
  refine ⟨h1, ?_, ?_, ?_, ?_⟩
  · rw [h2]; decide
  · rw [h4]; decide
  · rw [h5]; decide
  · rw [h6]; decide

/-! ## The rename of the export -/

/-- Events that are no file system calls, added behind a list without such. -/
theorem no_file_event_append (evs extra : List Event)
    (h : ∀ e ∈ evs, is_file_event e = false) (hx : ∀ e ∈ extra, is_file_event e = false) :
    ∀ e ∈ evs ++ extra, is_file_event e = false := by
  intro e he
  rcases List.mem_append.1 he with he | he
  · exact h e he
  · exact hx e he

/-- The grow test keeps what holds of every state of the export loop. -/
theorem export_grow_sound (env : ExportEnv) (s : ExportState) (h : export_sound env s)
    (hs : s.status = RunStatus.running) : export_sound env (export_grow env s) := by
  obtain ⟨h1, h2, h3, h4⟩ := h
  unfold export_grow
  split
  · split
    · exact ⟨h1, h2, by simp, by simp⟩
    · rename_i hov
      split
      · refine ⟨no_file_event_append _ _ h1 ?_, h2, by simp, by simp⟩
        intro e he
        simp only [List.mem_cons, List.mem_singleton, List.not_mem_nil, or_false] at he
        rcases he with rfl | rfl <;> rfl
      · rename_i hr
        refine ⟨no_file_event_append _ _ h1 ?_, by simp only []; omega, h3, ?_⟩
        · intro e he
          simp only [List.mem_singleton] at he
          rw [he]; rfl
        · intro _ n hn
          simp only [] at hn
          by_cases hn' : n < s.n_realloc
          · exact h4 hs n hn'
          · have : n = s.n_realloc := by omega
            rw [this]; simpa using hr
  · exact ⟨h1, h2, h3, h4⟩

/-- The rendering of a line keeps what holds of every state of the export loop. -/
theorem export_render_sound (cfg : Config) (env : ExportEnv) (s : ExportState)
    (b : hashBucket_t) (h : export_sound env s) :
    export_sound env (export_render cfg env s b) := by
  obtain ⟨h1, h2, h3, h4⟩ := h
  unfold export_render
  dsimp only
  split
  · exact ⟨h1, h2, by simp, by simp⟩
  · exact ⟨h1, h2, h3, h4⟩

/-- One round of the inner loop keeps what holds of every state of the export loop. -/
theorem export_record_sound (cfg : Config) (env : ExportEnv) (s : ExportState)
    (b : hashBucket_t) (h : export_sound env s) :
    export_sound env (export_record cfg env s b) := by
  unfold export_record
  by_cases hs : s.status = RunStatus.running
  · rw [if_neg (by simp [hs])]
    dsimp only
    have hg := export_grow_sound env s h hs
    split
    · exact hg
    · exact export_render_sound cfg env _ b hg
  · rw [if_pos hs]
    exact h

/-- The inner loop keeps what holds of every state of the export loop. -/
theorem export_chain_sound (cfg : Config) (env : ExportEnv) (chain : List hashBucket_t) :
    ∀ s : ExportState, export_sound env s →
      export_sound env (chain.foldl (export_record cfg env) s) := by
  induction chain with
  | nil => intro s h; exact h
  | cons b rest ih => intro s h; exact ih _ (export_record_sound cfg env s b h)

/-- One round of the outer loop keeps what holds of every state of the export loop. -/
theorem export_slot_sound (cfg : Config) (env : ExportEnv) (table : rte_table_netflow)
    (s : ExportState) (i : Nat) (h : export_sound env s) :
    export_sound env (export_slot cfg env table s i) := by
  unfold export_slot
  by_cases hs : s.status = RunStatus.running
  · rw [if_neg (by simp [hs])]
    dsimp only
    have h1 : export_sound env { s with events := s.events ++ [Event.spinlock_lock i] } := by
      refine ⟨?_, h.2.1, h.2.2.1, h.2.2.2⟩
      intro e he
      simp only [List.mem_append, List.mem_singleton] at he
      rcases he with he | rfl
      · exact h.1 e he
      · rfl
    have h2 := export_chain_sound cfg env (table.array i) _ h1
    split
    · exact h2
    · refine ⟨?_, h2.2.1, h2.2.2.1, h2.2.2.2⟩
      intro e he
      simp only [List.mem_append, List.mem_singleton] at he
      rcases he with he | rfl
      · exact h2.1 e he
      · rfl
  · rw [if_pos (by simpa using hs)]
    exact h

/-- The outer loop keeps what holds of every state of the export loop. -/
theorem export_slots_sound (cfg : Config) (env : ExportEnv) (table : rte_table_netflow)
    (s : ExportState) (h : export_sound env s) (n : Nat) :
    export_sound env ((List.range n).foldl (export_slot cfg env table) s) := by
  induction n with
  | zero => exact h
  | succ n ih =>
    rw [List.range_succ, List.foldl_append]
    exact export_slot_sound cfg env table _ n ih

/-- After the traversal no file has been touched, whatever happened; a failed
`malloc` has ended the run. -/
theorem export_buffer_sound (cfg : Config) (env : ExportEnv) (table : rte_table_netflow)
    (hmax : cfg.EXPORT_BUF_INITAL_SIZE ≤ INT_MAX) :
    export_sound env (export_buffer cfg env table) ∧
    (env.malloc_ok = false → (export_buffer cfg env table).status ≠ RunStatus.running) := by
  unfold export_buffer
  dsimp only
  by_cases hm : env.malloc_ok = false
  · rw [if_pos hm]
    refine ⟨⟨?_, hmax, by simp, by simp⟩, fun _ => by simp⟩
    intro e he
    simp only [List.mem_append, List.mem_singleton, List.mem_cons, List.not_mem_nil,
      or_false] at he
    rcases he with rfl | rfl <;> rfl
  · rw [if_neg hm]
    refine ⟨?_, fun h => absurd h hm⟩
    apply export_slots_sound
    refine ⟨?_, hmax, by simp, fun _ n hn => absurd hn (Nat.not_lt_zero n)⟩
    intro e he
    simp only [List.mem_singleton] at he
    rw [he]; rfl

/-- A rename is a file system call. -/
theorem rename_not_mem (evs : List Event) (h : ∀ e ∈ evs, is_file_event e = false)
    (src dst : String) : Event.rename_file src dst ∉ evs := by
  intro hm
  have := h _ hm
  simp [is_file_event] at this

/-- The conversion to `int` keeps an offset that is a valid `int`. -/
theorem int_of_size_t_eq (x : Nat) (h : x ≤ INT_MAX) : int_of_size_t x = (x : Int) := by
  have hI : INT_MAX = 2147483647 := by decide
  rw [hI] at h
  unfold int_of_size_t
  omega

/-- Calls on the temporary file behind a list of events without file system
calls: no rename among them, and no other file system call. -/
theorem tmpfile_events (evs extra : List Event) (h : ∀ e ∈ evs, is_file_event e = false)
    (hx : ∀ e ∈ extra, e = Event.open_file tmpfile ∨ (∃ d, e = Event.write_file d) ∨
      e = Event.close_file ∨ is_file_event e = false) :
    (∀ src dst, Event.rename_file src dst ∉ evs ++ extra) ∧
    ∀ e ∈ evs ++ extra, is_file_event e = true →
      (e = Event.open_file tmpfile ∨ (∃ d, e = Event.write_file d) ∨ e = Event.close_file) := by
  constructor
  · intro src dst hm
    rcases List.mem_append.1 hm with hm | hm
    · exact rename_not_mem _ h src dst hm
    · rcases hx _ hm with h' | ⟨d, h'⟩ | h' | h'
      · exact absurd h' (by simp)
      · exact absurd h' (by simp)
      · exact absurd h' (by simp)
      · simp [is_file_event] at h'
  · intro e he hfe
    rcases List.mem_append.1 he with he | he
    · rw [h e he] at hfe; exact absurd hfe (by decide)
    · rcases hx _ he with h' | h' | h' | h'
      · exact Or.inl h'
      · exact Or.inr (Or.inl h')
      · exact Or.inr (Or.inr h')
      · rw [h'] at hfe; exact absurd hfe (by decide)

/-- The two ways in which `rte_table_export_to_file` ends: after the traversal,
an `open`, a complete `write`, a successful `close` and the rename; or without
any rename, with no file system call but on the temporary file. -/
theorem export_to_file_cases (cfg : Config) (env : ExportEnv) (table : rte_table_netflow)
    (filename : String) (hmax : cfg.EXPORT_BUF_INITAL_SIZE ≤ INT_MAX) :
    ((rte_table_export_to_file cfg env table filename).status = RunStatus.returned ∧
      (export_buffer cfg env table).status = RunStatus.running ∧
      0 ≤ env.open_ret ∧
      env.write_ret = ((export_buffer cfg env table).buf_end_offset : Int) ∧
      env.close_ret = 0 ∧
      (rte_table_export_to_file cfg env table filename).events =
        (export_buffer cfg env table).events ++
          [Event.open_file tmpfile, Event.write_file (export_buffer cfg env table).data,
           Event.close_file, Event.rename_file tmpfile filename]) ∨
    ((rte_table_export_to_file cfg env table filename).status ≠ RunStatus.returned ∧
      (∀ src dst, Event.rename_file src dst ∉
        (rte_table_export_to_file cfg env table filename).events) ∧
      ∀ e ∈ (rte_table_export_to_file cfg env table filename).events, is_file_event e = true →
        (e = Event.open_file tmpfile ∨ (∃ d, e = Event.write_file d) ∨
          e = Event.close_file)) := by
  obtain ⟨⟨h1, h2, h3, h4⟩, -⟩ := export_buffer_sound cfg env table hmax
  unfold rte_table_export_to_file
  dsimp only
  by_cases hs : (export_buffer cfg env table).status = RunStatus.running
  · rw [if_neg (by simp [hs])]
    by_cases ho : env.open_ret < 0
    · rw [if_pos ho]
      right
      refine ⟨by simp, ?_⟩
      simp only [List.append_assoc]
      exact tmpfile_events _ _ h1 (by simp [is_file_event])
    · rw [if_neg ho]
      by_cases hf : (export_buffer cfg env table).buf_size <
          (export_buffer cfg env table).buf_end_offset
      · rw [if_pos hf]
        right
        exact ⟨by simp, tmpfile_events _ _ h1 (by simp [is_file_event])⟩
      · rw [if_neg hf]
        have hoff : int_of_size_t (export_buffer cfg env table).buf_end_offset =
            ((export_buffer cfg env table).buf_end_offset : Int) :=
          int_of_size_t_eq _ (le_trans (not_lt.mp hf) h2)
        by_cases hw : int_of_size_t (export_buffer cfg env table).buf_end_offset ≠ env.write_ret
        · rw [if_pos hw]
          right
          refine ⟨by simp, ?_⟩
          simp only [List.append_assoc]
          exact tmpfile_events _ _ h1 (by simp [is_file_event])
        · rw [if_neg hw]
          by_cases hc : env.close_ret ≠ 0
          · rw [if_pos hc]
            right
            refine ⟨by simp, ?_⟩
            simp only [List.append_assoc]
            exact tmpfile_events _ _ h1 (by simp [is_file_event])
          · rw [if_neg hc]
            left
            refine ⟨?_, ?_, ?_, ?_, ?_, ?_⟩
            · rfl
            · exact hs
            · exact not_lt.mp ho
            · rw [← hoff]; exact (not_not.mp hw).symm
            · exact not_not.mp hc
            · simp only [List.append_assoc, List.singleton_append, List.cons_append,
                List.nil_append]
  · rw [if_pos hs]
    right
    refine ⟨h3, fun src dst => rename_not_mem _ h1 src dst, fun e he hfe => ?_⟩
    rw [h1 e he] at hfe
    exact absurd hfe (by decide)

/-- C10. In every run of `rte_table_export_to_file` in which `malloc` fails, a
`realloc` that the run makes fails, `open` returns a negative value, `write`
returns a count different from `buf_end_offset`, or `close` fails, no rename
is performed, and the only file system calls of the run are `open`, `write`
and `close` on the temporary file (the destination path is never used). A
rename is performed only at the end of a run that returns, as the call right
after the `open` of the temporary file, the single `write` of the whole
buffer with `write` returning `buf_end_offset`, and a `close` returning 0;
it renames the temporary path to the destination path. -/
theorem export_rename_only_after_success (cfg : Config) (env : ExportEnv)
    (table : rte_table_netflow) (filename : String)
    (hmax : cfg.EXPORT_BUF_INITAL_SIZE ≤ INT_MAX) :
    ((env.malloc_ok = false ∨
      (∃ n, n < (rte_table_export_to_file cfg env table filename).n_realloc ∧
        env.realloc_ok n = false) ∨
      env.open_ret < 0 ∨
      env.write_ret ≠ ((rte_table_export_to_file cfg env table filename).buf_end_offset : Int) ∨
      env.close_ret ≠ 0) →
      (∀ src dst, Event.rename_file src dst ∉
        (rte_table_export_to_file cfg env table filename).events) ∧
      (∀ e ∈ (rte_table_export_to_file cfg env table filename).events,
        is_file_event e = true →
          (e = Event.open_file tmpfile ∨ (∃ d, e = Event.write_file d) ∨
            e = Event.close_file))) ∧
    (∀ src dst, Event.rename_file src dst ∈
        (rte_table_export_to_file cfg env table filename).events →
      (rte_table_export_to_file cfg env table filename).status = RunStatus.returned ∧
      0 ≤ env.open_ret ∧
      env.write_ret = ((rte_table_export_to_file cfg env table filename).buf_end_offset : Int) ∧
      env.close_ret = 0 ∧
      ∃ pre, (∀ e ∈ pre, is_file_event e = false) ∧
        (rte_table_export_to_file cfg env table filename).events =
          pre ++ [Event.open_file tmpfile,
                  Event.write_file (rte_table_export_to_file cfg env table filename).data,
                  Event.close_file, Event.rename_file tmpfile filename]) := by
  obtain ⟨d1, d2, -, d4⟩ := export_to_file_data cfg env table filename
  obtain ⟨⟨h1, h2, h3, h4⟩, hm⟩ := export_buffer_sound cfg env table hmax
  rcases export_to_file_cases cfg env table filename hmax with
    ⟨c1, c2, c3, c4, c5, c6⟩ | ⟨c1, c2, c7⟩
  · constructor
    · intro hfail
      exfalso
      rcases hfail with h | ⟨n, hn, hr⟩ | h | h | h
      · exact hm h c2
      · rw [d4] at hn
        rw [h4 c2 n hn] at hr
        exact absurd hr (by decide)
      · omega
      · rw [d2] at h; exact h c4
      · exact h c5
    · intro src dst _
      refine ⟨c1, c3, by rw [d2]; exact c4, c5, (export_buffer cfg env table).events, h1, ?_⟩
      rw [d1]; exact c6
  · exact ⟨fun _ => ⟨c2, c7⟩, fun src dst hmem => absurd hmem (c2 src dst)⟩

/-- C10 at a table of three records: a short write leaves the run without a
rename; a complete write and a successful close are followed by the rename. -/
theorem export_rename_only_after_success_witness :
    (∀ src dst, Event.rename_file src dst ∉
      (rte_table_export_to_file cfg_example (env_ok 5) table_example "flows.csv").events) ∧
    (rte_table_export_to_file cfg_example (env_ok 5) table_example "flows.csv").status =
      RunStatus.exited 1 ∧
    (rte_table_export_to_file cfg_example (env_ok 101) table_example "flows.csv").events =
      [Event.malloc 1024, Event.spinlock_lock 0, Event.spinlock_unlock 0, Event.spinlock_lock 1,
       Event.spinlock_unlock 1, Event.open_file tmpfile,
       Event.write_file ("10.0.0.1,10.0.0.2,1234,80,6,1620,3\n" ++
         "10.0.0.3,10.0.0.2,5353,53,17,400,2\n" ++ "192.168.1.1,8.8.8.8,0,0,1,84,1\n").toList,
       Event.close_file, Event.rename_file tmpfile "flows.csv"] :=
  ⟨((export_rename_only_after_success cfg_example (env_ok 5) table_example "flows.csv"
      (by decide)).1 (Or.inr (Or.inr (Or.inr (Or.inl (by decide)))))).1,
    by decide, by decide⟩

/-! ## Reachable states -/

/-- A call that returns has found a slot, returns 1, stores `chain_add` of the
old chain into the slot of the key, counts the packet, and has taken and
released the lock of that slot. -/
theorem entry_add_of_ret (cfg : Config) (t : rte_table_netflow) (gpc : Nat) (c : AddCall)
    (v : Int) (hr : (rte_table_netflow_entry_add cfg t gpc c).ret = some v) :
    t.n_entries ≠ 0 ∧ v = 1 ∧
    (rte_table_netflow_entry_add cfg t gpc c).table =
      set_slot t (slot_index cfg t.n_entries c.key)
        (chain_add cfg c (t.array (slot_index cfg t.n_entries c.key))) ∧
    (rte_table_netflow_entry_add cfg t gpc c).global_packet_count = (gpc + 1) % 2 ^ 64 ∧
    (rte_table_netflow_entry_add cfg t gpc c).events =
      [Event.spinlock_lock (slot_index cfg t.n_entries c.key),
       Event.spinlock_unlock (slot_index cfg t.n_entries c.key)] := by
  have hnone : ¬ (rte_table_netflow_entry_add cfg t gpc c).ret = none := by simp [hr]
  rw [entry_add_ret_none_iff] at hnone
  have hn : t.n_entries ≠ 0 := fun h0 => hnone (Or.inl h0)
  have hm : c.zmalloc_ok = true ∨
      ∃ b ∈ t.array (slot_index cfg t.n_entries c.key), bucket_matches c.key b = true := by
    by_cases hz : c.zmalloc_ok = true
    · exact Or.inl hz
    · right
      by_contra hex
      apply hnone
      right
      refine ⟨fun b hb => ?_, by simpa using hz⟩
      by_contra hb'
      exact hex ⟨b, hb, by simpa using hb'⟩
  obtain ⟨h1, h2, h3, h4⟩ := entry_add_eq cfg t gpc c hn hm
  refine ⟨hn, ?_, h2, h3, h4⟩
  rw [h1] at hr
  exact (Option.some.inj hr).symm

/-- A property of tables that creation establishes and every returning call
keeps holds in every state that sequential calls reach. -/
theorem ingest_invariant (cfg : Config) (P : rte_table_netflow → Prop)
    (hstep : ∀ (t : rte_table_netflow) (c : AddCall), t.n_entries ≠ 0 → P t →
      P (set_slot t (slot_index cfg t.n_entries c.key)
        (chain_add cfg c (t.array (slot_index cfg t.n_entries c.key)))))
    (cs : List AddCall) :
    ∀ (s s' : State), P s.table → ingest cfg s cs = some s' → P s'.table := by
  induction cs with
  | nil =>
    intro s s' hP h
    simp only [ingest, Option.some.injEq] at h
    rw [← h]; exact hP
  | cons c cs ih =>
    intro s s' hP h
    simp only [ingest] at h
    cases hr : (rte_table_netflow_entry_add cfg s.table s.global_packet_count c).ret with
    | none => rw [hr] at h; simp at h
    | some v =>
      rw [hr] at h
      obtain ⟨hn, -, h2, -, -⟩ := entry_add_of_ret cfg s.table s.global_packet_count c v hr
      refine ih _ s' ?_ h
      simp only [h2]
      exact hstep s.table c hn hP

/-- C13. In every table state that sequential calls of
`rte_table_netflow_entry_add` reach from a table that `rte_table_netflow_create`
has returned, every record of every chain has `bytesRcvd = 0`, `pktRcvd = 0`
and `magic = 1`. -/
theorem reverse_counters_stay_zero (cfg : Config) (ok : Bool) (gpc : Nat)
    (params : rte_table_netflow_params) (socket_id : Int) (entry_size : Nat)
    (t : rte_table_netflow) (cs : List AddCall) (s : State)
    (hcreate : (rte_table_netflow_create cfg ok gpc params socket_id entry_size).table = some t)
    (hrun : ingest cfg ⟨t, 0⟩ cs = some s) :
    ∀ i, ∀ b ∈ s.table.array i, b.bytesRcvd = 0 ∧ b.pktRcvd = 0 ∧ b.magic = 1 := by
  obtain ⟨-, -, harr, -⟩ := create_some cfg ok gpc params socket_id entry_size t hcreate
  refine ingest_invariant cfg
    (fun t => ∀ i, ∀ b ∈ t.array i, b.bytesRcvd = 0 ∧ b.pktRcvd = 0 ∧ b.magic = 1)
    ?_ cs ⟨t, 0⟩ s ?_ hrun
  · intro t c _ hP i b hb
    rw [set_slot_array] at hb
    by_cases hi : i = slot_index cfg t.n_entries c.key
    · rw [if_pos hi] at hb
      have hchain : ∀ chain : List hashBucket_t,
          (∀ x ∈ chain, x.bytesRcvd = 0 ∧ x.pktRcvd = 0 ∧ x.magic = 1) →
          ∀ x ∈ chain_add cfg c chain, x.bytesRcvd = 0 ∧ x.pktRcvd = 0 ∧ x.magic = 1 := by
        intro chain
        induction chain with
        | nil =>
          intro _ x hx
          simp only [chain_add, List.mem_singleton] at hx
          rw [hx]; exact ⟨rfl, rfl, rfl⟩
        | cons a rest ih =>
          intro hall x hx
          simp only [chain_add] at hx
          split at hx
          · rcases List.mem_cons.1 hx with rfl | hx
            · exact hall a (List.mem_cons_self _ _)
            · exact hall x (List.mem_cons_of_mem _ hx)
          · rcases List.mem_cons.1 hx with rfl | hx
            · exact hall x (List.mem_cons_self _ _)
            · exact ih (fun y hy => hall y (List.mem_cons_of_mem _ hy)) x hx
      exact hchain _ (hP _) b hb
    · rw [if_neg hi] at hb
      exact hP i b hb
  · intro i b hb
    simp [harr] at hb

/-- The three example calls return and leave `state_example`. -/
theorem ingest_state_example :
    ingest cfg_example ⟨empty_table_16, 0⟩ [call_syn, call_udp, call_ack] = some state_example := by
  rfl

/-- C13 at three packets of two flows. -/
theorem reverse_counters_stay_zero_witness :
    ingest cfg_example ⟨empty_table_16, 0⟩ [call_syn, call_udp, call_ack] = some state_example ∧
    ∀ i, ∀ b ∈ state_example.table.array i, b.bytesRcvd = 0 ∧ b.pktRcvd = 0 ∧ b.magic = 1 :=
  ⟨ingest_state_example,
    reverse_counters_stay_zero cfg_example true 7 ⟨16, 0, 0⟩ 0 64 empty_table_16
      [call_syn, call_udp, call_ack] state_example create_16 ingest_state_example⟩

/-- One call keeps the address pairs of a chain pairwise different. -/
theorem chain_add_nodup (cfg : Config) (c : AddCall) (chain : List hashBucket_t)
    (h : (chain.map bucket_addr).Nodup) : ((chain_add cfg c chain).map bucket_addr).Nodup := by
  rw [chain_add_map_addr]
  split
  · exact h
  · rename_i hc
    exact List.Nodup.append h (by simp) (by simpa using hc)

/-- In a chain with pairwise different address pairs at most one record matches a key. -/
theorem filter_matches_le_one (k : rte_table_netflow_key) (chain : List hashBucket_t)
    (h : (chain.map bucket_addr).Nodup) : (chain.filter (bucket_matches k)).length ≤ 1 := by
  induction chain with
  | nil => simp
  | cons b rest ih =>
    simp only [List.map_cons, List.nodup_cons] at h
    have hrest := ih h.2
    by_cases hb : bucket_matches k b = true
    · have hnil : rest.filter (bucket_matches k) = [] := by
        apply List.filter_eq_nil_iff.2
        intro x hx hm
        apply h.1
        rw [bucket_matches_eq] at hb hm
        have e1 : bucket_addr b = key_addr k := by simpa using hb
        have e2 : bucket_addr x = key_addr k := by simpa using hm
        rw [e1, ← e2]
        exact List.mem_map_of_mem _ hx
      simp [List.filter_cons, hb, hnil]
    · simp only [List.filter_cons, hb, Bool.false_eq_true, if_false]
      exact hrest

/-- The address pairs of every chain are pairwise different in every reachable state. -/
theorem reachable_nodup (cfg : Config) (ok : Bool) (gpc : Nat)
    (params : rte_table_netflow_params) (socket_id : Int) (entry_size : Nat)
    (t : rte_table_netflow) (cs : List AddCall) (s : State)
    (hcreate : (rte_table_netflow_create cfg ok gpc params socket_id entry_size).table = some t)
    (hrun : ingest cfg ⟨t, 0⟩ cs = some s) :
    ∀ i, ((s.table.array i).map bucket_addr).Nodup := by
  obtain ⟨-, -, harr, -⟩ := create_some cfg ok gpc params socket_id entry_size t hcreate
  refine ingest_invariant cfg (fun t => ∀ i, ((t.array i).map bucket_addr).Nodup)
    ?_ cs ⟨t, 0⟩ s ?_ hrun
  · intro t c _ hP i
    rw [set_slot_array]
    by_cases hi : i = slot_index cfg t.n_entries c.key
    · rw [if_pos hi]; exact chain_add_nodup cfg c _ (hP _)
    · rw [if_neg hi]; exact hP i
  · intro i
    simp [harr]

/-- C20. In every table state that sequential calls of
`rte_table_netflow_entry_add` reach from a table that `rte_table_netflow_create`
has returned, no chain holds two records with the same `{ip_src, ip_dst}`
pair, so at most one record of a chain matches a key: the first match of the
chain walk is the only one. The invariant is per chain only: with the toy hash
of `cfg_example`, a TCP and a UDP packet with the same addresses leave two
records with the same `{ip_src, ip_dst}` in two different slots. -/
theorem chain_key_uniqueness :
    (∀ (cfg : Config) (ok : Bool) (gpc : Nat) (params : rte_table_netflow_params)
        (socket_id : Int) (entry_size : Nat) (t : rte_table_netflow) (cs : List AddCall)
        (s : State),
      (rte_table_netflow_create cfg ok gpc params socket_id entry_size).table = some t →
      ingest cfg ⟨t, 0⟩ cs = some s →
      ∀ i,
        (∀ j₁ j₂ (h₁ : j₁ < (s.table.array i).length) (h₂ : j₂ < (s.table.array i).length),
          ((s.table.array i).get ⟨j₁, h₁⟩).ip_src = ((s.table.array i).get ⟨j₂, h₂⟩).ip_src →
          ((s.table.array i).get ⟨j₁, h₁⟩).ip_dst = ((s.table.array i).get ⟨j₂, h₂⟩).ip_dst →
          j₁ = j₂) ∧
        ∀ k : rte_table_netflow_key,
          ((s.table.array i).filter (bucket_matches k)).length ≤ 1) ∧
    (ingest cfg_example ⟨empty_table_16, 0⟩ [call_syn, call_udp, call_ack] = some state_example ∧
      call_syn.key.ip_src = call_udp.key.ip_src ∧ call_syn.key.ip_dst = call_udp.key.ip_dst ∧
      call_syn.key.proto ≠ call_udp.key.proto ∧
      ∃ i j r₁ r₂, i ≠ j ∧ i < 16 ∧ j < 16 ∧
        r₁ ∈ state_example.table.array i ∧ r₂ ∈ state_example.table.array j ∧
        r₁.ip_src = r₂.ip_src ∧ r₁.ip_dst = r₂.ip_dst) := by
  constructor
  · intro cfg ok gpc params socket_id entry_size t cs s hcreate hrun i
    have hnd := reachable_nodup cfg ok gpc params socket_id entry_size t cs s hcreate hrun i
    refine ⟨?_, fun k => filter_matches_le_one k _ hnd⟩
    intro j₁ j₂ h₁ h₂ e1 e2
    have hj₁ : j₁ < ((s.table.array i).map bucket_addr).length := by simpa using h₁
    have hj₂ : j₂ < ((s.table.array i).map bucket_addr).length := by simpa using h₂
    have := (List.Nodup.get_inj_iff hnd (i := ⟨j₁, hj₁⟩) (j := ⟨j₂, hj₂⟩)).1 (by
      simp only [List.get_eq_getElem, List.getElem_map, bucket_addr, Prod.mk.injEq]
      exact ⟨by simpa using e1, by simpa using e2⟩)
    simpa using this
  · refine ⟨ingest_state_example, rfl, rfl, by decide, ?_⟩
    refine ⟨slot_index cfg_example 16 key_example, slot_index cfg_example 16 key_udp,
      new_bucket cfg_example call_syn |> update_bucket cfg_example call_ack,
      new_bucket cfg_example call_udp, by decide, by decide, by decide, by decide, by decide,
      rfl, rfl⟩

/-- C20 at three packets of two flows with the same addresses. -/
theorem chain_key_uniqueness_witness :
    ingest cfg_example ⟨empty_table_16, 0⟩ [call_syn, call_udp, call_ack] = some state_example ∧
    ∀ i, ∀ k : rte_table_netflow_key,
      ((state_example.table.array i).filter (bucket_matches k)).length ≤ 1 :=
  ⟨ingest_state_example, fun i k =>
    ((chain_key_uniqueness.1 cfg_example true 7 ⟨16, 0, 0⟩ 0 64 empty_table_16
      [call_syn, call_udp, call_ack] state_example create_16 ingest_state_example) i).2 k⟩

/-! ## Conservation of counts -/

/-- The sum of a field over the records of the first `n` slots after a store
into slot `idx`. -/
theorem sum_set_slot (t : rte_table_netflow) (idx : Nat) (chain : List hashBucket_t)
    (f : hashBucket_t → Nat) (n : Nat) :
    (((List.range n).flatMap (set_slot t idx chain).array).map f).sum +
        (if idx < n then ((t.array idx).map f).sum else 0) =
      (((List.range n).flatMap t.array).map f).sum +
        (if idx < n then (chain.map f).sum else 0) := by
  induction n with
  | zero => simp
  | succ n ih =>
    simp only [List.range_succ, List.flatMap_append, List.flatMap_singleton, List.map_append,
      List.sum_append, set_slot_array]
    by_cases h1 : idx < n
    · have h2 : idx < n + 1 := by omega
      have h3 : ¬ n = idx := by omega
      simp only [h1, h2, h3, if_true, if_false] at ih ⊢
      omega
    · by_cases h2 : n = idx
      · subst h2
        have h3 : n < n + 1 := by omega
        have h4 : ¬ n < n := by omega
        simp only [h4, h3, if_true, if_false, Nat.add_zero] at ih ⊢
        omega
      · have h3 : ¬ idx < n + 1 := by omega
        simp only [h1, h2, h3, if_false, Nat.add_zero] at ih ⊢
        omega

/-- One call adds one packet and the length of the packet to the sums over a
chain, modulo 2^64. -/
theorem chain_add_sums (cfg : Config) (c : AddCall) (chain : List hashBucket_t) :
    (((chain_add cfg c chain).map (fun b => b.pktSent)).sum) % 2 ^ 64 =
      ((chain.map (fun b => b.pktSent)).sum + 1) % 2 ^ 64 ∧
    (((chain_add cfg c chain).map (fun b => b.bytesSent)).sum) % 2 ^ 64 =
      ((chain.map (fun b => b.bytesSent)).sum +
        wire_value_16 cfg.little_endian c.ip.total_length) % 2 ^ 64 := by
  induction chain with
  | nil =>
    simp [chain_add, new_bucket, zeroed_bucket, rte_cpu_to_be_16_eq_wire]
  | cons b rest ih =>
    by_cases hb : bucket_matches c.key b = true
    · simp only [chain_add, hb, if_true, List.map_cons, List.sum_cons, update_bucket,
        rte_cpu_to_be_16_eq_wire]
      constructor <;> omega
    · simp only [chain_add, hb, Bool.false_eq_true, if_false, List.map_cons, List.sum_cons]
      obtain ⟨h1, h2⟩ := ih
      constructor <;> omega

/-- Sequential calls that return add their number and the lengths of their
packets to the sums over all records, modulo 2^64, and their number to the
process-wide counter. -/
theorem ingest_sums (cfg : Config) (cs : List AddCall) :
    ∀ (s s' : State), ingest cfg s cs = some s' →
      s'.table.n_entries = s.table.n_entries ∧
      (((all_records s'.table).map (fun b => b.pktSent)).sum) % 2 ^ 64 =
        (((all_records s.table).map (fun b => b.pktSent)).sum + cs.length) % 2 ^ 64 ∧
      (((all_records s'.table).map (fun b => b.bytesSent)).sum) % 2 ^ 64 =
        (((all_records s.table).map (fun b => b.bytesSent)).sum +
          (cs.map (fun c => wire_value_16 cfg.little_endian c.ip.total_length)).sum) % 2 ^ 64 ∧
      (s.global_packet_count < 2 ^ 64 →
        s'.global_packet_count = (s.global_packet_count + cs.length) % 2 ^ 64) := by
  induction cs with
  | nil =>
    intro s s' h
    simp only [ingest, Option.some.injEq] at h
    subst h
    refine ⟨rfl, by simp, by simp, fun hg => ?_⟩
    simp only [List.length_nil, Nat.add_zero]
    exact (Nat.mod_eq_of_lt hg).symm
  | cons c cs ih =>
    intro s s' h
    simp only [ingest] at h
    cases hr : (rte_table_netflow_entry_add cfg s.table s.global_packet_count c).ret with
    | none => rw [hr] at h; simp at h
    | some v =>
      rw [hr] at h
      obtain ⟨hn, -, h2, h3, -⟩ := entry_add_of_ret cfg s.table s.global_packet_count c v hr
      obtain ⟨a1, a2, a3, a4⟩ := ih _ s' h
      simp only [h2, h3] at a1 a2 a3 a4
      have hidx : slot_index cfg s.table.n_entries c.key < s.table.n_entries :=
        Nat.mod_lt _ (Nat.pos_of_ne_zero hn)
      have hp := sum_set_slot s.table (slot_index cfg s.table.n_entries c.key)
        (chain_add cfg c (s.table.array (slot_index cfg s.table.n_entries c.key)))
        (fun b => b.pktSent) s.table.n_entries
      have hb := sum_set_slot s.table (slot_index cfg s.table.n_entries c.key)
        (chain_add cfg c (s.table.array (slot_index cfg s.table.n_entries c.key)))
        (fun b => b.bytesSent) s.table.n_entries
      simp only [hidx, if_true] at hp hb
      obtain ⟨c1, c2⟩ := chain_add_sums cfg c
        (s.table.array (slot_index cfg s.table.n_entries c.key))
      have e : all_records (set_slot s.table (slot_index cfg s.table.n_entries c.key)
          (chain_add cfg c (s.table.array (slot_index cfg s.table.n_entries c.key)))) =
          (List.range s.table.n_entries).flatMap (set_slot s.table
            (slot_index cfg s.table.n_entries c.key)
            (chain_add cfg c (s.table.array (slot_index cfg s.table.n_entries c.key)))).array :=
        rfl
      rw [e] at a2 a3
      have e0 : all_records s.table = (List.range s.table.n_entries).flatMap s.table.array := rfl
      rw [e0]
      refine ⟨a1, ?_, ?_, fun hg => ?_⟩
      · rw [a2]; simp only [List.length_cons]; omega
      · rw [a3]; simp only [List.map_cons, List.sum_cons]; omega
      · rw [a4 (Nat.mod_lt _ (by norm_num))]
        simp only [List.length_cons]; omega

/-- C19. For a table that `rte_table_netflow_create` has just returned and every
sequence of `n` sequential calls of `rte_table_netflow_entry_add` whose
allocations succeed, whatever the keys and the hash primitive, all calls
return, the sum of `pktSent` over all records of all chains is `n` and is
`global_packet_count`, and the sum of `bytesSent` over all records is the sum
of the network-order total lengths of the packets, all modulo 2^64; these are
the totals that `rte_table_print_stats` reports. -/
theorem conservation_of_counts (cfg : Config) (ok : Bool) (gpc : Nat)
    (params : rte_table_netflow_params) (socket_id : Int) (entry_size : Nat)
    (t : rte_table_netflow) (cs : List AddCall)
    (hcreate : (rte_table_netflow_create cfg ok gpc params socket_id entry_size).table = some t)
    (halloc : ∀ c ∈ cs, c.zmalloc_ok = true) :
    ∃ s, ingest cfg ⟨t, 0⟩ cs = some s ∧
      (((all_records s.table).map (fun b => b.pktSent)).sum) % 2 ^ 64 = cs.length % 2 ^ 64 ∧
      s.global_packet_count = cs.length % 2 ^ 64 ∧
      (((all_records s.table).map (fun b => b.bytesSent)).sum) % 2 ^ 64 =
        (cs.map (fun c => wire_value_16 cfg.little_endian c.ip.total_length)).sum % 2 ^ 64 ∧
      (rte_table_print_stats s.table).total_pkts = cs.length % 2 ^ 64 ∧
      (rte_table_print_stats s.table).total_bytes =
        (cs.map (fun c => wire_value_16 cfg.little_endian c.ip.total_length)).sum % 2 ^ 64 := by
  obtain ⟨hn, -, harr, -⟩ := create_some cfg ok gpc params socket_id entry_size t hcreate
  obtain ⟨s, hs, -⟩ := ingest_eq cfg cs ⟨t, 0⟩ hn halloc
  obtain ⟨-, a2, a3, a4⟩ := ingest_sums cfg cs ⟨t, 0⟩ s hs
  have h0 : all_records t = [] := by
    unfold all_records
    rw [harr]
    simp
  simp only [h0, List.map_nil, List.sum_nil, Nat.zero_add] at a2 a3
  have hg := a4 (by norm_num)
  simp only [Nat.zero_add] at hg
  obtain ⟨-, hb, hp⟩ := stats_totals s.table
  exact ⟨s, hs, a2, hg, a3, by rw [hp, a2], by rw [hb, a3]⟩

/-- C19 at three packets of two flows. -/
theorem conservation_of_counts_witness :
    ∃ s, ingest cfg_example ⟨empty_table_16, 0⟩ [call_syn, call_udp, call_ack] = some s ∧
      (((all_records s.table).map (fun b => b.pktSent)).sum) % 2 ^ 64 = 3 ∧
      s.global_packet_count = 3 ∧
      (((all_records s.table).map (fun b => b.bytesSent)).sum) % 2 ^ 64 = 180 ∧
      (rte_table_print_stats s.table).total_pkts = 3 ∧
      (rte_table_print_stats s.table).total_bytes = 180 :=
  conservation_of_counts cfg_example true 7 ⟨16, 0, 0⟩ 0 64 empty_table_16
    [call_syn, call_udp, call_ack] create_16 (by decide)

/-! ## Frame of the ingest -/

/-- An update leaves the frame fields of a record alone. -/
theorem update_bucket_frame (cfg : Config) (c : AddCall) (b : hashBucket_t) :
    frame_fields (update_bucket cfg c b) = frame_fields b := rfl

/-- The header fields of the table are not written by the ingest. -/
theorem entry_add_header (cfg : Config) (t : rte_table_netflow) (gpc : Nat) (c : AddCall) :
    (rte_table_netflow_entry_add cfg t gpc c).table.n_entries = t.n_entries ∧
    (rte_table_netflow_entry_add cfg t gpc c).table.entry_size = t.entry_size ∧
    (rte_table_netflow_entry_add cfg t gpc c).table.f_hash = t.f_hash ∧
    (rte_table_netflow_entry_add cfg t gpc c).table.seed = t.seed := by
  cases hr : (rte_table_netflow_entry_add cfg t gpc c).ret with
  | none =>
    rw [(entry_add_table_of_ret_none cfg t gpc c hr).1]
    exact ⟨rfl, rfl, rfl, rfl⟩
  | some v =>
    obtain ⟨-, -, h2, -, -⟩ := entry_add_of_ret cfg t gpc c v hr
    rw [h2]
    exact ⟨rfl, rfl, rfl, rfl⟩

/-- In the slot of the key the frame fields of the old chain, in order, are a
prefix of those of the new chain, which is at most one record longer. -/
theorem entry_add_slot_prefix (cfg : Config) (t : rte_table_netflow) (gpc : Nat) (c : AddCall) :
    List.IsPrefix ((t.array (slot_index cfg t.n_entries c.key)).map frame_fields)
      (((rte_table_netflow_entry_add cfg t gpc c).table.array
        (slot_index cfg t.n_entries c.key)).map frame_fields) ∧
    ((rte_table_netflow_entry_add cfg t gpc c).table.array
        (slot_index cfg t.n_entries c.key)).length ≤
      (t.array (slot_index cfg t.n_entries c.key)).length + 1 := by
  cases hv : (rte_table_netflow_entry_add cfg t gpc c).ret with
  | none =>
    rw [(entry_add_table_of_ret_none cfg t gpc c hv).1]
    exact ⟨List.prefix_refl _, Nat.le_succ _⟩
  | some v =>
    obtain ⟨-, -, h2, -, -⟩ := entry_add_of_ret cfg t gpc c v hv
    rw [h2, set_slot_array, if_pos rfl]
    rcases chain_split c.key (t.array (slot_index cfg t.n_entries c.key)) with
      h | ⟨pre, b, post, e, hpre, hb⟩
    · rw [chain_add_no_match cfg c _ h, List.map_append, List.length_append]
      exact ⟨List.prefix_append _ _, le_of_eq rfl⟩
    · rw [e, chain_add_match cfg c pre b post hpre hb]
      simp only [List.map_append, List.map_cons, update_bucket_frame, List.length_append,
        List.length_cons]
      exact ⟨List.prefix_refl _, Nat.le_succ _⟩

/-- C15. Frame of `rte_table_netflow_entry_add`, for every table and call:
`n_entries`, `entry_size`, `f_hash` and `seed` are unchanged; every slot other
than the slot index of the key keeps its chain; a call that does not return
leaves the chain of the slot as it was; a call that returns either found no
record with the addresses of the key and appended one record to the old chain,
or changed the first matching record only, whose key fields, `magic`,
`firstSeenSent` and reverse counters stay as they were, the records before and
after it (hence every next link) being the same; in every case the frame
fields of the old chain are, in order, a prefix of those of the new chain,
which is at most one record longer. -/
theorem entry_add_frame (cfg : Config) (t : rte_table_netflow) (gpc : Nat) (c : AddCall) :
    (rte_table_netflow_entry_add cfg t gpc c).table.n_entries = t.n_entries ∧
    (rte_table_netflow_entry_add cfg t gpc c).table.entry_size = t.entry_size ∧
    (rte_table_netflow_entry_add cfg t gpc c).table.f_hash = t.f_hash ∧
    (rte_table_netflow_entry_add cfg t gpc c).table.seed = t.seed ∧
    (∀ i, i ≠ slot_index cfg t.n_entries c.key →
      (rte_table_netflow_entry_add cfg t gpc c).table.array i = t.array i) ∧
    ((rte_table_netflow_entry_add cfg t gpc c).ret = none →
      (rte_table_netflow_entry_add cfg t gpc c).table.array (slot_index cfg t.n_entries c.key) =
        t.array (slot_index cfg t.n_entries c.key)) ∧
    ((rte_table_netflow_entry_add cfg t gpc c).ret ≠ none →
      ((∀ b ∈ t.array (slot_index cfg t.n_entries c.key),
          ¬ (b.ip_src = c.key.ip_src ∧ b.ip_dst = c.key.ip_dst)) ∧
        ∃ bkt, (rte_table_netflow_entry_add cfg t gpc c).table.array
            (slot_index cfg t.n_entries c.key) =
          t.array (slot_index cfg t.n_entries c.key) ++ [bkt]) ∨
      (∃ pre b b' post,
        t.array (slot_index cfg t.n_entries c.key) = pre ++ b :: post ∧
        (∀ x ∈ pre, ¬ (x.ip_src = c.key.ip_src ∧ x.ip_dst = c.key.ip_dst)) ∧
        (b.ip_src = c.key.ip_src ∧ b.ip_dst = c.key.ip_dst) ∧
        (rte_table_netflow_entry_add cfg t gpc c).table.array
            (slot_index cfg t.n_entries c.key) = pre ++ b' :: post ∧
        b'.magic = b.magic ∧ b'.vlanId = b.vlanId ∧ b'.proto = b.proto ∧
        b'.ip_src = b.ip_src ∧ b'.ip_dst = b.ip_dst ∧ b'.port_src = b.port_src ∧
        b'.port_dst = b.port_dst ∧ b'.firstSeenSent = b.firstSeenSent ∧
        b'.bytesRcvd = b.bytesRcvd ∧ b'.pktRcvd = b.pktRcvd)) ∧
    List.IsPrefix ((t.array (slot_index cfg t.n_entries c.key)).map frame_fields)
      (((rte_table_netflow_entry_add cfg t gpc c).table.array
        (slot_index cfg t.n_entries c.key)).map frame_fields) ∧
    ((rte_table_netflow_entry_add cfg t gpc c).table.array
        (slot_index cfg t.n_entries c.key)).length ≤
      (t.array (slot_index cfg t.n_entries c.key)).length + 1 := by
  obtain ⟨e1, e2, e3, e4⟩ := entry_add_header cfg t gpc c
  have hpl := entry_add_slot_prefix cfg t gpc c
  refine ⟨e1, e2, e3, e4, ?_, ?_, ?_, hpl.1, hpl.2⟩
  · intro i hi
    cases hr : (rte_table_netflow_entry_add cfg t gpc c).ret with
    | none => rw [(entry_add_table_of_ret_none cfg t gpc c hr).1]
    | some v =>
      obtain ⟨-, -, h2, -, -⟩ := entry_add_of_ret cfg t gpc c v hr
      rw [h2, set_slot_array, if_neg hi]
  · intro hr
    rw [(entry_add_table_of_ret_none cfg t gpc c hr).1]
  · intro hr
    cases hv : (rte_table_netflow_entry_add cfg t gpc c).ret with
    | none => exact absurd hv hr
    | some v =>
      obtain ⟨-, -, h2, -, -⟩ := entry_add_of_ret cfg t gpc c v hv
      rw [h2, set_slot_array, if_pos rfl]
      rcases chain_split c.key (t.array (slot_index cfg t.n_entries c.key)) with
        h | ⟨pre, b, post, e, hpre, hb⟩
      · left
        refine ⟨fun b hb => (bucket_matches_false_iff _ _).1 (h b hb), new_bucket cfg c, ?_⟩
        exact chain_add_no_match cfg c _ h
      · right
        refine ⟨pre, b, update_bucket cfg c b, post, e,
          fun x hx => (bucket_matches_false_iff _ _).1 (hpre x hx),
          (bucket_matches_iff _ _).1 hb, ?_, rfl, rfl, rfl, rfl, rfl, rfl, rfl, rfl, rfl, rfl⟩
        rw [e]
        exact chain_add_match cfg c pre b post hpre hb

/-- Instance of the frame theorem: the second packet of a flow ingested into a
table that already holds the record of the first. -/
theorem entry_add_frame_witness :
    (rte_table_netflow_entry_add cfg_example empty_table_16 0 call_syn).table.n_entries = 16 ∧
    (∀ i, i ≠ slot_index cfg_example 16 call_syn.key →
      (rte_table_netflow_entry_add cfg_example empty_table_16 0 call_syn).table.array i =
        empty_table_16.array i) :=
  ⟨(entry_add_frame cfg_example empty_table_16 0 call_syn).1,
   (entry_add_frame cfg_example empty_table_16 0 call_syn).2.2.2.2.1⟩

/-! ## The slot index -/

/-- For a 32-bit hash primitive the wrap of the `uint32_t` variable `idx` is
the identity: the hash of a key is the nested fold. -/
theorem key_hash_eq (cfg : Config) (hH : ∀ d i, cfg.rte_hash_crc_4byte d i < 2 ^ 32)
    (k : rte_table_netflow_key) :
    key_hash cfg k =
      cfg.rte_hash_crc_4byte k.port_dst (cfg.rte_hash_crc_4byte k.port_src
        (cfg.rte_hash_crc_4byte k.ip_dst (cfg.rte_hash_crc_4byte k.ip_src
          (cfg.rte_hash_crc_4byte k.proto 0)))) := by
  unfold key_hash
  simp only [Nat.mod_eq_of_lt (hH _ _)]

/-- On a table with a non-zero entry count every call takes the lock of the
slot index first, and touches no other lock. -/
theorem entry_add_events (cfg : Config) (t : rte_table_netflow) (gpc : Nat) (c : AddCall)
    (hn : t.n_entries ≠ 0) :
    (rte_table_netflow_entry_add cfg t gpc c).events.head? =
      some (Event.spinlock_lock (slot_index cfg t.n_entries c.key)) ∧
    ∀ e ∈ (rte_table_netflow_entry_add cfg t gpc c).events,
      e = Event.spinlock_lock (slot_index cfg t.n_entries c.key) ∨
      e = Event.spinlock_unlock (slot_index cfg t.n_entries c.key) := by
  unfold rte_table_netflow_entry_add slot_index
  simp only [hn, if_false]
  split
  · simp
  · split
    · simp
    · simp

/-- C14. For every table returned by `rte_table_netflow_create`, a hash
primitive whose values are 32-bit and every flow key: `n_entries` is not zero,
the slot index used by `rte_table_netflow_entry_add` is
`H(port_dst, H(port_src, H(ip_dst, H(ip_src, H(proto, 0))))) mod n_entries`,
it is strictly less than `n_entries`, the call takes the lock of that slot
first, touches the lock of no other slot and changes the chain of no other
slot, and two packets with the same five key fields select the same slot. -/
theorem slot_index_in_bounds (cfg : Config) (hH : ∀ d i, cfg.rte_hash_crc_4byte d i < 2 ^ 32)
    (ok : Bool) (gpc0 : Nat) (params : rte_table_netflow_params) (socket_id : Int)
    (entry_size : Nat) (t : rte_table_netflow)
    (hcreate : (rte_table_netflow_create cfg ok gpc0 params socket_id entry_size).table = some t) :
    t.n_entries ≠ 0 ∧
    ∀ (gpc : Nat) (c : AddCall),
      slot_index cfg t.n_entries c.key =
        cfg.rte_hash_crc_4byte c.key.port_dst (cfg.rte_hash_crc_4byte c.key.port_src
          (cfg.rte_hash_crc_4byte c.key.ip_dst (cfg.rte_hash_crc_4byte c.key.ip_src
            (cfg.rte_hash_crc_4byte c.key.proto 0)))) % t.n_entries ∧
      slot_index cfg t.n_entries c.key < t.n_entries ∧
      (rte_table_netflow_entry_add cfg t gpc c).events.head? =
        some (Event.spinlock_lock (slot_index cfg t.n_entries c.key)) ∧
      (∀ e ∈ (rte_table_netflow_entry_add cfg t gpc c).events,
        e = Event.spinlock_lock (slot_index cfg t.n_entries c.key) ∨
        e = Event.spinlock_unlock (slot_index cfg t.n_entries c.key)) ∧
      (∀ i, i ≠ slot_index cfg t.n_entries c.key →
        (rte_table_netflow_entry_add cfg t gpc c).table.array i = t.array i) ∧
      ∀ c2 : AddCall, c2.key.proto = c.key.proto → c2.key.ip_src = c.key.ip_src →
        c2.key.ip_dst = c.key.ip_dst → c2.key.port_src = c.key.port_src →
        c2.key.port_dst = c.key.port_dst →
        slot_index cfg t.n_entries c2.key = slot_index cfg t.n_entries c.key := by
  have hn : t.n_entries ≠ 0 := (create_some cfg ok gpc0 params socket_id entry_size t hcreate).1
  refine ⟨hn, fun gpc c => ⟨?_, ?_, (entry_add_events cfg t gpc c hn).1,
    (entry_add_events cfg t gpc c hn).2, ?_, ?_⟩⟩
  · unfold slot_index
    rw [key_hash_eq cfg hH]
  · exact Nat.mod_lt _ (Nat.pos_of_ne_zero hn)
  · intro i hi
    cases hr : (rte_table_netflow_entry_add cfg t gpc c).ret with
    | none => rw [(entry_add_table_of_ret_none cfg t gpc c hr).1]
    | some v =>
      obtain ⟨-, -, h2, -, -⟩ := entry_add_of_ret cfg t gpc c v hr
      rw [h2, set_slot_array, if_neg hi]
  · intro c2 h1 h2 h3 h4 h5
    unfold slot_index key_hash
    simp only [h1, h2, h3, h4, h5]

/-- Instance of the slot index theorem: the table of sixteen entries, where the
key (10.0.0.1, 10.0.0.2, TCP, 1234, 80) selects a slot below sixteen. -/
theorem slot_index_in_bounds_witness :
    (rte_table_netflow_create cfg_example true 7 ⟨16, 0, 0⟩ 0 64).table = some empty_table_16 ∧
    slot_index cfg_example 16 key_example < 16 :=
  ⟨create_16,
   ((slot_index_in_bounds cfg_example (fun _ _ => Nat.mod_lt _ (by decide)) true 7 ⟨16, 0, 0⟩ 0 64
      empty_table_16 create_16).2 0 call_syn).2.1⟩

/-! ## The process-wide counter -/

/-- The counter after `rte_table_netflow_create`: zero when a table is
returned, untouched when the call fails. -/
theorem create_global_packet_count (cfg : Config) (ok : Bool) (gpc : Nat)
    (params : rte_table_netflow_params) (socket_id : Int) (entry_size : Nat) :
    (rte_table_netflow_create cfg ok gpc params socket_id entry_size).global_packet_count =
      if (rte_table_netflow_create cfg ok gpc params socket_id entry_size).table.isSome then 0
      else gpc := by
  unfold rte_table_netflow_create
  dsimp only
  split <;> split <;> try simp
  all_goals (cases ok <;> simp)

/-- Effect of one public operation on the counter. -/
theorem step_global_packet_count (cfg : Config) (q q' : Process) (op : Op)
    (h : step cfg q op = some q') :
    (Op.is_entry_add op = true →
      q'.global_packet_count = (q.global_packet_count + 1) % 2 ^ 64) ∧
    (Op.is_entry_add op = false → Op.is_create op = false →
      q'.global_packet_count = q.global_packet_count) ∧
    (∀ ok params socket_id entry_size, op = Op.create ok params socket_id entry_size →
      q'.global_packet_count =
        if (rte_table_netflow_create cfg ok q.global_packet_count params socket_id
          entry_size).table.isSome then 0 else q.global_packet_count) := by
  cases op with
  | create ok params socket_id entry_size =>
    refine ⟨by simp [Op.is_entry_add], by simp [Op.is_create], ?_⟩
    intro ok2 params2 s2 e2 heq
    injection heq with h1 h2 h3 h4
    subst h1 h2 h3 h4
    rw [← create_global_packet_count]
    unfold step at h
    dsimp only at h
    cases hc : (rte_table_netflow_create cfg ok q.global_packet_count params socket_id
      entry_size).table with
    | none => rw [hc] at h; injection h with h; subst h; rfl
    | some t => rw [hc] at h; injection h with h; subst h; rfl
  | entry_add c =>
    refine ⟨fun _ => ?_, by simp [Op.is_entry_add], by intro _ _ _ _ heq; cases heq⟩
    unfold step at h
    dsimp only at h
    cases ht : q.table with
    | none => rw [ht] at h; cases h
    | some t =>
      rw [ht] at h
      dsimp only at h
      cases hr : (rte_table_netflow_entry_add cfg t q.global_packet_count c).ret with
      | none => rw [hr] at h; cases h
      | some v =>
        rw [hr] at h
        injection h with h
        subst h
        exact (entry_add_of_ret cfg t _ c v hr).2.2.2.1
  | free =>
    refine ⟨by simp [Op.is_entry_add], fun _ _ => ?_, by intro _ _ _ _ heq; cases heq⟩
    unfold step at h
    injection h with h
    subst h
    rfl
  | print =>
    refine ⟨by simp [Op.is_entry_add], fun _ _ => ?_, by intro _ _ _ _ heq; cases heq⟩
    unfold step at h
    cases ht : q.table with
    | none => rw [ht] at h; cases h
    | some t =>
      rw [ht] at h
      injection h with h
      subst h
      rfl
  | print_stats =>
    refine ⟨by simp [Op.is_entry_add], fun _ _ => ?_, by intro _ _ _ _ heq; cases heq⟩
    unfold step at h
    cases ht : q.table with
    | none => rw [ht] at h; cases h
    | some t =>
      rw [ht] at h
      injection h with h
      subst h
      rfl
  | export_to_file env filename =>
    refine ⟨by simp [Op.is_entry_add], fun _ _ => ?_, by intro _ _ _ _ heq; cases heq⟩
    unfold step at h
    cases ht : q.table with
    | none => rw [ht] at h; cases h
    | some t =>
      rw [ht] at h
      dsimp only at h
      split at h
      · injection h with h
        subst h
        rfl
      · cases h

/-- Over a sequence without `rte_table_netflow_create` the counter is the old
one plus the number of ingests, modulo 2^64. -/
theorem run_global_packet_count (cfg : Config) (ops : List Op) :
    ∀ (p p' : Process), p.global_packet_count < 2 ^ 64 →
      (∀ op ∈ ops, Op.is_create op = false) → run cfg p ops = some p' →
      p'.global_packet_count =
        (p.global_packet_count + (ops.filter Op.is_entry_add).length) % 2 ^ 64 := by
  induction ops with
  | nil =>
    intro p p' hp _ h
    unfold run at h
    injection h with h
    subst h
    rw [List.filter_nil, List.length_nil, Nat.add_zero, Nat.mod_eq_of_lt hp]
  | cons op ops ih =>
    intro p p' hp hnc h
    unfold run at h
    cases hs : step cfg p op with
    | none => rw [hs] at h; cases h
    | some q =>
      rw [hs] at h
      dsimp only at h
      obtain ⟨h1, h2, -⟩ := step_global_packet_count cfg p q op hs
      have hop : Op.is_create op = false := hnc op (List.mem_cons_self _ _)
      by_cases ha : Op.is_entry_add op = true
      · have hq := h1 ha
        have hq2 : q.global_packet_count < 2 ^ 64 := by
          rw [hq]; exact Nat.mod_lt _ (by positivity)
        rw [ih q p' hq2 (fun o ho => hnc o (List.mem_cons_of_mem _ ho)) h, hq,
          List.filter_cons_of_pos ha, List.length_cons]
        rw [Nat.add_mod, Nat.mod_mod, ← Nat.add_mod]
        congr 1
        omega
      · have ha2 : Op.is_entry_add op = false := by simpa using ha
        have hq := h2 ha2 hop
        rw [ih q p' (hq ▸ hp) (fun o ho => hnc o (List.mem_cons_of_mem _ ho)) h, hq,
          List.filter_cons_of_neg ha]

/-- C11, counterexample: after `rte_table_netflow_create` and one
`rte_table_netflow_entry_add` the counter is 1; a second
`rte_table_netflow_create`, which returns a table, leaves it at 0 (line 101
stores zero): the operation leaves the counter smaller than it found it. -/
theorem create_resets_global_packet_count :
    (run cfg_example ⟨none, 0⟩
      [Op.create true ⟨16, 0, 0⟩ 0 64, Op.entry_add call_syn]).map
        (fun p => p.global_packet_count) = some 1 ∧
    (run cfg_example ⟨none, 0⟩
      [Op.create true ⟨16, 0, 0⟩ 0 64, Op.entry_add call_syn,
       Op.create true ⟨16, 0, 0⟩ 0 64]).map
        (fun p => p.global_packet_count) = some 0 := by
  constructor <;> rfl

/-- C11. Over every sequence of public operations that contains no call of
`rte_table_netflow_create` and all of which return, `global_packet_count` ends
as the old value plus the number of `rte_table_netflow_entry_add` calls modulo
2^64, so it never decreases as long as that sum stays below 2^64. Per
operation: each returning `rte_table_netflow_entry_add` raises the counter by
exactly one modulo 2^64; `rte_table_netflow_free`, `rte_table_print`,
`rte_table_print_stats` and `rte_table_export_to_file` leave it as they found
it; `rte_table_netflow_create` sets it to zero when it returns a table and
leaves it unchanged when it fails. -/
theorem global_packet_count_monotone (cfg : Config) (p p' : Process) (ops : List Op)
    (hp : p.global_packet_count < 2 ^ 64)
    (hnc : ∀ op ∈ ops, Op.is_create op = false)
    (hrun : run cfg p ops = some p') :
    p'.global_packet_count =
      (p.global_packet_count + (ops.filter Op.is_entry_add).length) % 2 ^ 64 ∧
    (p.global_packet_count + (ops.filter Op.is_entry_add).length < 2 ^ 64 →
      p.global_packet_count ≤ p'.global_packet_count ∧
      p'.global_packet_count =
        p.global_packet_count + (ops.filter Op.is_entry_add).length) ∧
    ∀ (q q' : Process) (op : Op), step cfg q op = some q' →
      (Op.is_entry_add op = true →
        q'.global_packet_count = (q.global_packet_count + 1) % 2 ^ 64) ∧
      (Op.is_entry_add op = false → Op.is_create op = false →
        q'.global_packet_count = q.global_packet_count) ∧
      (∀ ok params socket_id entry_size, op = Op.create ok params socket_id entry_size →
        q'.global_packet_count =
          if (rte_table_netflow_create cfg ok q.global_packet_count params socket_id
            entry_size).table.isSome then 0 else q.global_packet_count) := by
  have h := run_global_packet_count cfg ops p p' hp hnc hrun
  refine ⟨h, fun hlt => ?_, fun q q' op hs => step_global_packet_count cfg q q' op hs⟩
  rw [h, Nat.mod_eq_of_lt hlt]
  exact ⟨Nat.le_add_right _ _, rfl⟩

/-- The operations of `ops_example` all return. -/
theorem run_ops_example :
    run cfg_example ⟨some empty_table_16, 5⟩ ops_example = some process_example := by
  rfl

/-- Instance of the counter theorem: two ingests among five operations raise
the counter from 5 to 7. -/
theorem global_packet_count_monotone_witness :
    run cfg_example ⟨some empty_table_16, 5⟩ ops_example = some process_example ∧
    5 ≤ process_example.global_packet_count ∧ process_example.global_packet_count = 5 + 2 :=
  ⟨run_ops_example,
   (global_packet_count_monotone cfg_example ⟨some empty_table_16, 5⟩ process_example ops_example
      (by decide) (by decide) run_ops_example).2.1 (by decide)⟩

/-! ## The per-flow dump -/

/-- One slot of `rte_table_print`: an entry for the head of the chain when the
chain is not empty, between the lock and the unlock of the slot. -/
theorem print_slot_spec (t : rte_table_netflow) (acc : PrintAcc) (i : Nat) :
    (print_slot t acc i).entries = acc.entries ++ ((t.array i).take 1).map print_entry ∧
    (print_slot t acc i).events =
      acc.events ++ [Event.spinlock_lock i, Event.spinlock_unlock i] := by
  unfold print_slot
  cases t.array i with
  | nil => simp
  | cons b rest => simp

/-- The loop of `rte_table_print` over a list of slots: one entry for the head
of each chain that is not empty, one lock and unlock per slot. -/
theorem foldl_print_slot (t : rte_table_netflow) (l : List Nat) :
    ∀ acc : PrintAcc,
      (l.foldl (print_slot t) acc).entries =
        acc.entries ++ l.flatMap (fun i => ((t.array i).take 1).map print_entry) ∧
      (l.foldl (print_slot t) acc).events =
        acc.events ++ l.flatMap (fun i => [Event.spinlock_lock i, Event.spinlock_unlock i]) := by
  induction l with
  | nil => intro acc; simp
  | cons i l ih =>
    intro acc
    rw [List.foldl_cons]
    obtain ⟨h1, h2⟩ := ih (print_slot t acc i)
    obtain ⟨h3, h4⟩ := print_slot_spec t acc i
    rw [h1, h2, h3, h4]
    simp only [List.flatMap_cons, List.append_assoc, and_self]

/-- The dump and the lock calls of `rte_table_print`. -/
theorem print_spec (t : rte_table_netflow) :
    (rte_table_print t).ret = 0 ∧
    (rte_table_print t).entries =
      (List.range t.n_entries).flatMap (fun i => ((t.array i).take 1).map print_entry) ∧
    (rte_table_print t).events =
      (List.range t.n_entries).flatMap
        (fun i => [Event.spinlock_lock i, Event.spinlock_unlock i]) := by
  obtain ⟨h1, h2⟩ := foldl_print_slot t (List.range t.n_entries) { entries := [], events := [] }
  unfold rte_table_print
  exact ⟨rfl, by simpa using h1, by simpa using h2⟩

/-- C17. The dump of `rte_table_print` holds, for every table, one entry for the
head of each chain that is not empty and nothing for the records behind the
head (line 268 is an `if`, not a loop over `bkt->next`). On the table of one
slot after a packet of (10.0.0.1, 10.0.0.2) and a packet of (10.0.0.3,
10.0.0.2) the chain of slot 0 holds two records and the dump holds one entry,
where `rte_table_print_stats` counts two flows. -/
theorem print_dumps_chain_heads_only :
    (∀ t : rte_table_netflow,
      (rte_table_print t).entries =
        (List.range t.n_entries).flatMap (fun i => ((t.array i).take 1).map print_entry)) ∧
    ingest cfg_example ⟨empty_table_1, 0⟩ [call_syn, call_other_addr] = some state_two_records ∧
    (all_records state_two_records.table).length = 2 ∧
    (rte_table_print state_two_records.table).entries.length = 1 ∧
    (rte_table_print_stats state_two_records.table).total_flows = 2 :=
  ⟨fun t => (print_spec t).2.1, rfl, by decide, by decide, by decide⟩

/-! ## Lock discipline -/

/-- One event under the monitor, then the rest of the trace. -/
theorem lock_monitor_cons (m : LockMonitor) (e : Event) (es : List Event) :
    lock_monitor m (e :: es) =
      (lock_monitor_step m e).bind (fun m1 => lock_monitor m1 es) := by
  rw [lock_monitor]
  cases lock_monitor_step m e <;> rfl

/-- The monitor over a concatenation. -/
theorem lock_monitor_append (a b : List Event) :
    ∀ m : LockMonitor,
      lock_monitor m (a ++ b) = (lock_monitor m a).bind (fun m1 => lock_monitor m1 b) := by
  induction a with
  | nil => intro m; rfl
  | cons e a ih =>
    intro m
    rw [List.cons_append, lock_monitor_cons, lock_monitor_cons]
    cases lock_monitor_step m e with
    | none => rfl
    | some m1 => exact ih m1

/-- The monitor reads the lock events only. -/
theorem lock_monitor_filter (es : List Event) :
    ∀ m : LockMonitor, lock_monitor m es = lock_monitor m (es.filter is_lock_event) := by
  induction es with
  | nil => intro m; rfl
  | cons e es ih =>
    intro m
    by_cases he : is_lock_event e = true
    · rw [List.filter_cons_of_pos he, lock_monitor_cons, lock_monitor_cons]
      cases lock_monitor_step m e with
      | none => rfl
      | some m1 => exact ih m1
    · rw [List.filter_cons_of_neg he, lock_monitor_cons]
      have hs : lock_monitor_step m e = some m := by
        cases e <;> first | rfl | exact absurd rfl he
      rw [hs]
      exact ih m

/-- The traversal pattern is accepted, from the start to the state with `n`
slots visited and no lock held. -/
theorem lock_monitor_pattern (n : Nat) :
    lock_monitor ⟨0, none⟩ (lock_pattern n) = some ⟨n, none⟩ := by
  induction n with
  | zero => rfl
  | succ n ih =>
    unfold lock_pattern at ih ⊢
    rw [List.range_succ, List.flatMap_append, lock_monitor_append, ih]
    simp [lock_monitor, lock_monitor_step]

/-- The traversal pattern followed by the lock of the next slot is accepted:
one lock is held. -/
theorem lock_monitor_pattern_lock (n : Nat) :
    lock_monitor ⟨0, none⟩ (lock_pattern n ++ [Event.spinlock_lock n]) =
      some ⟨n + 1, some n⟩ := by
  rw [lock_monitor_append, lock_monitor_pattern]
  simp [lock_monitor, lock_monitor_step]

/-- The grow step makes no lock call. -/
theorem export_grow_locks (env : ExportEnv) (s : ExportState) :
    (export_grow env s).events.filter is_lock_event = s.events.filter is_lock_event := by
  unfold export_grow
  split
  · split
    · rfl
    · split
      · simp [List.filter_append, is_lock_event]
      · simp [List.filter_append, is_lock_event]
  · rfl

/-- The rendering of a record makes no call. -/
theorem export_render_events (cfg : Config) (env : ExportEnv) (s : ExportState)
    (b : hashBucket_t) : (export_render cfg env s b).events = s.events := by
  unfold export_render
  dsimp only
  split <;> rfl

/-- One record of the export makes no lock call. -/
theorem export_record_locks (cfg : Config) (env : ExportEnv) (s : ExportState)
    (b : hashBucket_t) :
    (export_record cfg env s b).events.filter is_lock_event =
      s.events.filter is_lock_event := by
  unfold export_record
  dsimp only
  split
  · rfl
  · split
    · exact export_grow_locks env s
    · rw [export_render_events]
      exact export_grow_locks env s

/-- The records of a chain make no lock call. -/
theorem export_chain_locks (cfg : Config) (env : ExportEnv) (chain : List hashBucket_t) :
    ∀ s : ExportState,
      (chain.foldl (export_record cfg env) s).events.filter is_lock_event =
        s.events.filter is_lock_event := by
  induction chain with
  | nil => intro s; rfl
  | cons b chain ih =>
    intro s
    rw [List.foldl_cons, ih, export_record_locks]

/-- One slot of the export: when the run is still going, the lock of the slot
is taken, and it is released when the run is still going after the chain. -/
theorem export_slot_locks (cfg : Config) (env : ExportEnv) (table : rte_table_netflow)
    (s : ExportState) (i : Nat) :
    (s.status ≠ RunStatus.running → export_slot cfg env table s i = s) ∧
    (s.status = RunStatus.running →
      ((export_slot cfg env table s i).status = RunStatus.running ∧
        (export_slot cfg env table s i).events.filter is_lock_event =
          s.events.filter is_lock_event ++
            [Event.spinlock_lock i, Event.spinlock_unlock i]) ∨
      ((export_slot cfg env table s i).status ≠ RunStatus.running ∧
        (export_slot cfg env table s i).events.filter is_lock_event =
          s.events.filter is_lock_event ++ [Event.spinlock_lock i])) := by
  constructor
  · intro h
    unfold export_slot
    rw [if_pos h]
  · intro h
    unfold export_slot
    rw [if_neg (by simp [h])]
    dsimp only
    have hc := export_chain_locks cfg env (table.array i)
      { s with events := s.events ++ [Event.spinlock_lock i] }
    simp only [List.filter_append] at hc
    by_cases h2 : (List.foldl (export_record cfg env)
        { s with events := s.events ++ [Event.spinlock_lock i] } (table.array i)).status =
        RunStatus.running
    · left
      rw [if_neg (by simp [h2])]
      refine ⟨h2, ?_⟩
      simp only [List.filter_append, hc]
      simp [is_lock_event]
    · right
      rw [if_pos h2]
      refine ⟨h2, ?_⟩
      rw [hc]
      simp [is_lock_event]

/-- The lock calls of the traversal of the first `n` slots by the export: the
whole pattern when the run is still going, and otherwise the pattern of some
first slots, possibly followed by the lock of the next slot. -/
theorem export_slots_locks (cfg : Config) (env : ExportEnv) (table : rte_table_netflow)
    (s0 : ExportState) (h0 : s0.events.filter is_lock_event = []) (n : Nat) :
    (((List.range n).foldl (export_slot cfg env table) s0).status = RunStatus.running ∧
      ((List.range n).foldl (export_slot cfg env table) s0).events.filter is_lock_event =
        lock_pattern n) ∨
    (((List.range n).foldl (export_slot cfg env table) s0).status ≠ RunStatus.running ∧
      ∃ j, j ≤ n ∧
        (((List.range n).foldl (export_slot cfg env table) s0).events.filter is_lock_event =
            lock_pattern j ∨
          ((List.range n).foldl (export_slot cfg env table) s0).events.filter is_lock_event =
            lock_pattern j ++ [Event.spinlock_lock j])) := by
  induction n with
  | zero =>
    simp only [List.range_zero, List.foldl_nil]
    by_cases h : s0.status = RunStatus.running
    · exact Or.inl ⟨h, h0⟩
    · exact Or.inr ⟨h, 0, le_refl _, Or.inl h0⟩
  | succ n ih =>
    rw [List.range_succ, List.foldl_append, List.foldl_cons, List.foldl_nil]
    generalize (List.range n).foldl (export_slot cfg env table) s0 = s at ih
    obtain ⟨hstop, hgo⟩ := export_slot_locks cfg env table s n
    rcases ih with ⟨hr, hl⟩ | ⟨hr, j, hj, hl⟩
    · rcases hgo hr with ⟨h1, h2⟩ | ⟨h1, h2⟩
      · left
        refine ⟨h1, ?_⟩
        rw [h2, hl]
        unfold lock_pattern
        rw [List.range_succ, List.flatMap_append]
        simp
      · right
        exact ⟨h1, n, Nat.le_succ _, Or.inr (by rw [h2, hl])⟩
    · right
      rw [hstop hr]
      exact ⟨hr, j, Nat.le_succ_of_le hj, hl⟩

/-- One record of the export does not make the run return. -/
theorem export_record_not_returned (cfg : Config) (env : ExportEnv) (s : ExportState)
    (b : hashBucket_t) (h : s.status ≠ RunStatus.returned) :
    (export_record cfg env s b).status ≠ RunStatus.returned := by
  unfold export_record export_render export_grow
  dsimp only
  split
  · exact h
  · split <;> split <;> (try split) <;> (try split) <;> (try split) <;>
      first | exact h | (dsimp only; simp)

/-- The records of a chain do not make the run return. -/
theorem export_chain_not_returned (cfg : Config) (env : ExportEnv) (chain : List hashBucket_t) :
    ∀ s : ExportState, s.status ≠ RunStatus.returned →
      (chain.foldl (export_record cfg env) s).status ≠ RunStatus.returned := by
  induction chain with
  | nil => intro s h; exact h
  | cons b chain ih =>
    intro s h
    rw [List.foldl_cons]
    exact ih _ (export_record_not_returned cfg env s b h)

/-- One slot of the export does not make the run return. -/
theorem export_slot_not_returned (cfg : Config) (env : ExportEnv) (table : rte_table_netflow)
    (s : ExportState) (i : Nat) (h : s.status ≠ RunStatus.returned) :
    (export_slot cfg env table s i).status ≠ RunStatus.returned := by
  unfold export_slot
  dsimp only
  have hc := export_chain_not_returned cfg env (table.array i)
    { s with events := s.events ++ [Event.spinlock_lock i] } h
  split
  · exact h
  · split
    · exact hc
    · exact hc

/-- The slots of the export do not make the run return. -/
theorem export_slots_not_returned (cfg : Config) (env : ExportEnv) (table : rte_table_netflow)
    (s0 : ExportState) (h0 : s0.status ≠ RunStatus.returned) (n : Nat) :
    ((List.range n).foldl (export_slot cfg env table) s0).status ≠ RunStatus.returned := by
  induction n with
  | zero => exact h0
  | succ n ih =>
    rw [List.range_succ, List.foldl_append, List.foldl_cons, List.foldl_nil]
    exact export_slot_not_returned cfg env table _ n ih

/-- The traversal does not make the run return. -/
theorem export_buffer_not_returned (cfg : Config) (env : ExportEnv)
    (table : rte_table_netflow) :
    (export_buffer cfg env table).status ≠ RunStatus.returned := by
  unfold export_buffer
  dsimp only
  split
  · simp
  · exact export_slots_not_returned cfg env table _ (by simp) _

/-- The lock calls of the whole export. -/
theorem export_to_file_locks (cfg : Config) (env : ExportEnv) (table : rte_table_netflow)
    (filename : String) :
    ((rte_table_export_to_file cfg env table filename).status = RunStatus.returned →
      (rte_table_export_to_file cfg env table filename).events.filter is_lock_event =
        lock_pattern table.n_entries) ∧
    ∃ j, j ≤ table.n_entries ∧
      ((rte_table_export_to_file cfg env table filename).events.filter is_lock_event =
          lock_pattern j ∨
        (rte_table_export_to_file cfg env table filename).events.filter is_lock_event =
          lock_pattern j ++ [Event.spinlock_lock j]) := by
  have hb : ((export_buffer cfg env table).status = RunStatus.running ∧
      (export_buffer cfg env table).events.filter is_lock_event =
        lock_pattern table.n_entries) ∨
    ((export_buffer cfg env table).status ≠ RunStatus.running ∧
      ∃ j, j ≤ table.n_entries ∧
        ((export_buffer cfg env table).events.filter is_lock_event = lock_pattern j ∨
          (export_buffer cfg env table).events.filter is_lock_event =
            lock_pattern j ++ [Event.spinlock_lock j])) := by
    unfold export_buffer
    dsimp only
    split
    · right
      exact ⟨by simp, 0, Nat.zero_le _, Or.inl (by simp [is_lock_event, lock_pattern])⟩
    · exact export_slots_locks cfg env table _ (by simp [is_lock_event]) table.n_entries
  have hf : (rte_table_export_to_file cfg env table filename).events.filter is_lock_event =
      (export_buffer cfg env table).events.filter is_lock_event := by
    unfold rte_table_export_to_file
    dsimp only
    split
    · rfl
    · split
      · simp [List.filter_append, is_lock_event]
      · split
        · simp [List.filter_append, is_lock_event]
        · split
          · simp [List.filter_append, is_lock_event]
          · split
            · simp [List.filter_append, is_lock_event]
            · simp [List.filter_append, is_lock_event]
  have hret : (rte_table_export_to_file cfg env table filename).status = RunStatus.returned →
      (export_buffer cfg env table).status = RunStatus.running := by
    intro h
    by_contra hne
    unfold rte_table_export_to_file at h
    dsimp only at h
    rw [if_pos hne] at h
    exact export_buffer_not_returned cfg env table h
  rw [hf]
  constructor
  · intro h
    rcases hb with ⟨-, hl⟩ | ⟨hn, -⟩
    · exact hl
    · exact absurd (hret h) hn
  · rcases hb with ⟨-, hl⟩ | ⟨-, j, hj, hl⟩
    · exact ⟨table.n_entries, le_refl _, Or.inl hl⟩
    · exact ⟨j, hj, hl⟩

/-- C16. Lock discipline on the trace of lock calls. A call of
`rte_table_netflow_entry_add` that returns has made exactly two lock calls:
the lock of its slot index, then the unlock of the same slot. The lock calls
of `rte_table_print` and of `rte_table_print_stats` are, for the slots
0..n_entries-1 in index order, the lock of the slot followed by its unlock, so
the monitor (a lock is taken only when none is held and in index order, and
only the held lock is released) accepts the trace and ends with no lock held.
The same holds for every run of `rte_table_export_to_file` that returns; a run
that does not return (`exit`) is accepted by the monitor too, and stops with
no lock or one lock held. -/
theorem lock_discipline (cfg : Config) :
    (∀ (t : rte_table_netflow) (gpc : Nat) (c : AddCall) (v : Int),
      (rte_table_netflow_entry_add cfg t gpc c).ret = some v →
      (rte_table_netflow_entry_add cfg t gpc c).events =
        [Event.spinlock_lock (slot_index cfg t.n_entries c.key),
         Event.spinlock_unlock (slot_index cfg t.n_entries c.key)]) ∧
    (∀ t : rte_table_netflow,
      (rte_table_print t).events = lock_pattern t.n_entries ∧
      lock_monitor ⟨0, none⟩ (rte_table_print t).events = some ⟨t.n_entries, none⟩) ∧
    (∀ t : rte_table_netflow,
      (rte_table_print_stats t).events = lock_pattern t.n_entries ∧
      lock_monitor ⟨0, none⟩ (rte_table_print_stats t).events = some ⟨t.n_entries, none⟩) ∧
    (∀ (env : ExportEnv) (t : rte_table_netflow) (filename : String),
      ((rte_table_export_to_file cfg env t filename).status = RunStatus.returned →
        (rte_table_export_to_file cfg env t filename).events.filter is_lock_event =
          lock_pattern t.n_entries ∧
        lock_monitor ⟨0, none⟩ (rte_table_export_to_file cfg env t filename).events =
          some ⟨t.n_entries, none⟩) ∧
      ∃ j, j ≤ t.n_entries ∧
        (lock_monitor ⟨0, none⟩ (rte_table_export_to_file cfg env t filename).events =
            some ⟨j, none⟩ ∨
          lock_monitor ⟨0, none⟩ (rte_table_export_to_file cfg env t filename).events =
            some ⟨j + 1, some j⟩)) := by
  refine ⟨fun t gpc c v hr => (entry_add_of_ret cfg t gpc c v hr).2.2.2.2, fun t => ?_,
    fun t => ?_, fun env t filename => ?_⟩
  · have h := (print_spec t).2.2
    rw [h]
    exact ⟨rfl, lock_monitor_pattern _⟩
  · have h : (rte_table_print_stats t).events = lock_pattern t.n_entries :=
      (foldl_stats_slot t t.n_entries).2.2.2
    rw [h]
    exact ⟨rfl, lock_monitor_pattern _⟩
  · obtain ⟨h1, j, hj, h2⟩ := export_to_file_locks cfg env t filename
    constructor
    · intro hr
      refine ⟨h1 hr, ?_⟩
      rw [lock_monitor_filter, h1 hr]
      exact lock_monitor_pattern _
    · refine ⟨j, hj, ?_⟩
      rw [lock_monitor_filter]
      rcases h2 with h2 | h2
      · left; rw [h2]; exact lock_monitor_pattern _
      · right; rw [h2]; exact lock_monitor_pattern_lock _

/-! ## Safety of the export buffer -/

/-- One record of the export from a safe running state, when the doubling
does not overflow: the grow step leaves 91 free bytes or more or exits, the
line and its NUL fit, and the line is stored whole. -/
theorem export_record_safe (cfg : Config) (env : ExportEnv) (s : ExportState) (b : hashBucket_t)
    (hrun : s.status = RunStatus.running) (hoff : s.buf_end_offset < s.buf_size)
    (h91 : 91 ≤ s.buf_size) (hmax : s.buf_size ≤ INT_MAX) (hwf : bucket_wf b)
    (hov : s.buf_size - s.buf_end_offset ≤ 91 → s.buf_size * 2 ≤ INT_MAX) :
    (export_grow env s).status ≠ RunStatus.undefined_behaviour ∧
    ((export_grow env s).status ≠ RunStatus.running →
      export_record cfg env s b = export_grow env s) ∧
    ((export_grow env s).status = RunStatus.running →
      (export_grow env s).buf_end_offset = s.buf_end_offset ∧
      s.buf_size ≤ (export_grow env s).buf_size ∧
      (export_grow env s).buf_size ≤ INT_MAX ∧
      91 ≤ (export_grow env s).buf_size - (export_grow env s).buf_end_offset ∧
      (export_grow env s).buf_end_offset + (csv_line cfg b).length + 1 ≤
        (export_grow env s).buf_size ∧
      (export_record cfg env s b).status = RunStatus.running ∧
      (export_record cfg env s b).data = s.data ++ csv_line cfg b ∧
      (export_record cfg env s b).buf_end_offset =
        s.buf_end_offset + (csv_line cfg b).length ∧
      (export_record cfg env s b).buf_size = (export_grow env s).buf_size ∧
      (export_record cfg env s b).buf_end_offset < (export_record cfg env s b).buf_size) := by
  have hL := csv_line_length_le cfg b hwf
  have hI : INT_MAX = 2147483647 := by decide
  have htake : (csv_line cfg b).take 90 = csv_line cfg b := List.take_of_length_le hL
  have hfree : (s.buf_size + 2 ^ 64 - s.buf_end_offset % 2 ^ 64) % 2 ^ 64 =
      s.buf_size - s.buf_end_offset := by
    rw [hI] at hmax
    omega
  have hgrow : (export_grow env s).status ≠ RunStatus.undefined_behaviour ∧
      ((export_grow env s).status = RunStatus.running →
        (export_grow env s).data = s.data ∧
        (export_grow env s).buf_end_offset = s.buf_end_offset ∧
        s.buf_size ≤ (export_grow env s).buf_size ∧
        92 ≤ (export_grow env s).buf_size - s.buf_end_offset ∧
        (export_grow env s).buf_size ≤ INT_MAX) := by
    unfold export_grow
    rw [hfree]
    by_cases hg : s.buf_size - s.buf_end_offset ≤ 91
    · have hov2 : ¬ INT_MAX < s.buf_size * 2 := not_lt.mpr (hov hg)
      rw [if_pos hg, if_neg hov2]
      by_cases hr : env.realloc_ok s.n_realloc = false
      · rw [if_pos hr]
        exact ⟨by simp, fun h => by simp at h⟩
      · rw [if_neg hr]
        refine ⟨by simp [hrun], fun _ => ⟨rfl, rfl, ?_, ?_, ?_⟩⟩
        · simp only []; omega
        · simp only []; omega
        · simp only []; exact hov hg
    · rw [if_neg hg]
      exact ⟨by simp [hrun], fun _ => ⟨rfl, rfl, le_refl _, by omega, hmax⟩⟩
  obtain ⟨g0, gr⟩ := hgrow
  refine ⟨g0, ?_, ?_⟩
  · intro hne
    unfold export_record
    rw [if_neg (by simp [hrun])]
    dsimp only
    rw [if_pos hne]
  · intro hg
    obtain ⟨g2, g3, g4, g5, g6⟩ := gr hg
    have hrec : export_record cfg env s b = export_render cfg env (export_grow env s) b := by
      unfold export_record
      rw [if_neg (by simp [hrun])]
      dsimp only
      rw [if_neg (by simp [hg])]
    rw [hrec]
    unfold export_render
    dsimp only
    rw [htake, if_neg (by rw [g3]; omega), if_pos hL]
    dsimp only
    rw [hI] at g6
    refine ⟨g3, g4, by rw [hI]; exact g6, by rw [g3]; omega, by rw [g3]; omega, hg, ?_, ?_,
      rfl, ?_⟩
    · simp only [g2, List.append_nil]
    · rw [g3]; omega
    · rw [g3]; omega

/-- A record of the export from a stopped run: nothing happens. -/
theorem export_record_stopped (cfg : Config) (env : ExportEnv) (s : ExportState)
    (b : hashBucket_t) (h : s.status ≠ RunStatus.running) : export_record cfg env s b = s := by
  unfold export_record
  rw [if_pos h]

/-- A chain of the export from a stopped run: nothing happens. -/
theorem export_chain_stopped (cfg : Config) (env : ExportEnv) (chain : List hashBucket_t) :
    ∀ s : ExportState, s.status ≠ RunStatus.running →
      chain.foldl (export_record cfg env) s = s := by
  induction chain with
  | nil => intro s _; rfl
  | cons b chain ih =>
    intro s h
    rw [List.foldl_cons, export_record_stopped cfg env s b h]
    exact ih s h

/-- The state before record `j + 1` of a chain is the state before record `j`
after one pass of the loop body. -/
theorem export_reach_succ (cfg : Config) (env : ExportEnv) (table : rte_table_netflow)
    (i j : Nat) (b : hashBucket_t) (hb : (table.array i)[j]? = some b) :
    export_reach cfg env table i (j + 1) =
      export_record cfg env (export_reach cfg env table i j) b := by
  unfold export_reach
  dsimp only
  rw [List.take_succ, hb, List.foldl_append]
  rfl

/-- The state after slot `i` is, but for the calls made, the state behind the
last record of the chain of slot `i`. -/
theorem export_reach_full (cfg : Config) (env : ExportEnv) (table : rte_table_netflow)
    (i : Nat) :
    ∃ evs, (List.range (i + 1)).foldl (export_slot cfg env table) (export_start cfg) =
      { export_reach cfg env table i (table.array i).length with events := evs } := by
  rw [List.range_succ, List.foldl_append, List.foldl_cons, List.foldl_nil]
  unfold export_reach
  dsimp only
  rw [List.take_length]
  generalize (List.range i).foldl (export_slot cfg env table) (export_start cfg) = s
  unfold export_slot
  dsimp only
  by_cases h : s.status = RunStatus.running
  · rw [if_neg (by simp [h])]
    split
    · exact ⟨_, rfl⟩
    · exact ⟨_, rfl⟩
  · have hst := export_chain_stopped cfg env (table.array i)
      { s with events := s.events ++ [Event.spinlock_lock i] } h
    rw [if_pos h, hst]
    exact ⟨s.events, rfl⟩

/-- Safety at every record of a chain, from safety at its head. -/
theorem export_reach_safe_chain (cfg : Config) (env : ExportEnv) (table : rte_table_netflow)
    (i : Nat)
    (hwf : ∀ b ∈ table.array i, bucket_wf b)
    (hov : ∀ j, j < (table.array i).length →
      (export_reach cfg env table i j).status = RunStatus.running →
      (export_reach cfg env table i j).buf_size -
          (export_reach cfg env table i j).buf_end_offset ≤ 91 →
        (export_reach cfg env table i j).buf_size * 2 ≤ INT_MAX)
    (h0 : export_safe (export_reach cfg env table i 0)) :
    ∀ j, j ≤ (table.array i).length → export_safe (export_reach cfg env table i j) := by
  intro j
  induction j with
  | zero => intro _; exact h0
  | succ j ih =>
    intro hj
    have hj2 : j < (table.array i).length := hj
    have hs := ih (Nat.le_of_lt hj2)
    have hb : (table.array i)[j]? = some ((table.array i).get ⟨j, hj2⟩) :=
      List.getElem?_eq_getElem hj2
    rw [export_reach_succ cfg env table i j _ hb]
    by_cases hrun : (export_reach cfg env table i j).status = RunStatus.running
    · obtain ⟨hs1, hs2, hs3⟩ := hs.2 hrun
      obtain ⟨g0, g1, g2⟩ := export_record_safe cfg env _ ((table.array i).get ⟨j, hj2⟩) hrun
        hs1 hs2 hs3 (hwf _ (List.get_mem _ _ _)) (hov j hj2 hrun)
      by_cases hg : (export_grow env (export_reach cfg env table i j)).status = RunStatus.running
      · obtain ⟨-, k2, k3, -, -, k6, -, -, k9, k10⟩ := g2 hg
        refine ⟨by rw [k6]; simp, fun _ => ⟨k10, ?_, ?_⟩⟩
        · rw [k9]; exact le_trans hs2 k2
        · rw [k9]; exact k3
      · rw [g1 hg]
        exact ⟨g0, fun h => absurd h hg⟩
    · rw [export_record_stopped cfg env _ _ hrun]
      exact hs

/-- The state at the head of the chain of slot `i` is, but for the calls made,
the state after the slots before `i`. -/
theorem export_reach_zero (cfg : Config) (env : ExportEnv) (table : rte_table_netflow)
    (i : Nat) :
    export_reach cfg env table i 0 =
      { (List.range i).foldl (export_slot cfg env table) (export_start cfg) with
        events := ((List.range i).foldl (export_slot cfg env table) (export_start cfg)).events ++
          [Event.spinlock_lock i] } := by
  unfold export_reach
  rfl

/-- Safety of the export at every slot and at every record, when the initial
size is a valid `int` of 91 or more, the fields of the records fit their C
types and no doubling overflows. -/
theorem export_reach_safe (cfg : Config) (env : ExportEnv) (table : rte_table_netflow)
    (h91 : 91 ≤ cfg.EXPORT_BUF_INITAL_SIZE) (hmax : cfg.EXPORT_BUF_INITAL_SIZE ≤ INT_MAX)
    (hwf : ∀ b ∈ all_records table, bucket_wf b)
    (hov : ∀ i, i < table.n_entries → ∀ j, j < (table.array i).length →
      (export_reach cfg env table i j).status = RunStatus.running →
      (export_reach cfg env table i j).buf_size -
          (export_reach cfg env table i j).buf_end_offset ≤ 91 →
        (export_reach cfg env table i j).buf_size * 2 ≤ INT_MAX) :
    ∀ i, i ≤ table.n_entries →
      export_safe ((List.range i).foldl (export_slot cfg env table) (export_start cfg)) ∧
      (i < table.n_entries → ∀ j, j ≤ (table.array i).length →
        export_safe (export_reach cfg env table i j)) := by
  have hchain : ∀ i, i < table.n_entries →
      export_safe ((List.range i).foldl (export_slot cfg env table) (export_start cfg)) →
      ∀ j, j ≤ (table.array i).length → export_safe (export_reach cfg env table i j) := by
    intro i hi hs
    apply export_reach_safe_chain cfg env table i
    · intro b hb
      apply hwf
      unfold all_records
      exact List.mem_flatMap.2 ⟨i, List.mem_range.2 hi, hb⟩
    · exact hov i hi
    · rw [export_reach_zero]
      exact hs
  have hslots : ∀ i, i ≤ table.n_entries →
      export_safe ((List.range i).foldl (export_slot cfg env table) (export_start cfg)) := by
    intro i
    induction i with
    | zero =>
      intro _
      refine ⟨by simp [export_start], fun _ => ⟨?_, h91, hmax⟩⟩
      show 0 < cfg.EXPORT_BUF_INITAL_SIZE
      omega
    | succ i ih =>
      intro hi
      have hi2 : i < table.n_entries := hi
      have hlast := hchain i hi2 (ih (Nat.le_of_lt hi2)) _ (le_refl _)
      obtain ⟨evs, he⟩ := export_reach_full cfg env table i
      rw [he]
      exact hlast
  intro i hi
  exact ⟨hslots i hi, fun hi2 => hchain i hi2 (hslots i hi)⟩

/-- The whole export is safe when the traversal is. -/
theorem export_to_file_safe (cfg : Config) (env : ExportEnv) (table : rte_table_netflow)
    (filename : String)
    (hs : export_safe ((List.range table.n_entries).foldl (export_slot cfg env table)
      (export_start cfg))) :
    (export_buffer cfg env table).status ≠ RunStatus.undefined_behaviour ∧
    (rte_table_export_to_file cfg env table filename).status ≠
      RunStatus.undefined_behaviour := by
  have hb : export_safe (export_buffer cfg env table) := by
    unfold export_buffer
    dsimp only
    split
    · exact ⟨by simp, fun h => by simp at h⟩
    · exact hs
  refine ⟨hb.1, ?_⟩
  unfold rte_table_export_to_file
  dsimp only
  split
  · exact hb.1
  · rename_i hrun
    have hrun2 : (export_buffer cfg env table).status = RunStatus.running := by
      simpa using hrun
    obtain ⟨h1, -, -⟩ := hb.2 hrun2
    split
    · simp
    · rw [if_neg (not_lt.mpr (Nat.le_of_lt h1))]
      split
      · simp
      · split
        · simp
        · simp

/-- C18. Export buffer safety. When `EXPORT_BUF_INITAL_SIZE` is a valid `int` of
91 or more, the fields of the records fit their C types and no doubling of
`buf_size` overflows `int`, then for every run of `rte_table_export_to_file`:
every line is at most 90 characters long; at every record of every chain the
run has met no undefined behaviour, and while it is going `buf_end_offset` is
strictly below `buf_size`, the grow test leaves at least 91 free bytes (or the
failed `realloc` ends the process), the line and its terminating NUL fit into
the buffer, the line is stored whole, and the offset is again strictly below
`buf_size`; the traversal and the whole function never store or read past the
end of the buffer. -/
theorem export_buffer_safety (cfg : Config) (env : ExportEnv) (table : rte_table_netflow)
    (filename : String)
    (h91 : 91 ≤ cfg.EXPORT_BUF_INITAL_SIZE) (hmax : cfg.EXPORT_BUF_INITAL_SIZE ≤ INT_MAX)
    (hwf : ∀ b ∈ all_records table, bucket_wf b)
    (hov : ∀ i, i < table.n_entries → ∀ j, j < (table.array i).length →
      (export_reach cfg env table i j).status = RunStatus.running →
      (export_reach cfg env table i j).buf_size -
          (export_reach cfg env table i j).buf_end_offset ≤ 91 →
        (export_reach cfg env table i j).buf_size * 2 ≤ INT_MAX) :
    (∀ b ∈ all_records table, (csv_line cfg b).length ≤ 90) ∧
    (∀ i, i < table.n_entries → ∀ j b, (table.array i)[j]? = some b →
      (export_reach cfg env table i j).status ≠ RunStatus.undefined_behaviour ∧
      ((export_reach cfg env table i j).status = RunStatus.running →
        (export_reach cfg env table i j).buf_end_offset <
          (export_reach cfg env table i j).buf_size ∧
        (export_grow env (export_reach cfg env table i j)).status ≠
          RunStatus.undefined_behaviour ∧
        ((export_grow env (export_reach cfg env table i j)).status = RunStatus.running →
          91 ≤ (export_grow env (export_reach cfg env table i j)).buf_size -
            (export_grow env (export_reach cfg env table i j)).buf_end_offset ∧
          (export_grow env (export_reach cfg env table i j)).buf_end_offset +
              (csv_line cfg b).length + 1 ≤
            (export_grow env (export_reach cfg env table i j)).buf_size ∧
          (export_record cfg env (export_reach cfg env table i j) b).status =
            RunStatus.running ∧
          (export_record cfg env (export_reach cfg env table i j) b).data =
            (export_reach cfg env table i j).data ++ csv_line cfg b ∧
          (export_record cfg env (export_reach cfg env table i j) b).buf_end_offset <
            (export_record cfg env (export_reach cfg env table i j) b).buf_size))) ∧
    (export_buffer cfg env table).status ≠ RunStatus.undefined_behaviour ∧
    (rte_table_export_to_file cfg env table filename).status ≠
      RunStatus.undefined_behaviour := by
  have hsafe := export_reach_safe cfg env table h91 hmax hwf hov
  refine ⟨fun b hb => csv_line_length_le cfg b (hwf b hb), ?_,
    export_to_file_safe cfg env table filename (hsafe _ (le_refl _)).1⟩
  intro i hi j b hb
  have hj : j < (table.array i).length := by
    by_contra hge
    rw [List.getElem?_eq_none (not_lt.mp hge)] at hb
    cases hb
  have hbm : b ∈ table.array i := by
    rw [List.getElem?_eq_getElem hj] at hb
    injection hb with hb
    rw [← hb]
    exact List.getElem_mem _
  have hbw : bucket_wf b := by
    apply hwf
    unfold all_records
    exact List.mem_flatMap.2 ⟨i, List.mem_range.2 hi, hbm⟩
  obtain ⟨s0, s1⟩ := (hsafe i (Nat.le_of_lt hi)).2 hi j (Nat.le_of_lt hj)
  refine ⟨s0, fun hrun => ?_⟩
  obtain ⟨a1, a2, a3⟩ := s1 hrun
  obtain ⟨g0, -, g2⟩ := export_record_safe cfg env _ b hrun a1 a2 a3 hbw (hov i hi j hj hrun)
  refine ⟨a1, g0, fun hg => ?_⟩
  obtain ⟨-, -, -, k4, k5, k6, k7, -, -, k10⟩ := g2 hg
  exact ⟨k4, k5, k6, k7, k10⟩

/-- Instance of the buffer safety theorem: a buffer of 91 bytes at the start,
which the first record doubles, and the table of two slots and three records. -/
theorem export_buffer_safety_witness :
    91 ≤ cfg_small.EXPORT_BUF_INITAL_SIZE ∧
    (export_grow (env_ok 0) (export_reach cfg_small (env_ok 0) table_example 0 0)).buf_size =
      182 ∧
    (csv_line cfg_small record_tcp).length ≤ 90 ∧
    (rte_table_export_to_file cfg_small (env_ok 0) table_example "flows.csv").status ≠
      RunStatus.undefined_behaviour :=
  ⟨by decide, by decide,
   (export_buffer_safety cfg_small (env_ok 0) table_example "flows.csv" (by decide) (by decide)
      (by decide) (by decide)).1 record_tcp (by decide),
   (export_buffer_safety cfg_small (env_ok 0) table_example "flows.csv" (by decide) (by decide)
      (by decide) (by decide)).2.2.2⟩

end Netflow
